import Mathlib

/-!
Verification of the multi-key quicksort (`mk_qsort_tuple.c`) of the
repository, shallowly embedded over `List α`.

The `SortTuple` array is a `List α` for an abstract tuple type `α`; the
`Tuplesortstate` fields that the sort consumes (comparator callbacks,
null probes, the duplicate-handler presence flag) are fields of a Lean
structure.  The in-place pointer arithmetic of the C code becomes
index-based `List.set`/`List.getD` operations; recursion on sub-slices
(`x + dist`) becomes recursion on `take`/`drop` slices spliced back with
`++`.  All loops are embedded structurally: the inner partition scans and
the outer recursion carry an explicit step counter ("fuel"); a counter
large enough for the loop bound makes the embedding's behaviour coincide
with the C loops, and exhausting the counter models an abort
(cancellation), mirroring `CHECK_FOR_INTERRUPTS`.
-/

namespace MkQsort

variable {α : Type}

/-- Read element `i`; out-of-range reads give `default` (such reads are
undefined behaviour in the C source and are proved unreachable). -/
def aget [Inhabited α] (x : List α) (i : Nat) : α :=
  x.getD i default

/-- `mkqs_swap` (mk_qsort_tuple.c lines 24-36): swap two tuples of the
array.  Out-of-range indices leave the list unchanged (unreachable). -/
def mkqs_swap [Inhabited α] (a b : Nat) (x : List α) : List α :=
  if a = b then x
  else if a < x.length ∧ b < x.length then
    (x.set a (aget x b)).set b (aget x a)
  else x

/-- `mkqs_vec_swap` (lines 38-51): swap `size` tuples by batch. -/
def mkqs_vec_swap [Inhabited α] (a b size : Nat) (x : List α) : List α :=
  match size with
  | 0 => x
  | size + 1 => mkqs_vec_swap (a + 1) (b + 1) size (mkqs_swap a b x)

/-! ## The sort state and the comparator stack -/

/-- `MkqsCompFuncType`: tag selecting the specialized leading-key
comparator (`SIZEOF_DATUM >= 8` is assumed, so `SIGNED` is available). -/
inductive MkqsCompFuncType
  | UNSIGNED
  | SIGNED
  | INT32
  | GENERIC
deriving DecidableEq, Repr

/-- The fields of `Tuplesortstate` that `mk_qsort_tuple` consumes.  The
comparator callbacks of the collaborator (`ApplySortComparator`,
`ApplyUnsignedSortComparator`, ..., already applied to the datums the C
code feeds them) are abstract functions on tuples:

* `applyUnsignedCmp t1 t2` is `ApplyUnsignedSortComparator(t1->datum1,
  t1->isnull1, t2->datum1, t2->isnull1, &sortKeys[0])`, and similarly
  for `applySignedCmp`, `applyInt32Cmp`;
* `applyGenericCmp0 t1 t2` is `ApplySortComparator` on the stored
  leading datums with `sortKeys[0]`;
* `applyAbbrevFullCmp t1 t2` is `ApplySortAbbrevFullComparator` on the
  full leading datums fetched through `mkqsGetDatumFunc`;
* `applyCmpAt d t1 t2` is `ApplySortComparator` on the datums fetched
  through `mkqsGetDatumFunc` at depth `d` with `sortKeys[d]`;
* `isnull1 t` is the stored `t->isnull1` flag, and `datumNullAt d t` the
  null flag fetched through `mkqsGetDatumFunc` at depth `d`;
* `mkqsHandleDupFunc` records only whether the duplicate handler is
  set; its invocations are collected in the sort's result. -/
structure Tuplesortstate (α : Type) where
  nKeys : Nat
  mkqsCompFuncType : MkqsCompFuncType
  abbrevConverter : Bool
  applyUnsignedCmp : α → α → Int
  applySignedCmp : α → α → Int
  applyInt32Cmp : α → α → Int
  applyGenericCmp0 : α → α → Int
  applyAbbrevFullCmp : α → α → Int
  applyCmpAt : Nat → α → α → Int
  isnull1 : α → Bool
  datumNullAt : Nat → α → Bool
  mkqsHandleDupFunc : Bool

variable {α : Type}

/-- `check_datum_null` (lines 58-75). -/
def check_datum_null (s : Tuplesortstate α) (x : α) (depth : Nat) : Bool :=
  if depth = 0 then s.isnull1 x
  else s.datumNullAt depth x

/-- `mkqs_compare_datum_tiebreak` (lines 94-143). -/
def mkqs_compare_datum_tiebreak (s : Tuplesortstate α) (tuple1 tuple2 : α)
    (depth : Nat) : Int :=
  if s.abbrevConverter ∧ depth = 0 then s.applyAbbrevFullCmp tuple1 tuple2
  else s.applyCmpAt depth tuple1 tuple2

/-- `mkqs_compare_datum_by_shortcut` (lines 151-191). -/
def mkqs_compare_datum_by_shortcut (s : Tuplesortstate α) (tuple1 tuple2 : α) : Int :=
  match s.mkqsCompFuncType with
  | .UNSIGNED => s.applyUnsignedCmp tuple1 tuple2
  | .SIGNED => s.applySignedCmp tuple1 tuple2
  | .INT32 => s.applyInt32Cmp tuple1 tuple2
  | .GENERIC => s.applyGenericCmp0 tuple1 tuple2

/-- `mkqs_compare_datum` (lines 205-234). -/
def mkqs_compare_datum (s : Tuplesortstate α) (tuple1 tuple2 : α) (depth : Nat) : Int :=
  if depth = 0 then
    let ret := mkqs_compare_datum_by_shortcut s tuple1 tuple2
    if ret ≠ 0 then ret
    else if ¬ s.abbrevConverter then ret
    else mkqs_compare_datum_tiebreak s tuple1 tuple2 depth
  else mkqs_compare_datum_tiebreak s tuple1 tuple2 depth

/-- The `while (depth < state->base.nKeys)` loop of
`mkqs_compare_tuple_by_range_tiebreak` (lines 308-330), embedded
structurally on the remaining-depth count `k = nKeys - depth`. -/
def mkqs_range_loop (s : Tuplesortstate α) (tuple1 tuple2 : α) :
    Nat → Nat → Int
  | _, 0 => 0
  | depth, k + 1 =>
    let ret := s.applyCmpAt depth tuple1 tuple2
    if ret ≠ 0 then ret
    else mkqs_range_loop s tuple1 tuple2 (depth + 1) k

/-- `mkqs_compare_tuple_by_range_tiebreak` (lines 255-334). -/
def mkqs_compare_tuple_by_range_tiebreak (s : Tuplesortstate α)
    (tuple1 tuple2 : α) (depth : Nat) : Int :=
  if depth = 0 then
    if s.abbrevConverter then
      let ret := s.applyAbbrevFullCmp tuple1 tuple2
      if ret ≠ 0 then ret
      else mkqs_range_loop s tuple1 tuple2 1 (s.nKeys - 1)
    else mkqs_range_loop s tuple1 tuple2 1 (s.nKeys - 1)
  else mkqs_range_loop s tuple1 tuple2 depth (s.nKeys - depth)

/-- `mkqs_compare_tuple_by_range` (lines 346-373). -/
def mkqs_compare_tuple_by_range (s : Tuplesortstate α) (tuple1 tuple2 : α)
    (depth : Nat) : Int :=
  if depth = 0 then
    let ret := mkqs_compare_datum_by_shortcut s tuple1 tuple2
    if ret ≠ 0 then ret
    else mkqs_compare_tuple_by_range_tiebreak s tuple1 tuple2 depth
  else mkqs_compare_tuple_by_range_tiebreak s tuple1 tuple2 depth

/-- Modelled from the spec: the full-tuple comparators
`qsort_tuple_unsigned_compare`, `qsort_tuple_signed_compare` and
`qsort_tuple_int32_compare` used by `mkqs_compare_tuple` (lines 378-402)
are not part of the source under verification; per the spec they compare
the leading keys with the specialized comparator and resolve equal
leading keys through the remaining sort keys, which is exactly the range
comparison from depth 0. -/
def mkqs_compare_tuple (s : Tuplesortstate α) (a b : α) : Int :=
  mkqs_compare_tuple_by_range s a b 0

/-- `get_median_from_three` (lines 237-250), over slice indices. -/
def get_median_from_three [Inhabited α] (s : Tuplesortstate α)
    (a b c : Nat) (x : List α) (depth : Nat) : Nat :=
  if mkqs_compare_datum s (aget x a) (aget x b) depth < 0 then
    if mkqs_compare_datum s (aget x b) (aget x c) depth < 0 then b
    else if mkqs_compare_datum s (aget x a) (aget x c) depth < 0 then c
    else a
  else
    if mkqs_compare_datum s (aget x b) (aget x c) depth > 0 then b
    else if mkqs_compare_datum s (aget x a) (aget x c) depth < 0 then a
    else c

/-- Specification-side lexicographic comparison: the first non-zero
`mkqs_compare_datum` over depths `[depth, nKeys)` (0 when all are
equal), written with the remaining-depth count as the recursion
argument. -/
def mkqs_lex_loop (s : Tuplesortstate α) (tuple1 tuple2 : α) :
    Nat → Nat → Int
  | _, 0 => 0
  | depth, k + 1 =>
    let ret := mkqs_compare_datum s tuple1 tuple2 depth
    if ret ≠ 0 then ret
    else mkqs_lex_loop s tuple1 tuple2 (depth + 1) k

/-- Lexicographic comparison induced by the sort keys, starting at a
depth: the first non-zero per-depth comparison. -/
def mkqs_lex (s : Tuplesortstate α) (tuple1 tuple2 : α) (depth : Nat) : Int :=
  mkqs_lex_loop s tuple1 tuple2 depth (s.nKeys - depth)

/-! ## The three-way partition (lines 562-654)

The two inner scans and the outer loop of the Bentley-McIlroy partition
are embedded with an explicit step counter (first argument); the counters
passed by the callers strictly dominate the loop bounds, so the embedded
loops run exactly as the C loops do. -/

/-- The left inner scan (lines 595-613): advance `lessEnd` over tuples
`<=` pivot, swapping tuples `==` pivot down to `lessStart`.  Returns the
array and the updated `lessStart`, `lessEnd`. -/
def mkqs_scan_left [Inhabited α] (s : Tuplesortstate α) (depth : Nat) (pivot : α) :
    Nat → List α → Nat → Nat → Nat → List α × Nat × Nat
  | 0, x, lessStart, lessEnd, _ => (x, lessStart, lessEnd)
  | fuel + 1, x, lessStart, lessEnd, greaterStart =>
    if lessEnd ≤ greaterStart then
      let dist := mkqs_compare_datum s (aget x lessEnd) pivot depth
      if dist > 0 then (x, lessStart, lessEnd)
      else if dist = 0 then
        mkqs_scan_left s depth pivot fuel (mkqs_swap lessEnd lessStart x)
          (lessStart + 1) (lessEnd + 1) greaterStart
      else
        mkqs_scan_left s depth pivot fuel x lessStart (lessEnd + 1) greaterStart
    else (x, lessStart, lessEnd)

/-- The right inner scan (lines 616-634): retract `greaterStart` over
tuples `>=` pivot, swapping tuples `==` pivot up to `greaterEnd`.
Returns the array and the updated `greaterStart`, `greaterEnd`. -/
def mkqs_scan_right [Inhabited α] (s : Tuplesortstate α) (depth : Nat) (pivot : α) :
    Nat → List α → Nat → Nat → Nat → List α × Nat × Nat
  | 0, x, greaterStart, greaterEnd, _ => (x, greaterStart, greaterEnd)
  | fuel + 1, x, greaterStart, greaterEnd, lessEnd =>
    if lessEnd ≤ greaterStart then
      let dist := mkqs_compare_datum s (aget x greaterStart) pivot depth
      if dist < 0 then (x, greaterStart, greaterEnd)
      else if dist = 0 then
        mkqs_scan_right s depth pivot fuel (mkqs_swap greaterStart greaterEnd x)
          (greaterStart - 1) (greaterEnd - 1) lessEnd
      else
        mkqs_scan_right s depth pivot fuel x (greaterStart - 1) greaterEnd lessEnd
    else (x, greaterStart, greaterEnd)

/-- The outer partition loop (lines 590-641): run both scans, stop when
the cursors cross, otherwise swap across and continue.  Returns the
array and the final `lessStart`, `lessEnd`, `greaterStart`,
`greaterEnd`. -/
def mkqs_part_loop [Inhabited α] (s : Tuplesortstate α) (depth : Nat) (pivot : α) :
    Nat → List α → Nat → Nat → Nat → Nat → List α × Nat × Nat × Nat × Nat
  | 0, x, lessStart, lessEnd, greaterStart, greaterEnd =>
    (x, lessStart, lessEnd, greaterStart, greaterEnd)
  | fuel + 1, x, lessStart, lessEnd, greaterStart, greaterEnd =>
    match mkqs_scan_left s depth pivot (greaterStart + 2) x lessStart lessEnd greaterStart with
    | (x1, lessStart1, lessEnd1) =>
      match mkqs_scan_right s depth pivot (greaterStart + 2) x1 greaterStart greaterEnd lessEnd1 with
      | (x2, greaterStart2, greaterEnd2) =>
        if lessEnd1 > greaterStart2 then (x2, lessStart1, lessEnd1, greaterStart2, greaterEnd2)
        else
          mkqs_part_loop s depth pivot fuel (mkqs_swap lessEnd1 greaterStart2 x2)
            lessStart1 (lessEnd1 + 1) (greaterStart2 - 1) greaterEnd2

/-- Pivot selection (lines 562-579): the value left in `lessStart`
before the `mkqs_swap(0, lessStart, x)` call. -/
def mkqs_choose_pivot [Inhabited α] (s : Tuplesortstate α) (x : List α)
    (n depth : Nat) : Nat :=
  if n > 7 then
    let m := n / 2
    let l := 0
    let r := n - 1
    if n > 40 then
      let d := n / 8
      let l := get_median_from_three s l (l + d) (l + 2 * d) x depth
      let m := get_median_from_three s (m - d) m (m + d) x depth
      let r := get_median_from_three s (r - 2 * d) (r - d) r x depth
      get_median_from_three s l m r x depth
    else
      get_median_from_three s l m r x depth
  else n / 2

/-- Pivot selection, pivot swap to position 0 and the partition loop
(lines 562-641) on a slice of length `n`. -/
def mkqs_partition [Inhabited α] (s : Tuplesortstate α) (x : List α)
    (n depth : Nat) : List α × Nat × Nat × Nat × Nat :=
  let lessStart := mkqs_choose_pivot s x n depth
  let x1 := mkqs_swap 0 lessStart x
  let pivot := aget x1 0
  mkqs_part_loop s depth pivot (n + 1) x1 1 1 (n - 1) (n - 1)

/-- The two folding block swaps (lines 648-654) that move the edge equal
regions to the middle. -/
def mkqs_fold_equals [Inhabited α] (x : List α) (n lessStart lessEnd greaterStart greaterEnd : Nat) :
    List α :=
  let dist1 := min lessStart (lessEnd - lessStart)
  let x3 := mkqs_vec_swap 0 (lessEnd - dist1) dist1 x
  let dist2 := min (greaterEnd - greaterStart) (n - greaterEnd - 1)
  mkqs_vec_swap lessEnd (n - dist2) dist2 x3

/-- Complete three-way partition of a slice: pivot selection, partition
loop and the folding swaps; returns the folded array together with the
final cursor values. -/
def mkqs_partition_and_fold [Inhabited α] (s : Tuplesortstate α) (x : List α)
    (n depth : Nat) : List α × Nat × Nat × Nat × Nat :=
  match mkqs_partition s x n depth with
  | (x2, lessStart, lessEnd, greaterStart, greaterEnd) =>
    (mkqs_fold_equals x2 n lessStart lessEnd greaterStart greaterEnd,
      lessStart, lessEnd, greaterStart, greaterEnd)

/-! ## Pre-ordered checks and the small-N fallback -/

/-- The pre-ordered scan for a specialized comparator (lines 485-495):
true iff every adjacent pair of the first `count + 1` tuples starting at
`i` compares `<= 0` by the full-tuple comparator. -/
def mkqs_preordered_loop [Inhabited α] (s : Tuplesortstate α) (x : List α) :
    Nat → Nat → Bool
  | _, 0 => true
  | i, count + 1 =>
    if mkqs_compare_tuple s (aget x i) (aget x (i + 1)) > 0 then false
    else mkqs_preordered_loop s x (i + 1) count

/-- The strict-order scan for the generic comparator (lines 517-529):
true iff every adjacent pair compares `< 0` at the given depth. -/
def mkqs_strict_ordered_loop [Inhabited α] (s : Tuplesortstate α) (x : List α)
    (depth : Nat) : Nat → Nat → Bool
  | _, 0 => true
  | i, count + 1 =>
    if mkqs_compare_datum s (aget x i) (aget x (i + 1)) depth ≥ 0 then false
    else mkqs_strict_ordered_loop s x depth (i + 1) count

/-- The pre-ordered short-circuit (lines 471-533): for a specialized
comparator the full-tuple non-strict check, performed only at depth 0;
for the generic comparator the strict per-datum check at the current
depth. -/
def mkqs_preordered_check [Inhabited α] (s : Tuplesortstate α) (x : List α)
    (n depth : Nat) : Bool :=
  if s.mkqsCompFuncType ≠ .GENERIC then
    if depth = 0 then mkqs_preordered_loop s x 0 (n - 1) else false
  else
    mkqs_strict_ordered_loop s x depth 0 (n - 1)

/-- Inner loop of the small-N insertion sort (lines 552-558): bubble the
tuple at position `l` down while it is strictly smaller than its left
neighbour by the range comparison. -/
def mkqs_bubble_inner [Inhabited α] (s : Tuplesortstate α) (depth : Nat) :
    List α → Nat → List α
  | x, 0 => x
  | x, l + 1 =>
    if mkqs_compare_tuple_by_range s (aget x l) (aget x (l + 1)) depth ≤ 0 then x
    else mkqs_bubble_inner s depth (mkqs_swap (l + 1) l x) l

/-- Outer loop of the small-N insertion sort (lines 551-558), running
`m` from `i` over the next `count` positions. -/
def mkqs_bubble [Inhabited α] (s : Tuplesortstate α) (depth : Nat) :
    List α → Nat → Nat → List α
  | x, _, 0 => x
  | x, m, count + 1 => mkqs_bubble s depth (mkqs_bubble_inner s depth x m) (m + 1) count

/-! ## The recursive driver (lines 432-730) -/

/-- One recorded invocation of `mkqsHandleDupFunc`: the tuple slice it
was handed, the `tupCount` argument, the recursion depth at the call
site, and the `seenNull` argument. -/
structure DupCall (α : Type) where
  slice : List α
  len : Nat
  depth : Nat
  seenNull : Bool
deriving Repr, DecidableEq

/-- Result of a (possibly aborted) `mk_qsort_tuple` run: the final
array, the duplicate-handler invocations in order, and whether the run
completed (`ok = false` means the step counter was exhausted, modelling
a cancellation that unwound the recursion). -/
structure MkqsResult (α : Type) where
  arr : List α
  dups : List (DupCall α)
  ok : Bool
deriving Repr, DecidableEq

/-- `mk_qsort_tuple` (lines 432-730) on the slice `x` of length `n`
(the whole list), with an explicit recursion counter.  Sub-slice
recursion (`x + offset` in C) is rendered as recursion on
`take`/`drop` slices spliced back with `++`.  The pivot pointer of the C
code always refers to position 0, which the partition loop never moves,
so the pivot is captured by value. -/
def mk_qsort_tuple_fuel [Inhabited α] (s : Tuplesortstate α) :
    Nat → List α → Nat → Nat → Bool → MkqsResult α
  | 0, x, _, _, _ => ⟨x, [], false⟩
  | fuel + 1, x, n, depth, seenNull =>
    if n ≤ 1 then ⟨x, [], true⟩
    else if depth = s.nKeys then ⟨x, [], true⟩
    else if mkqs_preordered_check s x n depth then ⟨x, [], true⟩
    else if n < 16 ∧ ¬ s.mkqsHandleDupFunc then ⟨mkqs_bubble s depth x 0 n, [], true⟩
    else
      match mkqs_partition_and_fold s x n depth with
      | (x4, lessStart, lessEnd, _greaterStart, greaterEnd) =>
        let distL := lessEnd - lessStart
        let r1 := mk_qsort_tuple_fuel s fuel (x4.take distL) distL depth seenNull
        let x5 := r1.arr ++ x4.drop distL
        let isDatumNull := check_datum_null s (aget x5 distL) depth
        let tupCount := lessStart + n - greaterEnd - 1
        let eqSlice := (x5.drop distL).take tupCount
        let r2 :=
          if depth < s.nKeys - 1 then
            mk_qsort_tuple_fuel s fuel eqSlice tupCount (depth + 1) (seenNull || isDatumNull)
          else if s.mkqsHandleDupFunc ∧ tupCount > 1 then
            ⟨eqSlice, [⟨eqSlice, tupCount, depth, seenNull || isDatumNull⟩], true⟩
          else ⟨eqSlice, [], true⟩
        let x6 := x5.take distL ++ r2.arr ++ x5.drop (distL + tupCount)
        let distG := greaterEnd - _greaterStart
        let r3 := mk_qsort_tuple_fuel s fuel ((x6.drop (n - distG)).take distG) distG depth seenNull
        let x7 := x6.take (n - distG) ++ r3.arr
        ⟨x7, r1.dups ++ r2.dups ++ r3.dups, r1.ok && r2.ok && r3.ok⟩

/-- Sufficient recursion counter for a call on a slice of length `n` at
a depth: every recursive call strictly decreases `n * (nKeys + 1 -
depth)`. -/
def mkqs_enough_fuel (s : Tuplesortstate α) (n depth : Nat) : Nat :=
  n * (s.nKeys + 1 - depth) + 1

/-- The entry point: `mk_qsort_tuple` run with a sufficient counter. -/
def mk_qsort_tuple [Inhabited α] (s : Tuplesortstate α) (x : List α)
    (n depth : Nat) (seenNull : Bool) : MkqsResult α :=
  mk_qsort_tuple_fuel s (mkqs_enough_fuel s n depth) x n depth seenNull

/-! ## Specification-side predicates -/

/-- Well-behaved comparator: sign-antisymmetric and transitive on
`<= 0`.  Every `ApplySortComparator`-style callback (a total preorder
comparison honouring direction and null placement) satisfies this. -/
structure CmpOK (cmp : α → α → Int) : Prop where
  asym : ∀ a b, cmp a b < 0 ↔ cmp b a > 0
  le_trans : ∀ a b c, cmp a b ≤ 0 → cmp b c ≤ 0 → cmp a c ≤ 0

/-- All per-depth comparisons of a state are well-behaved. -/
def StateCmpOK (s : Tuplesortstate α) : Prop :=
  ∀ depth, depth < s.nKeys → CmpOK (fun a b => mkqs_compare_datum s a b depth)

/-- Null observation is consistent with comparison: tuples equal at a
depth agree on null-ness there (comparators place NULL before or after
every non-NULL value, so equal datums are either both NULL or both
non-NULL). -/
def StateNullOK (s : Tuplesortstate α) : Prop :=
  ∀ depth, depth < s.nKeys → ∀ a b, mkqs_compare_datum s a b depth = 0 →
    check_datum_null s a depth = check_datum_null s b depth

/-- `m` is a median position among positions `a`, `b`, `c` of `x` under
the depth comparison: it is one of the three, and the other two straddle
it. -/
def IsMedianIdx [Inhabited α] (s : Tuplesortstate α) (x : List α) (depth : Nat)
    (a b c m : Nat) : Prop :=
  ∃ p q, List.Perm [m, p, q] [a, b, c] ∧
    mkqs_compare_datum s (aget x p) (aget x m) depth ≤ 0 ∧
    mkqs_compare_datum s (aget x m) (aget x q) depth ≤ 0

/-- Tuples equal at every configured sort key. -/
def EqAllKeys (s : Tuplesortstate α) (a b : α) : Prop :=
  ∀ depth, depth < s.nKeys → mkqs_compare_datum s a b depth = 0

/-- Adjacent-pairs order: every element compares `<= 0` to its right
neighbour. -/
def AdjSorted [Inhabited α] (cmp : α → α → Int) (x : List α) : Prop :=
  ∀ i, i + 1 < x.length → cmp (aget x i) (aget x (i + 1)) ≤ 0

instance (s : Tuplesortstate α) (a b : α) : Decidable (EqAllKeys s a b) :=
  inferInstanceAs (Decidable (∀ d, d < s.nKeys → mkqs_compare_datum s a b d = 0))

/-- Membership test for the equivalence class (under equality at every
sort key) of a reference tuple `a`. -/
def mkqs_class (s : Tuplesortstate α) (a : α) : α → Bool :=
  fun u => decide (EqAllKeys s u a)

/-- Whether a recorded duplicate-handler call received at least one tuple
of the class of `a`. -/
def mkqs_touches (s : Tuplesortstate α) (a : α) : DupCall α → Bool :=
  fun c => decide (0 < c.slice.countP (mkqs_class s a))

/-! ## A concrete carrier for witnesses

Tuples are triples `(key0, key1, id)`: two sort keys that are `Int`
values or NULL (`none`), and an identity tag invisible to all
comparators. -/

/-- Nulls-last ascending comparison of optional integers. -/
def ocmp : Option Int → Option Int → Int
  | none, none => 0
  | none, some _ => 1
  | some _, none => -1
  | some a, some b => if a < b then -1 else if b < a then 1 else 0

/-- Concrete tuple carrier: two optional integer keys and an id tag. -/
abbrev TestTuple : Type := Option Int × Option Int × Nat

/-- A two-key test state over `TestTuple`; the comparator kind and the
duplicate-handler presence flag are parameters. -/
def testState (kind : MkqsCompFuncType) (dup : Bool) : Tuplesortstate TestTuple where
  nKeys := 2
  mkqsCompFuncType := kind
  abbrevConverter := false
  applyUnsignedCmp := fun a b => ocmp a.1 b.1
  applySignedCmp := fun a b => ocmp a.1 b.1
  applyInt32Cmp := fun a b => ocmp a.1 b.1
  applyGenericCmp0 := fun a b => ocmp a.1 b.1
  applyAbbrevFullCmp := fun _ _ => 0
  applyCmpAt := fun depth a b =>
    if depth = 0 then ocmp a.1 b.1
    else if depth = 1 then ocmp a.2.1 b.2.1
    else 0
  isnull1 := fun a => a.1.isNone
  datumNullAt := fun depth a =>
    if depth = 0 then a.1.isNone
    else if depth = 1 then a.2.1.isNone
    else false
  mkqsHandleDupFunc := dup

/-! ## Theorems: basic facts about the array primitives -/

@[simp] theorem length_mkqs_swap [Inhabited α] (a b : Nat) (x : List α) :
    (mkqs_swap a b x).length = x.length := by
  unfold mkqs_swap
  split
  · rfl
  · split <;> simp

@[simp] theorem length_mkqs_vec_swap [Inhabited α] (a b size : Nat) (x : List α) :
    (mkqs_vec_swap a b size x).length = x.length := by
  induction size generalizing a b x with
  | zero => rfl
  | succ n ih => simp [mkqs_vec_swap, ih]

theorem aget_eq_getElem [Inhabited α] (x : List α) (i : Nat) (h : i < x.length) :
    aget x i = x[i] := by
  simp [aget, List.getD_eq_getElem?_getD, List.getElem?_eq_getElem h]

theorem aget_of_ge [Inhabited α] (x : List α) (i : Nat) (h : x.length ≤ i) :
    aget x i = default := by
  simp [aget, List.getD_eq_getElem?_getD, List.getElem?_eq_none h]

/-- Pointwise description of `mkqs_swap` for in-range indices. -/
theorem aget_mkqs_swap [Inhabited α] (a b : Nat) (x : List α)
    (ha : a < x.length) (hb : b < x.length) (i : Nat) :
    aget (mkqs_swap a b x) i =
      if i = b then aget x a else if i = a then aget x b else aget x i := by
  by_cases hab : a = b
  · subst hab
    rcases eq_or_ne i a with h | h <;> simp [mkqs_swap, h]
  · unfold mkqs_swap
    rw [if_neg hab, if_pos ⟨ha, hb⟩]
    simp only [aget, List.getD_eq_getElem?_getD]
    rw [List.getElem?_set, List.getElem?_set]
    simp only [List.length_set]
    by_cases hib : i = b
    · subst hib
      simp [hb]
    · rw [if_neg (by omega : ¬ b = i), if_neg hib]
      by_cases hia : i = a
      · subst hia
        simp [ha]
      · rw [if_neg (by omega : ¬ a = i), if_neg hia]

/-- Swapping an element with the head, as a permutation. -/
theorem set_head_cons_perm [Inhabited α] :
    ∀ (t : List α) (k : Nat), k < t.length →
      ∀ v : α, List.Perm (aget t k :: t.set k v) (v :: t) := by
  intro t
  induction t with
  | nil => intro k hk; simp at hk
  | cons y t ih =>
    intro k hk v
    match k with
    | 0 =>
      simp only [aget, List.getD_cons_zero, List.set_cons_zero]
      exact List.Perm.swap v y t
    | k + 1 =>
      simp only [aget, List.getD_cons_succ, List.set_cons_succ]
      have h1 : List.Perm (t.getD k default :: y :: t.set k v)
          (y :: t.getD k default :: t.set k v) := List.Perm.swap y _ _
      have h2 : List.Perm (y :: t.getD k default :: t.set k v) (y :: v :: t) :=
        List.Perm.cons y (ih k (by simpa using hk) v)
      have h3 : List.Perm (y :: v :: t) (v :: y :: t) := List.Perm.swap v y t
      exact (h1.trans h2).trans h3

/-- `mkqs_swap` permutes the array. -/
theorem mkqs_swap_perm [Inhabited α] (a b : Nat) (x : List α) :
    List.Perm (mkqs_swap a b x) x := by
  by_cases hab : a = b
  · simp [mkqs_swap, hab]
  · unfold mkqs_swap
    rw [if_neg hab]
    split
    · next h =>
      obtain ⟨ha, hb⟩ := h
      have hb' : b < (x.set a (aget x b)).length := by simpa using hb
      have step1 : List.Perm (aget (x.set a (aget x b)) b :: (x.set a (aget x b)).set b (aget x a))
          (aget x a :: x.set a (aget x b)) :=
        set_head_cons_perm _ b hb' (aget x a)
      have hgb : aget (x.set a (aget x b)) b = aget x b := by
        rw [aget_eq_getElem _ _ hb', List.getElem_set_ne (by omega)]
        exact (aget_eq_getElem _ _ hb).symm
      rw [hgb] at step1
      have step2 : List.Perm (aget x a :: x.set a (aget x b)) (aget x b :: x) :=
        set_head_cons_perm x a ha (aget x b)
      have := step1.trans step2
      exact this.cons_inv
    · exact List.Perm.refl x

theorem mkqs_vec_swap_perm [Inhabited α] (a b size : Nat) (x : List α) :
    List.Perm (mkqs_vec_swap a b size x) x := by
  induction size generalizing a b x with
  | zero => exact List.Perm.refl x
  | succ n ih => exact (ih (a + 1) (b + 1) (mkqs_swap a b x)).trans (mkqs_swap_perm a b x)

/-- Pointwise description of `mkqs_vec_swap` on two disjoint (or adjacent)
in-range blocks. -/
theorem aget_mkqs_vec_swap [Inhabited α] (size : Nat) :
    ∀ (a b : Nat) (x : List α), a + size ≤ b → b + size ≤ x.length →
      ∀ i : Nat, aget (mkqs_vec_swap a b size x) i =
        if a ≤ i ∧ i < a + size then aget x (b + (i - a))
        else if b ≤ i ∧ i < b + size then aget x (a + (i - b))
        else aget x i := by
  induction size with
  | zero =>
    intro a b x _ _ i
    simp only [mkqs_vec_swap]
    rw [if_neg (by omega), if_neg (by omega)]
  | succ n ih =>
    intro a b x hab hbx i
    simp only [mkqs_vec_swap]
    rw [ih (a + 1) (b + 1) (mkqs_swap a b x) (by omega) (by simp; omega)]
    have ha : a < x.length := by omega
    have hb : b < x.length := by omega
    by_cases h1 : a + 1 ≤ i ∧ i < a + 1 + n
    · rw [if_pos h1, if_pos (show a ≤ i ∧ i < a + (n + 1) by omega),
        aget_mkqs_swap a b x ha hb,
        if_neg (show ¬ b + 1 + (i - (a + 1)) = b by omega),
        if_neg (show ¬ b + 1 + (i - (a + 1)) = a by omega)]
      congr 1
      omega
    · rw [if_neg h1]
      by_cases h2 : b + 1 ≤ i ∧ i < b + 1 + n
      · rw [if_pos h2, aget_mkqs_swap a b x ha hb,
          if_neg (show ¬ a + 1 + (i - (b + 1)) = b by omega),
          if_neg (show ¬ a + 1 + (i - (b + 1)) = a by omega),
          if_neg (show ¬ (a ≤ i ∧ i < a + (n + 1)) by omega),
          if_pos (show b ≤ i ∧ i < b + (n + 1) by omega)]
        congr 1
        omega
      · rw [if_neg h2, aget_mkqs_swap a b x ha hb]
        by_cases hia : i = a
        · rw [if_neg (show ¬ i = b by omega), if_pos hia,
            if_pos (show a ≤ i ∧ i < a + (n + 1) by omega)]
          congr 1
          omega
        · by_cases hib : i = b
          · rw [if_pos hib,
              if_neg (show ¬ (a ≤ i ∧ i < a + (n + 1)) by omega),
              if_pos (show b ≤ i ∧ i < b + (n + 1) by omega)]
            congr 1
            omega
          · rw [if_neg hib, if_neg hia,
              if_neg (show ¬ (a ≤ i ∧ i < a + (n + 1)) by omega),
              if_neg (show ¬ (b ≤ i ∧ i < b + (n + 1)) by omega)]


/-! ## Facts about well-behaved comparators -/

theorem cmpok_refl {cmp : α → α → Int} (h : CmpOK cmp) (a : α) : cmp a a = 0 := by
  have := h.asym a a
  omega

theorem cmpok_eq_symm {cmp : α → α → Int} (h : CmpOK cmp) {a b : α}
    (hab : cmp a b = 0) : cmp b a = 0 := by
  have h1 := h.asym a b
  have h2 := h.asym b a
  omega

theorem cmpok_eq_trans {cmp : α → α → Int} (h : CmpOK cmp) {a b c : α}
    (hab : cmp a b = 0) (hbc : cmp b c = 0) : cmp a c = 0 := by
  have h1 := h.le_trans a b c (by omega) (by omega)
  have hcb := cmpok_eq_symm h hbc
  have hba := cmpok_eq_symm h hab
  have h2 := h.le_trans c b a (by omega) (by omega)
  have h3 := h.asym a c
  have h4 := h.asym c a
  omega

theorem cmpok_lt_of_lt_of_eq {cmp : α → α → Int} (h : CmpOK cmp) {a b c : α}
    (hab : cmp a b < 0) (hbc : cmp b c = 0) : cmp a c < 0 := by
  have h1 : cmp a c ≤ 0 := h.le_trans a b c (by omega) (by omega)
  rcases Int.lt_or_lt_of_ne (a := cmp a c) (b := 0) (by
    intro hz
    have hca := cmpok_eq_symm h hz
    have h2 := h.le_trans b c a (by omega) (by omega)
    have h3 := h.asym a b
    omega) with hlt | hgt
  · exact hlt
  · omega

theorem cmpok_lt_of_eq_of_lt {cmp : α → α → Int} (h : CmpOK cmp) {a b c : α}
    (hab : cmp a b = 0) (hbc : cmp b c < 0) : cmp a c < 0 := by
  have h1 : cmp a c ≤ 0 := h.le_trans a b c (by omega) (by omega)
  rcases Int.lt_or_lt_of_ne (a := cmp a c) (b := 0) (by
    intro hz
    have hca := cmpok_eq_symm h hz
    have h2 := h.le_trans c a b (by omega) (by omega)
    have h3 := h.asym b c
    omega) with hlt | hgt
  · exact hlt
  · omega

theorem cmpok_lt_trans {cmp : α → α → Int} (h : CmpOK cmp) {a b c : α}
    (hab : cmp a b < 0) (hbc : cmp b c < 0) : cmp a c < 0 := by
  have h1 : cmp a c ≤ 0 := h.le_trans a b c (by omega) (by omega)
  rcases Int.lt_or_lt_of_ne (a := cmp a c) (b := 0) (by
    intro hz
    have hca := cmpok_eq_symm h hz
    have h2 : cmp b a < 0 := cmpok_lt_of_lt_of_eq h hbc hca
    have h3 := h.asym a b
    omega) with hlt | hgt
  · exact hlt
  · omega

theorem cmpok_gt_iff {cmp : α → α → Int} (h : CmpOK cmp) (a b : α) :
    cmp a b > 0 ↔ cmp b a < 0 := by
  have := h.asym b a
  omega

/-! ## The lexicographic comparison and the range comparators -/

theorem mkqs_lex_unfold (s : Tuplesortstate α) (t1 t2 : α) (depth : Nat)
    (h : depth < s.nKeys) :
    mkqs_lex s t1 t2 depth =
      (if mkqs_compare_datum s t1 t2 depth ≠ 0 then mkqs_compare_datum s t1 t2 depth
       else mkqs_lex s t1 t2 (depth + 1)) := by
  unfold mkqs_lex
  rw [show s.nKeys - depth = (s.nKeys - (depth + 1)) + 1 by omega]
  simp [mkqs_lex_loop]

theorem mkqs_lex_stop (s : Tuplesortstate α) (t1 t2 : α) (depth : Nat)
    (h : s.nKeys ≤ depth) : mkqs_lex s t1 t2 depth = 0 := by
  unfold mkqs_lex
  rw [show s.nKeys - depth = 0 by omega]
  rfl

theorem mkqs_range_loop_eq_lex_loop (s : Tuplesortstate α) (t1 t2 : α) :
    ∀ k depth, 1 ≤ depth →
      mkqs_range_loop s t1 t2 depth k = mkqs_lex_loop s t1 t2 depth k := by
  intro k
  induction k with
  | zero => intro depth _; rfl
  | succ m ih =>
    intro depth hd
    have hcmp : mkqs_compare_datum s t1 t2 depth = s.applyCmpAt depth t1 t2 := by
      simp [mkqs_compare_datum, mkqs_compare_datum_tiebreak, Nat.pos_iff_ne_zero.mp hd]
    simp only [mkqs_range_loop, mkqs_lex_loop, hcmp, ih (depth + 1) (by omega)]

theorem mkqs_compare_tuple_by_range_eq_lex (s : Tuplesortstate α) (t1 t2 : α)
    (depth : Nat) (h : depth < s.nKeys) :
    mkqs_compare_tuple_by_range s t1 t2 depth = mkqs_lex s t1 t2 depth := by
  by_cases hd : depth = 0
  · subst hd
    have h1 : mkqs_lex s t1 t2 1 = mkqs_lex_loop s t1 t2 1 (s.nKeys - 1) := rfl
    rw [mkqs_lex_unfold s t1 t2 0 h]
    simp only [mkqs_compare_tuple_by_range, mkqs_compare_tuple_by_range_tiebreak,
      mkqs_compare_datum, if_pos rfl]
    by_cases hsc : mkqs_compare_datum_by_shortcut s t1 t2 = 0
    · by_cases hab : s.abbrevConverter
      · by_cases haf : s.applyAbbrevFullCmp t1 t2 = 0
        · simp [hsc, hab, haf, mkqs_compare_datum_tiebreak, h1,
            mkqs_range_loop_eq_lex_loop s t1 t2 (s.nKeys - 1) 1 (by omega)]
        · simp [hsc, hab, haf, mkqs_compare_datum_tiebreak]
      · simp [hsc, hab, h1,
          mkqs_range_loop_eq_lex_loop s t1 t2 (s.nKeys - 1) 1 (by omega)]
    · simp [hsc]
  · have hd1 : 1 ≤ depth := by omega
    simp only [mkqs_compare_tuple_by_range, mkqs_compare_tuple_by_range_tiebreak,
      if_neg hd, mkqs_lex]
    exact mkqs_range_loop_eq_lex_loop s t1 t2 (s.nKeys - depth) depth hd1

theorem mkqs_lex_loop_eq_zero (s : Tuplesortstate α) (t1 t2 : α) :
    ∀ k depth, (∀ j, depth ≤ j → j < depth + k → mkqs_compare_datum s t1 t2 j = 0) →
      mkqs_lex_loop s t1 t2 depth k = 0 := by
  intro k
  induction k with
  | zero => intro depth _; rfl
  | succ m ih =>
    intro depth hall
    have h0 : mkqs_compare_datum s t1 t2 depth = 0 := hall depth (by omega) (by omega)
    simp only [mkqs_lex_loop, h0]
    simp only [ne_eq, not_true_eq_false, if_false]
    exact ih (depth + 1) (fun j h1 h2 => hall j (by omega) (by omega))

theorem mkqs_lex_loop_first (s : Tuplesortstate α) (t1 t2 : α) :
    ∀ k depth j, depth ≤ j → j < depth + k →
      (∀ e, depth ≤ e → e < j → mkqs_compare_datum s t1 t2 e = 0) →
      mkqs_compare_datum s t1 t2 j ≠ 0 →
      mkqs_lex_loop s t1 t2 depth k = mkqs_compare_datum s t1 t2 j := by
  intro k
  induction k with
  | zero => intro depth j h1 h2; omega
  | succ m ih =>
    intro depth j h1 h2 hall hj
    by_cases hdj : j = depth
    · subst hdj
      simp only [mkqs_lex_loop, if_pos hj]
    · have h0 : mkqs_compare_datum s t1 t2 depth = 0 := hall depth (by omega) (by omega)
      simp only [mkqs_lex_loop, h0]
      simp only [ne_eq, not_true_eq_false, if_false]
      exact ih (depth + 1) j (by omega) (by omega)
        (fun e he1 he2 => hall e (by omega) he2) hj

theorem mkqs_lex_eq_zero (s : Tuplesortstate α) (t1 t2 : α) (depth : Nat)
    (hall : ∀ j, depth ≤ j → j < s.nKeys → mkqs_compare_datum s t1 t2 j = 0) :
    mkqs_lex s t1 t2 depth = 0 := by
  unfold mkqs_lex
  exact mkqs_lex_loop_eq_zero s t1 t2 (s.nKeys - depth) depth
    (fun j h1 h2 => hall j h1 (by omega))

theorem mkqs_lex_first (s : Tuplesortstate α) (t1 t2 : α) (depth j : Nat)
    (h1 : depth ≤ j) (h2 : j < s.nKeys)
    (hall : ∀ e, depth ≤ e → e < j → mkqs_compare_datum s t1 t2 e = 0)
    (hj : mkqs_compare_datum s t1 t2 j ≠ 0) :
    mkqs_lex s t1 t2 depth = mkqs_compare_datum s t1 t2 j := by
  unfold mkqs_lex
  exact mkqs_lex_loop_first s t1 t2 (s.nKeys - depth) depth j h1 (by omega) hall hj

/-! ## Medians and pivot selection -/

theorem get_median_from_three_spec [Inhabited α] (s : Tuplesortstate α)
    (x : List α) (depth : Nat)
    (h : CmpOK (fun u v => mkqs_compare_datum s u v depth)) (a b c : Nat) :
    IsMedianIdx s x depth a b c (get_median_from_three s a b c x depth) := by
  unfold get_median_from_three IsMedianIdx
  split_ifs with h1 h2 h3 h4 h5
  · exact ⟨a, c, List.Perm.swap a b [c], by omega, by omega⟩
  · refine ⟨a, b, (List.Perm.swap a c [b]).trans (List.Perm.cons a (List.Perm.swap b c [])),
      by omega, ?_⟩
    have := h.asym (aget x b) (aget x c)
    simp only [gt_iff_lt] at h2 ⊢
    omega
  · refine ⟨c, b, List.Perm.cons a (List.Perm.swap b c []), ?_, by omega⟩
    have := h.asym (aget x a) (aget x c)
    omega
  · refine ⟨c, a, (List.Perm.cons b (List.Perm.swap a c [])).trans (List.Perm.swap a b [c]),
      ?_, ?_⟩
    · have := h.asym (aget x b) (aget x c)
      simp only [gt_iff_lt] at h4
      omega
    · have := h.asym (aget x a) (aget x b)
      omega
  · refine ⟨b, c, List.Perm.refl [a, b, c], ?_, by omega⟩
    have := h.asym (aget x a) (aget x b)
    omega
  · refine ⟨b, a, (List.Perm.swap b c [a]).trans
      ((List.Perm.cons b (List.Perm.swap a c [])).trans (List.Perm.swap a b [c])), ?_, ?_⟩
    · simp only [gt_iff_lt, not_lt] at h4
      exact h4
    · have := h.asym (aget x a) (aget x c)
      omega

theorem isMedianIdx_mem [Inhabited α] {s : Tuplesortstate α} {x : List α}
    {depth a b c m : Nat} (h : IsMedianIdx s x depth a b c m) :
    m = a ∨ m = b ∨ m = c := by
  obtain ⟨p, q, hperm, -, -⟩ := h
  have : m ∈ [a, b, c] := hperm.mem_iff.mp (by simp)
  simpa using this

theorem mkqs_choose_pivot_lt [Inhabited α] (s : Tuplesortstate α) (x : List α)
    (n depth : Nat) (hok : CmpOK (fun u v => mkqs_compare_datum s u v depth))
    (hn : 1 ≤ n) : mkqs_choose_pivot s x n depth < n := by
  unfold mkqs_choose_pivot
  dsimp only
  split_ifs with h7 h40
  · have hl := isMedianIdx_mem (get_median_from_three_spec s x depth hok
      0 (0 + n / 8) (0 + 2 * (n / 8)))
    have hm := isMedianIdx_mem (get_median_from_three_spec s x depth hok
      (n / 2 - n / 8) (n / 2) (n / 2 + n / 8))
    have hr := isMedianIdx_mem (get_median_from_three_spec s x depth hok
      (n - 1 - 2 * (n / 8)) (n - 1 - n / 8) (n - 1))
    have hfin := isMedianIdx_mem (get_median_from_three_spec s x depth hok
      (get_median_from_three s 0 (0 + n / 8) (0 + 2 * (n / 8)) x depth)
      (get_median_from_three s (n / 2 - n / 8) (n / 2) (n / 2 + n / 8) x depth)
      (get_median_from_three s (n - 1 - 2 * (n / 8)) (n - 1 - n / 8) (n - 1) x depth))
    omega
  · have := isMedianIdx_mem (get_median_from_three_spec s x depth hok 0 (n / 2) (n - 1))
    omega
  · omega

theorem mkqs_swap_oob [Inhabited α] (a b : Nat) (x : List α)
    (h : ¬ (a < x.length ∧ b < x.length)) : mkqs_swap a b x = x := by
  unfold mkqs_swap
  by_cases hab : a = b
  · rw [if_pos hab]
  · rw [if_neg hab, if_neg h]

/-! ## The partition scans: basic (comparator-free) facts -/

theorem get_median_from_three_mem [Inhabited α] (s : Tuplesortstate α)
    (a b c : Nat) (x : List α) (depth : Nat) :
    get_median_from_three s a b c x depth = a ∨
    get_median_from_three s a b c x depth = b ∨
    get_median_from_three s a b c x depth = c := by
  unfold get_median_from_three
  split_ifs <;> tauto

theorem mkqs_choose_pivot_lt' [Inhabited α] (s : Tuplesortstate α) (x : List α)
    (n depth : Nat) (hn : 1 ≤ n) : mkqs_choose_pivot s x n depth < n := by
  unfold mkqs_choose_pivot
  dsimp only
  split_ifs with h7 h40
  · have hl := get_median_from_three_mem s 0 (0 + n / 8) (0 + 2 * (n / 8)) x depth
    have hm := get_median_from_three_mem s (n / 2 - n / 8) (n / 2) (n / 2 + n / 8) x depth
    have hr := get_median_from_three_mem s (n - 1 - 2 * (n / 8)) (n - 1 - n / 8) (n - 1) x depth
    have hfin := get_median_from_three_mem s
      (get_median_from_three s 0 (0 + n / 8) (0 + 2 * (n / 8)) x depth)
      (get_median_from_three s (n / 2 - n / 8) (n / 2) (n / 2 + n / 8) x depth)
      (get_median_from_three s (n - 1 - 2 * (n / 8)) (n - 1 - n / 8) (n - 1) x depth)
      x depth
    omega
  · have := get_median_from_three_mem s 0 (n / 2) (n - 1) x depth
    omega
  · omega

theorem mkqs_scan_left_basic [Inhabited α] (s : Tuplesortstate α) (depth : Nat) (p : α) :
    ∀ fuel x ls le gs x2 ls2 le2,
      mkqs_scan_left s depth p fuel x ls le gs = (x2, ls2, le2) →
      ls ≤ le →
      x2.length = x.length ∧ List.Perm x2 x ∧
      ls ≤ ls2 ∧ le ≤ le2 ∧ ls2 + le ≤ le2 + ls ∧ (le ≤ gs + 1 → le2 ≤ gs + 1) ∧
      (∀ i, i < ls → aget x2 i = aget x i) ∧
      (∀ i, le2 ≤ i → aget x2 i = aget x i) ∧
      (gs + 1 ≤ le + fuel → le ≤ gs + 1 →
        (le2 = gs + 1 ∨ (le2 ≤ gs ∧ mkqs_compare_datum s (aget x2 le2) p depth > 0))) := by
  intro fuel
  induction fuel with
  | zero =>
    intro x ls le gs x2 ls2 le2 heq hlsle
    simp only [mkqs_scan_left] at heq
    obtain ⟨rfl, rfl, rfl⟩ : x = x2 ∧ ls = ls2 ∧ le = le2 :=
      ⟨congrArg Prod.fst heq, congrArg (fun t => t.2.1) heq, congrArg (fun t => t.2.2) heq⟩
    refine ⟨rfl, List.Perm.refl x, le_rfl, le_rfl, by omega, by omega, fun i _ => rfl,
      fun i _ => rfl, ?_⟩
    intro h1 h2
    left
    omega
  | succ fuel ih =>
    intro x ls le gs x2 ls2 le2 heq hlsle
    simp only [mkqs_scan_left] at heq
    by_cases hguard : le ≤ gs
    · rw [if_pos hguard] at heq
      by_cases hgt : mkqs_compare_datum s (aget x le) p depth > 0
      · rw [if_pos hgt] at heq
        obtain ⟨rfl, rfl, rfl⟩ : x = x2 ∧ ls = ls2 ∧ le = le2 := by
          exact ⟨congrArg Prod.fst heq, congrArg (fun t => t.2.1) heq,
            congrArg (fun t => t.2.2) heq⟩
        refine ⟨rfl, List.Perm.refl x, le_rfl, le_rfl, by omega, by omega, fun i _ => rfl,
          fun i _ => rfl, ?_⟩
        intro h1 h2
        right
        exact ⟨hguard, hgt⟩
      · rw [if_neg hgt] at heq
        by_cases hz : mkqs_compare_datum s (aget x le) p depth = 0
        · rw [if_pos hz] at heq
          obtain ⟨hlen, hperm, h1, h2, h3, h4, hfb, hfa, hexit⟩ :=
            ih (mkqs_swap le ls x) (ls + 1) (le + 1) gs x2 ls2 le2 heq (by omega)
          have hlen2 : (mkqs_swap le ls x).length = x.length := length_mkqs_swap ..
          refine ⟨hlen.trans hlen2, hperm.trans (mkqs_swap_perm le ls x), by omega, by omega,
            by omega, by omega, ?_, ?_, ?_⟩
          · intro i hi
            rw [hfb i (by omega)]
            by_cases hin : le < x.length ∧ ls < x.length
            · rw [aget_mkqs_swap le ls x hin.1 hin.2 i,
                if_neg (by omega), if_neg (by omega)]
            · rw [mkqs_swap_oob le ls x hin]
          · intro i hi
            rw [hfa i hi]
            by_cases hin : le < x.length ∧ ls < x.length
            · rw [aget_mkqs_swap le ls x hin.1 hin.2 i,
                if_neg (by omega), if_neg (by omega)]
            · rw [mkqs_swap_oob le ls x hin]
          · intro hf hle
            exact hexit (by omega) (by omega)
        · rw [if_neg hz] at heq
          obtain ⟨hlen, hperm, h1, h2, h3, h4, hfb, hfa, hexit⟩ :=
            ih x ls (le + 1) gs x2 ls2 le2 heq (by omega)
          refine ⟨hlen, hperm, h1, by omega, by omega, by omega, hfb, hfa, ?_⟩
          intro hf hle
          exact hexit (by omega) (by omega)
    · rw [if_neg hguard] at heq
      obtain ⟨rfl, rfl, rfl⟩ : x = x2 ∧ ls = ls2 ∧ le = le2 := by
        exact ⟨congrArg Prod.fst heq, congrArg (fun t => t.2.1) heq,
          congrArg (fun t => t.2.2) heq⟩
      refine ⟨rfl, List.Perm.refl x, le_rfl, le_rfl, by omega, by omega, fun i _ => rfl,
        fun i _ => rfl, ?_⟩
      intro h1 h2
      left
      omega

theorem mkqs_scan_right_basic [Inhabited α] (s : Tuplesortstate α) (depth : Nat) (p : α) :
    ∀ fuel x gs ge le x2 gs2 ge2,
      mkqs_scan_right s depth p fuel x gs ge le = (x2, gs2, ge2) →
      gs ≤ ge → 1 ≤ le →
      x2.length = x.length ∧ List.Perm x2 x ∧
      gs2 ≤ gs ∧ ge2 ≤ ge ∧ gs2 + ge ≤ ge2 + gs ∧ gs2 ≤ ge2 ∧
      (le ≤ gs + 1 → le ≤ gs2 + 1) ∧
      (∀ i, i ≤ gs2 → aget x2 i = aget x i) ∧
      (∀ i, ge < i → aget x2 i = aget x i) ∧
      (gs + 2 ≤ le + fuel → le ≤ gs + 1 →
        (gs2 + 1 = le ∨ (le ≤ gs2 ∧ mkqs_compare_datum s (aget x2 gs2) p depth < 0))) := by
  intro fuel
  induction fuel with
  | zero =>
    intro x gs ge le x2 gs2 ge2 heq hgsge hle1
    simp only [mkqs_scan_right] at heq
    obtain ⟨rfl, rfl, rfl⟩ : x = x2 ∧ gs = gs2 ∧ ge = ge2 :=
      ⟨congrArg Prod.fst heq, congrArg (fun t => t.2.1) heq, congrArg (fun t => t.2.2) heq⟩
    refine ⟨rfl, List.Perm.refl x, le_rfl, le_rfl, by omega, hgsge, fun h => h,
      fun i _ => rfl, fun i _ => rfl, ?_⟩
    intro h1 h2
    omega
  | succ fuel ih =>
    intro x gs ge le x2 gs2 ge2 heq hgsge hle1
    simp only [mkqs_scan_right] at heq
    by_cases hguard : le ≤ gs
    · rw [if_pos hguard] at heq
      by_cases hlt : mkqs_compare_datum s (aget x gs) p depth < 0
      · rw [if_pos hlt] at heq
        obtain ⟨rfl, rfl, rfl⟩ : x = x2 ∧ gs = gs2 ∧ ge = ge2 :=
          ⟨congrArg Prod.fst heq, congrArg (fun t => t.2.1) heq,
            congrArg (fun t => t.2.2) heq⟩
        refine ⟨rfl, List.Perm.refl x, le_rfl, le_rfl, by omega, hgsge, fun _ => by omega,
          fun i _ => rfl, fun i _ => rfl, ?_⟩
        intro h1 h2
        right
        exact ⟨hguard, hlt⟩
      · rw [if_neg hlt] at heq
        by_cases hz : mkqs_compare_datum s (aget x gs) p depth = 0
        · rw [if_pos hz] at heq
          obtain ⟨hlen, hperm, h1, h2, h3, h4, h5, hfb, hfa, hexit⟩ :=
            ih (mkqs_swap gs ge x) (gs - 1) (ge - 1) le x2 gs2 ge2 heq (by omega) hle1
          have hlen2 : (mkqs_swap gs ge x).length = x.length := length_mkqs_swap ..
          refine ⟨hlen.trans hlen2, hperm.trans (mkqs_swap_perm gs ge x), by omega, by omega,
            by omega, h4, fun _ => h5 (by omega), ?_, ?_, ?_⟩
          · intro i hi
            rw [hfb i hi]
            by_cases hin : gs < x.length ∧ ge < x.length
            · rw [aget_mkqs_swap gs ge x hin.1 hin.2 i,
                if_neg (by omega), if_neg (by omega)]
            · rw [mkqs_swap_oob gs ge x hin]
          · intro i hi
            rw [hfa i (by omega)]
            by_cases hin : gs < x.length ∧ ge < x.length
            · rw [aget_mkqs_swap gs ge x hin.1 hin.2 i,
                if_neg (by omega), if_neg (by omega)]
            · rw [mkqs_swap_oob gs ge x hin]
          · intro hf hle
            exact hexit (by omega) (by omega)
        · rw [if_neg hz] at heq
          obtain ⟨hlen, hperm, h1, h2, h3, h4, h5, hfb, hfa, hexit⟩ :=
            ih x (gs - 1) ge le x2 gs2 ge2 heq (by omega) hle1
          refine ⟨hlen, hperm, by omega, h2, by omega, h4, fun _ => h5 (by omega), hfb, hfa, ?_⟩
          intro hf hle
          exact hexit (by omega) (by omega)
    · rw [if_neg hguard] at heq
      obtain ⟨rfl, rfl, rfl⟩ : x = x2 ∧ gs = gs2 ∧ ge = ge2 :=
        ⟨congrArg Prod.fst heq, congrArg (fun t => t.2.1) heq,
          congrArg (fun t => t.2.2) heq⟩
      refine ⟨rfl, List.Perm.refl x, le_rfl, le_rfl, by omega, hgsge, fun h => h,
        fun i _ => rfl, fun i _ => rfl, ?_⟩
      intro h1 h2
      left
      omega

theorem mkqs_part_loop_basic [Inhabited α] (s : Tuplesortstate α) (depth : Nat) (p : α) :
    ∀ fuel x ls le gs ge x2 ls2 le2 gs2 ge2,
      mkqs_part_loop s depth p fuel x ls le gs ge = (x2, ls2, le2, gs2, ge2) →
      ls ≤ le → 1 ≤ le → le ≤ gs + 1 → gs ≤ ge →
      x2.length = x.length ∧ List.Perm x2 x ∧
      ls ≤ ls2 ∧ ls2 ≤ le2 ∧ le ≤ le2 ∧ le2 ≤ gs2 + 1 ∧ gs2 ≤ ge2 ∧ ge2 ≤ ge ∧
      (gs + 2 ≤ le + fuel → le2 = gs2 + 1) := by
  intro fuel
  induction fuel with
  | zero =>
    intro x ls le gs ge x2 ls2 le2 gs2 ge2 heq hlsle hle1 hlegs hgsge
    simp only [mkqs_part_loop] at heq
    obtain ⟨rfl, rfl, rfl, rfl, rfl⟩ :
        x = x2 ∧ ls = ls2 ∧ le = le2 ∧ gs = gs2 ∧ ge = ge2 :=
      ⟨congrArg (fun t => t.1) heq, congrArg (fun t => t.2.1) heq,
        congrArg (fun t => t.2.2.1) heq, congrArg (fun t => t.2.2.2.1) heq,
        congrArg (fun t => t.2.2.2.2) heq⟩
    exact ⟨rfl, List.Perm.refl x, le_rfl, hlsle, le_rfl, hlegs, hgsge, le_rfl,
      fun h => by omega⟩
  | succ fuel ih =>
    intro x ls le gs ge x2 ls2 le2 gs2 ge2 heq hlsle hle1 hlegs hgsge
    simp only [mkqs_part_loop] at heq
    rcases hsl : mkqs_scan_left s depth p (gs + 2) x ls le gs with ⟨x1, ls1, le1⟩
    rw [hsl] at heq
    obtain ⟨SLlen, SLperm, SL1, SL2, SL3, SL4, SLfb, SLfa, SLexit⟩ :=
      mkqs_scan_left_basic s depth p (gs + 2) x ls le gs x1 ls1 le1 hsl hlsle
    have hle1gs : le1 ≤ gs + 1 := SL4 hlegs
    rcases hsr : mkqs_scan_right s depth p (gs + 2) x1 gs ge le1 with ⟨xr, gsr, ger⟩
    rw [hsr] at heq
    obtain ⟨SRlen, SRperm, SR1, SR2, SR3, SR4, SR5, SRfb, SRfa, SRexit⟩ :=
      mkqs_scan_right_basic s depth p (gs + 2) x1 gs ge le1 xr gsr ger hsr hgsge (by omega)
    by_cases hbreak : le1 > gsr
    · rw [if_pos hbreak] at heq
      obtain ⟨rfl, rfl, rfl, rfl, rfl⟩ :
          xr = x2 ∧ ls1 = ls2 ∧ le1 = le2 ∧ gsr = gs2 ∧ ger = ge2 :=
        ⟨congrArg (fun t => t.1) heq, congrArg (fun t => t.2.1) heq,
          congrArg (fun t => t.2.2.1) heq, congrArg (fun t => t.2.2.2.1) heq,
          congrArg (fun t => t.2.2.2.2) heq⟩
      have hle2gs2 := SR5 hle1gs
      refine ⟨SRlen.trans SLlen, SRperm.trans SLperm, by omega, by omega, by omega,
        hle2gs2, SR4, SR2, fun _ => by omega⟩
    · rw [if_neg hbreak] at heq
      have hltstrict : le1 < gsr := by
        rcases SLexit (by omega) hlegs with hA | ⟨hB1, hB2⟩
        · omega
        · rcases SRexit (by omega) hle1gs with hC | ⟨hD1, hD2⟩
          · omega
          · by_cases hEq : le1 = gsr
            · rw [← hEq] at hD2
              rw [SRfb le1 (by omega)] at hD2
              omega
            · omega
      obtain ⟨IHlen, IHperm, IH1, IH2, IH3, IH4, IH5, IH6, IHexit⟩ :=
        ih (mkqs_swap le1 gsr xr) ls1 (le1 + 1) (gsr - 1) ger x2 ls2 le2 gs2 ge2 heq
          (by omega) (by omega) (by omega) (by omega)
      have hswlen : (mkqs_swap le1 gsr xr).length = xr.length := length_mkqs_swap ..
      refine ⟨IHlen.trans (hswlen.trans (SRlen.trans SLlen)),
        (IHperm.trans (mkqs_swap_perm le1 gsr xr)).trans (SRperm.trans SLperm),
        by omega, IH2, by omega, IH4, IH5, by omega, ?_⟩
      intro hf
      exact IHexit (by omega)

/-! ## The partition scans: region invariants -/

theorem mkqs_scan_left_sem [Inhabited α] (s : Tuplesortstate α) (depth : Nat) (p : α) :
    ∀ fuel x ls le gs x2 ls2 le2,
      mkqs_scan_left s depth p fuel x ls le gs = (x2, ls2, le2) →
      ls ≤ le → gs < x.length →
      (∀ i, i < ls → mkqs_compare_datum s (aget x i) p depth = 0) →
      (∀ i, ls ≤ i → i < le → mkqs_compare_datum s (aget x i) p depth < 0) →
      (∀ i, i < ls2 → mkqs_compare_datum s (aget x2 i) p depth = 0) ∧
      (∀ i, ls2 ≤ i → i < le2 → mkqs_compare_datum s (aget x2 i) p depth < 0) := by
  intro fuel
  induction fuel with
  | zero =>
    intro x ls le gs x2 ls2 le2 heq _ _ heqL hlt
    simp only [mkqs_scan_left] at heq
    obtain ⟨rfl, rfl, rfl⟩ : x = x2 ∧ ls = ls2 ∧ le = le2 :=
      ⟨congrArg Prod.fst heq, congrArg (fun t => t.2.1) heq, congrArg (fun t => t.2.2) heq⟩
    exact ⟨heqL, hlt⟩
  | succ fuel ih =>
    intro x ls le gs x2 ls2 le2 heq hlsle hgs heqL hlt
    simp only [mkqs_scan_left] at heq
    by_cases hguard : le ≤ gs
    · rw [if_pos hguard] at heq
      by_cases hgt : mkqs_compare_datum s (aget x le) p depth > 0
      · rw [if_pos hgt] at heq
        obtain ⟨rfl, rfl, rfl⟩ : x = x2 ∧ ls = ls2 ∧ le = le2 :=
          ⟨congrArg Prod.fst heq, congrArg (fun t => t.2.1) heq,
            congrArg (fun t => t.2.2) heq⟩
        exact ⟨heqL, hlt⟩
      · rw [if_neg hgt] at heq
        have hle : le < x.length := by omega
        have hls : ls < x.length := by omega
        by_cases hz : mkqs_compare_datum s (aget x le) p depth = 0
        · rw [if_pos hz] at heq
          refine ih (mkqs_swap le ls x) (ls + 1) (le + 1) gs x2 ls2 le2 heq (by omega)
            (by simpa using hgs) ?_ ?_
          · intro i hi
            rw [aget_mkqs_swap le ls x hle hls i]
            by_cases his : i = ls
            · rw [if_pos his]
              exact hz
            · rw [if_neg his, if_neg (by omega)]
              exact heqL i (by omega)
          · intro i hi1 hi2
            rw [aget_mkqs_swap le ls x hle hls i]
            have his : ¬ i = ls := by omega
            rw [if_neg his]
            by_cases hil : i = le
            · rw [if_pos hil]
              have hlslt : ls < le := by omega
              exact hlt ls le_rfl hlslt
            · rw [if_neg hil]
              exact hlt i (by omega) (by omega)
        · rw [if_neg hz] at heq
          refine ih x ls (le + 1) gs x2 ls2 le2 heq (by omega) hgs heqL ?_
          intro i hi1 hi2
          by_cases hil : i = le
          · rw [hil]
            omega
          · exact hlt i hi1 (by omega)
    · rw [if_neg hguard] at heq
      obtain ⟨rfl, rfl, rfl⟩ : x = x2 ∧ ls = ls2 ∧ le = le2 :=
        ⟨congrArg Prod.fst heq, congrArg (fun t => t.2.1) heq, congrArg (fun t => t.2.2) heq⟩
      exact ⟨heqL, hlt⟩

theorem mkqs_scan_right_sem [Inhabited α] (s : Tuplesortstate α) (depth : Nat) (p : α) :
    ∀ fuel x gs ge le x2 gs2 ge2,
      mkqs_scan_right s depth p fuel x gs ge le = (x2, gs2, ge2) →
      gs ≤ ge → ge < x.length → 1 ≤ le →
      (∀ i, gs < i → i ≤ ge → mkqs_compare_datum s (aget x i) p depth > 0) →
      (∀ i, ge < i → i < x.length → mkqs_compare_datum s (aget x i) p depth = 0) →
      (∀ i, gs2 < i → i ≤ ge2 → mkqs_compare_datum s (aget x2 i) p depth > 0) ∧
      (∀ i, ge2 < i → i < x2.length → mkqs_compare_datum s (aget x2 i) p depth = 0) := by
  intro fuel
  induction fuel with
  | zero =>
    intro x gs ge le x2 gs2 ge2 heq _ _ _ hgt heqR
    simp only [mkqs_scan_right] at heq
    obtain ⟨rfl, rfl, rfl⟩ : x = x2 ∧ gs = gs2 ∧ ge = ge2 :=
      ⟨congrArg Prod.fst heq, congrArg (fun t => t.2.1) heq, congrArg (fun t => t.2.2) heq⟩
    exact ⟨hgt, heqR⟩
  | succ fuel ih =>
    intro x gs ge le x2 gs2 ge2 heq hgsge hge hle1 hgt heqR
    simp only [mkqs_scan_right] at heq
    by_cases hguard : le ≤ gs
    · rw [if_pos hguard] at heq
      by_cases hlt : mkqs_compare_datum s (aget x gs) p depth < 0
      · rw [if_pos hlt] at heq
        obtain ⟨rfl, rfl, rfl⟩ : x = x2 ∧ gs = gs2 ∧ ge = ge2 :=
          ⟨congrArg Prod.fst heq, congrArg (fun t => t.2.1) heq,
            congrArg (fun t => t.2.2) heq⟩
        exact ⟨hgt, heqR⟩
      · rw [if_neg hlt] at heq
        have hgsx : gs < x.length := by omega
        have hgex : ge < x.length := hge
        by_cases hz : mkqs_compare_datum s (aget x gs) p depth = 0
        · rw [if_pos hz] at heq
          refine ih (mkqs_swap gs ge x) (gs - 1) (ge - 1) le x2 gs2 ge2 heq (by omega)
            (by simp; omega) hle1 ?_ ?_
          · intro i hi1 hi2
            rw [aget_mkqs_swap gs ge x hgsx hgex i]
            by_cases hie : i = ge
            · omega
            · rw [if_neg hie]
              by_cases hig : i = gs
              · rw [if_pos hig]
                exact hgt ge (by omega) le_rfl
              · rw [if_neg hig]
                exact hgt i (by omega) (by omega)
          · intro i hi1 hi2
            simp only [length_mkqs_swap] at hi2
            rw [aget_mkqs_swap gs ge x hgsx hgex i]
            by_cases hie : i = ge
            · rw [if_pos hie]
              exact hz
            · rw [if_neg hie, if_neg (by omega)]
              exact heqR i (by omega) hi2
        · rw [if_neg hz] at heq
          refine ih x (gs - 1) ge le x2 gs2 ge2 heq (by omega) hge hle1 ?_ heqR
          intro i hi1 hi2
          by_cases hig : i = gs
          · rw [hig]
            omega
          · exact hgt i (by omega) hi2
    · rw [if_neg hguard] at heq
      obtain ⟨rfl, rfl, rfl⟩ : x = x2 ∧ gs = gs2 ∧ ge = ge2 :=
        ⟨congrArg Prod.fst heq, congrArg (fun t => t.2.1) heq, congrArg (fun t => t.2.2) heq⟩
      exact ⟨hgt, heqR⟩

theorem mkqs_part_loop_sem [Inhabited α] (s : Tuplesortstate α) (depth : Nat) (p : α) :
    ∀ fuel x ls le gs ge x2 ls2 le2 gs2 ge2,
      mkqs_part_loop s depth p fuel x ls le gs ge = (x2, ls2, le2, gs2, ge2) →
      ls ≤ le → 1 ≤ le → le ≤ gs + 1 → gs ≤ ge → ge < x.length →
      (∀ i, i < ls → mkqs_compare_datum s (aget x i) p depth = 0) →
      (∀ i, ls ≤ i → i < le → mkqs_compare_datum s (aget x i) p depth < 0) →
      (∀ i, gs < i → i ≤ ge → mkqs_compare_datum s (aget x i) p depth > 0) →
      (∀ i, ge < i → i < x.length → mkqs_compare_datum s (aget x i) p depth = 0) →
      (∀ i, i < ls2 → mkqs_compare_datum s (aget x2 i) p depth = 0) ∧
      (∀ i, ls2 ≤ i → i < le2 → mkqs_compare_datum s (aget x2 i) p depth < 0) ∧
      (∀ i, gs2 < i → i ≤ ge2 → mkqs_compare_datum s (aget x2 i) p depth > 0) ∧
      (∀ i, ge2 < i → i < x2.length → mkqs_compare_datum s (aget x2 i) p depth = 0) := by
  intro fuel
  induction fuel with
  | zero =>
    intro x ls le gs ge x2 ls2 le2 gs2 ge2 heq _ _ _ _ _ heqL hlt hgt heqR
    simp only [mkqs_part_loop] at heq
    obtain ⟨rfl, rfl, rfl, rfl, rfl⟩ :
        x = x2 ∧ ls = ls2 ∧ le = le2 ∧ gs = gs2 ∧ ge = ge2 :=
      ⟨congrArg (fun t => t.1) heq, congrArg (fun t => t.2.1) heq,
        congrArg (fun t => t.2.2.1) heq, congrArg (fun t => t.2.2.2.1) heq,
        congrArg (fun t => t.2.2.2.2) heq⟩
    exact ⟨heqL, hlt, hgt, heqR⟩
  | succ fuel ih =>
    intro x ls le gs ge x2 ls2 le2 gs2 ge2 heq hlsle hle1 hlegs hgsge hge heqL hlt hgt heqR
    simp only [mkqs_part_loop] at heq
    rcases hsl : mkqs_scan_left s depth p (gs + 2) x ls le gs with ⟨x1, ls1, le1⟩
    rw [hsl] at heq
    obtain ⟨SLlen, SLperm, SL1, SL2, SL3, SL4, SLfb, SLfa, SLexit⟩ :=
      mkqs_scan_left_basic s depth p (gs + 2) x ls le gs x1 ls1 le1 hsl hlsle
    obtain ⟨X1eqL, X1lt⟩ :=
      mkqs_scan_left_sem s depth p (gs + 2) x ls le gs x1 ls1 le1 hsl hlsle
        (by omega) heqL hlt
    have hle1gs : le1 ≤ gs + 1 := SL4 hlegs
    have X1gt : ∀ i, gs < i → i ≤ ge → mkqs_compare_datum s (aget x1 i) p depth > 0 := by
      intro i h1 h2
      rw [SLfa i (by omega)]
      exact hgt i h1 h2
    have X1eqR : ∀ i, ge < i → i < x1.length → mkqs_compare_datum s (aget x1 i) p depth = 0 := by
      intro i h1 h2
      rw [SLfa i (by omega)]
      exact heqR i h1 (by omega)
    rcases hsr : mkqs_scan_right s depth p (gs + 2) x1 gs ge le1 with ⟨xr, gsr, ger⟩
    rw [hsr] at heq
    obtain ⟨SRlen, SRperm, SR1, SR2, SR3, SR4, SR5, SRfb, SRfa, SRexit⟩ :=
      mkqs_scan_right_basic s depth p (gs + 2) x1 gs ge le1 xr gsr ger hsr hgsge (by omega)
    obtain ⟨XRgt, XReqR⟩ :=
      mkqs_scan_right_sem s depth p (gs + 2) x1 gs ge le1 xr gsr ger hsr hgsge
        (by omega) (by omega) X1gt X1eqR
    have XReqL : ∀ i, i < ls1 → mkqs_compare_datum s (aget xr i) p depth = 0 := by
      intro i h1
      rw [SRfb i (by omega)]
      exact X1eqL i h1
    have XRlt : ∀ i, ls1 ≤ i → i < le1 → mkqs_compare_datum s (aget xr i) p depth < 0 := by
      intro i h1 h2
      rw [SRfb i (by omega)]
      exact X1lt i h1 h2
    by_cases hbreak : le1 > gsr
    · rw [if_pos hbreak] at heq
      obtain ⟨rfl, rfl, rfl, rfl, rfl⟩ :
          xr = x2 ∧ ls1 = ls2 ∧ le1 = le2 ∧ gsr = gs2 ∧ ger = ge2 :=
        ⟨congrArg (fun t => t.1) heq, congrArg (fun t => t.2.1) heq,
          congrArg (fun t => t.2.2.1) heq, congrArg (fun t => t.2.2.2.1) heq,
          congrArg (fun t => t.2.2.2.2) heq⟩
      exact ⟨XReqL, XRlt, XRgt, XReqR⟩
    · rw [if_neg hbreak] at heq
      have hB2 : le1 ≤ gs ∧ mkqs_compare_datum s (aget x1 le1) p depth > 0 := by
        rcases SLexit (by omega) hlegs with hA | hB
        · omega
        · exact hB
      have hD2 : le1 ≤ gsr ∧ mkqs_compare_datum s (aget xr gsr) p depth < 0 := by
        rcases SRexit (by omega) hle1gs with hC | hD
        · omega
        · exact hD
      have hltstrict : le1 < gsr := by
        by_cases hEq : le1 = gsr
        · have := SRfb le1 (by omega)
          rw [hEq] at this
          rw [this] at hD2
          rw [← hEq] at hD2
          omega
        · omega
      have hle1x : le1 < xr.length := by
        rw [SRlen, SLlen]
        omega
      have hgsrx : gsr < xr.length := by
        rw [SRlen, SLlen]
        omega
      refine ih (mkqs_swap le1 gsr xr) ls1 (le1 + 1) (gsr - 1) ger x2 ls2 le2 gs2 ge2 heq
        (by omega) (by omega) (by omega) (by omega) (by simp [SRlen, SLlen]; omega)
        ?_ ?_ ?_ ?_
      · intro i h1
        rw [aget_mkqs_swap le1 gsr xr hle1x hgsrx i, if_neg (by omega), if_neg (by omega)]
        exact XReqL i h1
      · intro i h1 h2
        rw [aget_mkqs_swap le1 gsr xr hle1x hgsrx i, if_neg (by omega)]
        by_cases hil : i = le1
        · rw [if_pos hil]
          exact hD2.2
        · rw [if_neg hil]
          exact XRlt i h1 (by omega)
      · intro i h1 h2
        rw [aget_mkqs_swap le1 gsr xr hle1x hgsrx i]
        by_cases hig : i = gsr
        · rw [if_pos hig]
          have := SRfb le1 (by omega)
          rw [this]
          exact hB2.2
        · rw [if_neg hig, if_neg (by omega)]
          exact XRgt i (by omega) h2
      · intro i h1 h2
        simp only [length_mkqs_swap] at h2
        rw [aget_mkqs_swap le1 gsr xr hle1x hgsrx i, if_neg (by omega), if_neg (by omega)]
        exact XReqR i (by omega) h2

/-! ## The complete partition: pivot swap, loop, folds -/

theorem mkqs_partition_pivot_eq [Inhabited α] (s : Tuplesortstate α) (x : List α)
    (n depth : Nat) (hx : x.length = n) (hn : 1 ≤ n) :
    aget (mkqs_swap 0 (mkqs_choose_pivot s x n depth) x) 0 =
      aget x (mkqs_choose_pivot s x n depth) := by
  set pividx := mkqs_choose_pivot s x n depth with hpiv
  have hlt : pividx < n := mkqs_choose_pivot_lt' s x n depth hn
  by_cases h0 : pividx = 0
  · rw [h0]
    simp [mkqs_swap]
  · rw [aget_mkqs_swap 0 pividx x (by omega) (by omega) 0,
      if_neg (by omega), if_pos rfl]

theorem mkqs_partition_basic [Inhabited α] (s : Tuplesortstate α) (x : List α)
    (n depth : Nat) (hx : x.length = n) (hn : 2 ≤ n)
    (x2 : List α) (ls2 le2 gs2 ge2 : Nat)
    (heq : mkqs_partition s x n depth = (x2, ls2, le2, gs2, ge2)) :
    x2.length = n ∧ List.Perm x2 x ∧
    1 ≤ ls2 ∧ ls2 ≤ le2 ∧ le2 = gs2 + 1 ∧ gs2 ≤ ge2 ∧ ge2 ≤ n - 1 := by
  unfold mkqs_partition at heq
  dsimp only at heq
  obtain ⟨PLlen, PLperm, PL1, PL2, PL3, PL4, PL5, PL6, PLexit⟩ :=
    mkqs_part_loop_basic s depth (aget (mkqs_swap 0 (mkqs_choose_pivot s x n depth) x) 0)
      (n + 1) (mkqs_swap 0 (mkqs_choose_pivot s x n depth) x) 1 1 (n - 1) (n - 1)
      x2 ls2 le2 gs2 ge2 heq le_rfl le_rfl (by omega) le_rfl
  have hswlen : (mkqs_swap 0 (mkqs_choose_pivot s x n depth) x).length = n := by
    simpa using hx
  refine ⟨PLlen.trans hswlen,
    PLperm.trans (mkqs_swap_perm 0 (mkqs_choose_pivot s x n depth) x),
    PL1, PL2, PLexit (by omega), PL5, by omega⟩

theorem mkqs_partition_sem [Inhabited α] (s : Tuplesortstate α) (x : List α)
    (n depth : Nat) (hx : x.length = n) (hn : 2 ≤ n)
    (hok : CmpOK (fun u v => mkqs_compare_datum s u v depth))
    (x2 : List α) (ls2 le2 gs2 ge2 : Nat)
    (heq : mkqs_partition s x n depth = (x2, ls2, le2, gs2, ge2)) :
    (∀ i, i < ls2 →
      mkqs_compare_datum s (aget x2 i) (aget x (mkqs_choose_pivot s x n depth)) depth = 0) ∧
    (∀ i, ls2 ≤ i → i < le2 →
      mkqs_compare_datum s (aget x2 i) (aget x (mkqs_choose_pivot s x n depth)) depth < 0) ∧
    (∀ i, gs2 < i → i ≤ ge2 →
      mkqs_compare_datum s (aget x2 i) (aget x (mkqs_choose_pivot s x n depth)) depth > 0) ∧
    (∀ i, ge2 < i → i < n →
      mkqs_compare_datum s (aget x2 i) (aget x (mkqs_choose_pivot s x n depth)) depth = 0) := by
  have hx2len : x2.length = n :=
    (mkqs_partition_basic s x n depth hx hn x2 ls2 le2 gs2 ge2 heq).1
  unfold mkqs_partition at heq
  dsimp only at heq
  rw [mkqs_partition_pivot_eq s x n depth hx (by omega)] at heq
  have hEqL : ∀ i, i < 1 →
      mkqs_compare_datum s (aget (mkqs_swap 0 (mkqs_choose_pivot s x n depth) x) i)
        (aget x (mkqs_choose_pivot s x n depth)) depth = 0 := by
    intro i hi
    have hi0 : i = 0 := by omega
    rw [hi0, mkqs_partition_pivot_eq s x n depth hx (by omega)]
    exact cmpok_refl hok (aget x (mkqs_choose_pivot s x n depth))
  obtain ⟨R1, R2, R3, R4⟩ :=
    mkqs_part_loop_sem s depth (aget x (mkqs_choose_pivot s x n depth))
      (n + 1) (mkqs_swap 0 (mkqs_choose_pivot s x n depth) x) 1 1 (n - 1) (n - 1)
      x2 ls2 le2 gs2 ge2 heq le_rfl le_rfl (by omega) le_rfl (by simp [hx]; omega)
      hEqL (fun i h1 h2 => by omega) (fun i h1 h2 => by omega)
      (fun i h1 h2 => by simp only [length_mkqs_swap, hx] at h2; omega)
  refine ⟨R1, R2, R3, ?_⟩
  intro i h1 h2
  exact R4 i h1 (by omega)

theorem mkqs_fold_equals_spec [Inhabited α] (s : Tuplesortstate α) (depth : Nat) (p : α)
    (x : List α) (n ls le gs ge : Nat)
    (hx : x.length = n)
    (h1 : 1 ≤ ls) (h2 : ls ≤ le) (h3 : le = gs + 1) (h4 : gs ≤ ge) (h5 : ge ≤ n - 1)
    (hn : 2 ≤ n)
    (heqL : ∀ i, i < ls → mkqs_compare_datum s (aget x i) p depth = 0)
    (hlt : ∀ i, ls ≤ i → i < le → mkqs_compare_datum s (aget x i) p depth < 0)
    (hgt : ∀ i, gs < i → i ≤ ge → mkqs_compare_datum s (aget x i) p depth > 0)
    (heqR : ∀ i, ge < i → i < n → mkqs_compare_datum s (aget x i) p depth = 0) :
    (mkqs_fold_equals x n ls le gs ge).length = n ∧
    List.Perm (mkqs_fold_equals x n ls le gs ge) x ∧
    (∀ i, i < le - ls →
      mkqs_compare_datum s (aget (mkqs_fold_equals x n ls le gs ge) i) p depth < 0) ∧
    (∀ i, le - ls ≤ i → i < le - ls + (ls + n - ge - 1) →
      mkqs_compare_datum s (aget (mkqs_fold_equals x n ls le gs ge) i) p depth = 0) ∧
    (∀ i, le - ls + (ls + n - ge - 1) ≤ i → i < n →
      mkqs_compare_datum s (aget (mkqs_fold_equals x n ls le gs ge) i) p depth > 0) := by
  have hlen : le ≤ n := by omega
  unfold mkqs_fold_equals
  dsimp only
  set dist1 := min ls (le - ls) with hd1
  set x3 := mkqs_vec_swap 0 (le - dist1) dist1 x with hx3def
  set dist2 := min (ge - gs) (n - ge - 1) with hd2
  have hx3len : x3.length = n := by
    rw [hx3def, length_mkqs_vec_swap, hx]
  have hColA : ∀ i, aget x3 i =
      if 0 ≤ i ∧ i < 0 + dist1 then aget x (le - dist1 + (i - 0))
      else if le - dist1 ≤ i ∧ i < le - dist1 + dist1 then aget x (0 + (i - (le - dist1)))
      else aget x i := by
    intro i
    rw [hx3def]
    exact aget_mkqs_vec_swap dist1 0 (le - dist1) x (by omega) (by omega) i
  have hx3lt : ∀ i, i < le - ls → mkqs_compare_datum s (aget x3 i) p depth < 0 := by
    intro i hi
    rw [hColA i]
    by_cases hc1 : 0 ≤ i ∧ i < 0 + dist1
    · rw [if_pos hc1]
      exact hlt (le - dist1 + (i - 0)) (by omega) (by omega)
    · rw [if_neg hc1, if_neg (by omega)]
      exact hlt i (by omega) (by omega)
  have hx3eq : ∀ i, le - ls ≤ i → i < le → mkqs_compare_datum s (aget x3 i) p depth = 0 := by
    intro i hi1 hi2
    rw [hColA i]
    by_cases hc2 : le - dist1 ≤ i ∧ i < le - dist1 + dist1
    · rw [if_neg (by omega), if_pos hc2]
      exact heqL (0 + (i - (le - dist1))) (by omega)
    · rw [if_neg (by omega), if_neg hc2]
      exact heqL i (by omega)
  have hx3frame : ∀ i, le ≤ i → aget x3 i = aget x i := by
    intro i hi
    rw [hColA i, if_neg (by omega), if_neg (by omega)]
  have hColB : ∀ i, aget (mkqs_vec_swap le (n - dist2) dist2 x3) i =
      if le ≤ i ∧ i < le + dist2 then aget x3 (n - dist2 + (i - le))
      else if n - dist2 ≤ i ∧ i < n - dist2 + dist2 then aget x3 (le + (i - (n - dist2)))
      else aget x3 i := by
    intro i
    exact aget_mkqs_vec_swap dist2 le (n - dist2) x3 (by omega) (by omega) i
  have hylen : (mkqs_vec_swap le (n - dist2) dist2 x3).length = n := by
    rw [length_mkqs_vec_swap, hx3len]
  have hyframe : ∀ i, i < le → aget (mkqs_vec_swap le (n - dist2) dist2 x3) i = aget x3 i := by
    intro i hi
    rw [hColB i, if_neg (by omega), if_neg (by omega)]
  have hyeq : ∀ i, le ≤ i → i < le + (n - ge - 1) →
      mkqs_compare_datum s (aget (mkqs_vec_swap le (n - dist2) dist2 x3) i) p depth = 0 := by
    intro i hi1 hi2
    rw [hColB i]
    by_cases hc1 : le ≤ i ∧ i < le + dist2
    · rw [if_pos hc1]
      rw [hx3frame (n - dist2 + (i - le)) (by omega)]
      exact heqR (n - dist2 + (i - le)) (by omega) (by omega)
    · rw [if_neg hc1, if_neg (by omega)]
      rw [hx3frame i (by omega)]
      exact heqR i (by omega) (by omega)
  have hygt : ∀ i, le + (n - ge - 1) ≤ i → i < n →
      mkqs_compare_datum s (aget (mkqs_vec_swap le (n - dist2) dist2 x3) i) p depth > 0 := by
    intro i hi1 hi2
    rw [hColB i]
    by_cases hc2 : n - dist2 ≤ i ∧ i < n - dist2 + dist2
    · rw [if_neg (by omega), if_pos hc2]
      rw [hx3frame (le + (i - (n - dist2))) (by omega)]
      exact hgt (le + (i - (n - dist2))) (by omega) (by omega)
    · rw [if_neg (by omega), if_neg hc2]
      rw [hx3frame i (by omega)]
      exact hgt i (by omega) (by omega)
  refine ⟨hylen, ?_, ?_, ?_, ?_⟩
  · exact (mkqs_vec_swap_perm ..).trans (mkqs_vec_swap_perm ..)
  · intro i hi
    rw [hyframe i (by omega)]
    exact hx3lt i hi
  · intro i hi1 hi2
    by_cases hile : i < le
    · rw [hyframe i hile]
      exact hx3eq i hi1 hile
    · exact hyeq i (by omega) (by omega)
  · intro i hi1 hi2
    exact hygt i (by omega) hi2

theorem mkqs_fold_equals_len_perm [Inhabited α] (x : List α) (n ls le gs ge : Nat) :
    (mkqs_fold_equals x n ls le gs ge).length = x.length ∧
    List.Perm (mkqs_fold_equals x n ls le gs ge) x := by
  unfold mkqs_fold_equals
  dsimp only
  constructor
  · rw [length_mkqs_vec_swap, length_mkqs_vec_swap]
  · exact (mkqs_vec_swap_perm ..).trans (mkqs_vec_swap_perm ..)

theorem mkqs_partition_and_fold_basic [Inhabited α] (s : Tuplesortstate α) (x : List α)
    (n depth : Nat) (hx : x.length = n) (hn : 2 ≤ n)
    (y : List α) (ls2 le2 gs2 ge2 : Nat)
    (heq : mkqs_partition_and_fold s x n depth = (y, ls2, le2, gs2, ge2)) :
    y.length = n ∧ List.Perm y x ∧
    1 ≤ ls2 ∧ ls2 ≤ le2 ∧ le2 = gs2 + 1 ∧ gs2 ≤ ge2 ∧ ge2 ≤ n - 1 := by
  unfold mkqs_partition_and_fold at heq
  rcases hp : mkqs_partition s x n depth with ⟨x2, lsP, leP, gsP, geP⟩
  rw [hp] at heq
  dsimp only at heq
  obtain ⟨hy, hls, hle, hgs, hge⟩ :
      mkqs_fold_equals x2 n lsP leP gsP geP = y ∧ lsP = ls2 ∧ leP = le2 ∧
        gsP = gs2 ∧ geP = ge2 :=
    ⟨congrArg (fun t => t.1) heq, congrArg (fun t => t.2.1) heq,
      congrArg (fun t => t.2.2.1) heq, congrArg (fun t => t.2.2.2.1) heq,
      congrArg (fun t => t.2.2.2.2) heq⟩
  obtain ⟨Plen, Pperm, P1, P2, P3, P4, P5⟩ :=
    mkqs_partition_basic s x n depth hx hn x2 lsP leP gsP geP hp
  obtain ⟨Flen, Fperm⟩ := mkqs_fold_equals_len_perm x2 n lsP leP gsP geP
  subst hy hls hle hgs hge
  exact ⟨Flen.trans Plen, Fperm.trans Pperm, P1, P2, P3, P4, P5⟩

theorem mkqs_partition_and_fold_spec [Inhabited α] (s : Tuplesortstate α) (x : List α)
    (n depth : Nat) (hx : x.length = n) (hn : 2 ≤ n)
    (hok : CmpOK (fun u v => mkqs_compare_datum s u v depth))
    (y : List α) (ls2 le2 gs2 ge2 : Nat)
    (heq : mkqs_partition_and_fold s x n depth = (y, ls2, le2, gs2, ge2)) :
    y.length = n ∧ List.Perm y x ∧
    1 ≤ ls2 ∧ ls2 ≤ le2 ∧ le2 = gs2 + 1 ∧ gs2 ≤ ge2 ∧ ge2 ≤ n - 1 ∧
    (∀ i, i < le2 - ls2 →
      mkqs_compare_datum s (aget y i) (aget x (mkqs_choose_pivot s x n depth)) depth < 0) ∧
    (∀ i, le2 - ls2 ≤ i → i < le2 - ls2 + (ls2 + n - ge2 - 1) →
      mkqs_compare_datum s (aget y i) (aget x (mkqs_choose_pivot s x n depth)) depth = 0) ∧
    (∀ i, le2 - ls2 + (ls2 + n - ge2 - 1) ≤ i → i < n →
      mkqs_compare_datum s (aget y i) (aget x (mkqs_choose_pivot s x n depth)) depth > 0) := by
  unfold mkqs_partition_and_fold at heq
  rcases hp : mkqs_partition s x n depth with ⟨x2, lsP, leP, gsP, geP⟩
  rw [hp] at heq
  dsimp only at heq
  obtain ⟨hy, hls, hle, hgs, hge⟩ :
      mkqs_fold_equals x2 n lsP leP gsP geP = y ∧ lsP = ls2 ∧ leP = le2 ∧
        gsP = gs2 ∧ geP = ge2 :=
    ⟨congrArg (fun t => t.1) heq, congrArg (fun t => t.2.1) heq,
      congrArg (fun t => t.2.2.1) heq, congrArg (fun t => t.2.2.2.1) heq,
      congrArg (fun t => t.2.2.2.2) heq⟩
  subst hls hle hgs hge
  subst hy
  obtain ⟨Plen, Pperm, P1, P2, P3, P4, P5⟩ :=
    mkqs_partition_basic s x n depth hx hn x2 lsP leP gsP geP hp
  obtain ⟨ReqL, Rlt, Rgt, ReqR⟩ :=
    mkqs_partition_sem s x n depth hx hn hok x2 lsP leP gsP geP hp
  obtain ⟨Flen, Fperm, Flt, Feq, Fgt⟩ :=
    mkqs_fold_equals_spec s depth (aget x (mkqs_choose_pivot s x n depth)) x2 n
      lsP leP gsP geP Plen P1 P2 P3 P4 P5 hn ReqL Rlt
      (fun i h1 h2 => Rgt i h1 h2) (fun i h1 h2 => ReqR i h1 h2)
  obtain ⟨Glen, Gperm⟩ := mkqs_fold_equals_len_perm x2 n lsP leP gsP geP
  exact ⟨Glen.trans Plen, Gperm.trans Pperm, P1, P2, P3, P4, P5, Flt, Feq, Fgt⟩
/-! ## The small-N insertion sort: length and permutation -/

theorem mkqs_bubble_inner_len_perm [Inhabited α] (s : Tuplesortstate α) (depth : Nat) :
    ∀ l x, (mkqs_bubble_inner s depth x l).length = x.length ∧
      List.Perm (mkqs_bubble_inner s depth x l) x := by
  intro l
  induction l with
  | zero => intro x; exact ⟨rfl, List.Perm.refl x⟩
  | succ m ih =>
    intro x
    simp only [mkqs_bubble_inner]
    split_ifs with h
    · exact ⟨rfl, List.Perm.refl x⟩
    · obtain ⟨hl, hp⟩ := ih (mkqs_swap (m + 1) m x)
      exact ⟨hl.trans (length_mkqs_swap ..), hp.trans (mkqs_swap_perm ..)⟩

theorem mkqs_bubble_len_perm [Inhabited α] (s : Tuplesortstate α) (depth : Nat) :
    ∀ count x m, (mkqs_bubble s depth x m count).length = x.length ∧
      List.Perm (mkqs_bubble s depth x m count) x := by
  intro count
  induction count with
  | zero => intro x m; exact ⟨rfl, List.Perm.refl x⟩
  | succ c ih =>
    intro x m
    simp only [mkqs_bubble]
    obtain ⟨hl, hp⟩ := ih (mkqs_bubble_inner s depth x m) (m + 1)
    obtain ⟨hl2, hp2⟩ := mkqs_bubble_inner_len_perm s depth m x
    exact ⟨hl.trans hl2, hp.trans hp2⟩

/-! ## Splicing sub-slices back into the array -/

theorem splice_mid_perm (x5 : List α) (k t : Nat) (r : List α)
    (hperm : List.Perm r ((x5.drop k).take t)) :
    List.Perm (x5.take k ++ r ++ x5.drop (k + t)) x5 := by
  have h2 : (x5.drop k).drop t = x5.drop (k + t) := List.drop_drop t k x5
  have h1 : x5.take k ++ ((x5.drop k).take t ++ (x5.drop k).drop t) = x5 := by
    rw [List.take_append_drop, List.take_append_drop]
  refine List.Perm.trans ?_ (List.Perm.of_eq h1)
  rw [List.append_assoc]
  refine List.Perm.append_left _ ?_
  rw [h2]
  exact hperm.append (List.Perm.refl _)

theorem splice_tail_perm (x6 : List α) (k : Nat) (r : List α)
    (hperm : List.Perm r (x6.drop k)) :
    List.Perm (x6.take k ++ r) x6 := by
  refine List.Perm.trans ?_ (List.Perm.of_eq (List.take_append_drop k x6))
  exact List.Perm.append_left _ hperm

/-! ## The driver: length and permutation for every fuel value -/

theorem mk_qsort_tuple_fuel_len_perm [Inhabited α] (s : Tuplesortstate α) :
    ∀ fuel x n depth seenNull, x.length = n →
      (mk_qsort_tuple_fuel s fuel x n depth seenNull).arr.length = n ∧
      List.Perm (mk_qsort_tuple_fuel s fuel x n depth seenNull).arr x := by
  intro fuel
  induction fuel with
  | zero =>
    intro x n depth seenNull hx
    exact ⟨hx, List.Perm.refl x⟩
  | succ fuel ih =>
    intro x n depth seenNull hx
    simp only [mk_qsort_tuple_fuel]
    by_cases h1 : n ≤ 1
    · rw [if_pos h1]
      exact ⟨hx, List.Perm.refl x⟩
    rw [if_neg h1]
    by_cases h2 : depth = s.nKeys
    · rw [if_pos h2]
      exact ⟨hx, List.Perm.refl x⟩
    rw [if_neg h2]
    by_cases h3 : mkqs_preordered_check s x n depth = true
    · rw [if_pos h3]
      exact ⟨hx, List.Perm.refl x⟩
    rw [if_neg h3]
    by_cases h4 : n < 16 ∧ ¬ s.mkqsHandleDupFunc
    · rw [if_pos h4]
      obtain ⟨hl, hp⟩ := mkqs_bubble_len_perm s depth n x 0
      exact ⟨hl.trans hx, hp⟩
    rw [if_neg h4]
    · rcases hpf : mkqs_partition_and_fold s x n depth with ⟨x4, lsv, lev, gsv, gev⟩
      dsimp only
      obtain ⟨Blen, Bperm, B1, B2, B3, B4, B5⟩ :=
        mkqs_partition_and_fold_basic s x n depth hx (by omega) x4 lsv lev gsv gev hpf
      have htakeL : (x4.take (lev - lsv)).length = lev - lsv := by
        rw [List.length_take]
        omega
      obtain ⟨R1len, R1perm⟩ :=
        ih (x4.take (lev - lsv)) (lev - lsv) depth seenNull htakeL
      set r1 := mk_qsort_tuple_fuel s fuel (x4.take (lev - lsv)) (lev - lsv) depth seenNull
        with hr1def
      set x5 := r1.arr ++ x4.drop (lev - lsv) with hx5def
      have hx5perm : List.Perm x5 x4 := by
        rw [hx5def]
        have : List.Perm (r1.arr ++ x4.drop (lev - lsv))
            (x4.take (lev - lsv) ++ x4.drop (lev - lsv)) :=
          R1perm.append (List.Perm.refl _)
        exact this.trans (List.Perm.of_eq (List.take_append_drop ..))
      have hx5len : x5.length = n := by
        rw [hx5def, List.length_append, R1len, List.length_drop, Blen]
        omega
      have heqlen : ((x5.drop (lev - lsv)).take (lsv + n - gev - 1)).length
          = lsv + n - gev - 1 := by
        rw [List.length_take, List.length_drop, hx5len]
        omega
      have hr2fact : ∀ r2 : MkqsResult α,
          r2.arr.length = lsv + n - gev - 1 →
          List.Perm r2.arr ((x5.drop (lev - lsv)).take (lsv + n - gev - 1)) →
          (x5.take (lev - lsv) ++ r2.arr ++
              x5.drop (lev - lsv + (lsv + n - gev - 1))).length = n ∧
          List.Perm (x5.take (lev - lsv) ++ r2.arr ++
              x5.drop (lev - lsv + (lsv + n - gev - 1))) x5 := by
        intro r2 hlen hperm
        refine ⟨?_, splice_mid_perm x5 (lev - lsv) (lsv + n - gev - 1) r2.arr hperm⟩
        simp only [List.length_append, List.length_take, List.length_drop, hx5len, hlen]
        omega
      have hmain : ∀ r2 : MkqsResult α,
          r2.arr.length = lsv + n - gev - 1 →
          List.Perm r2.arr ((x5.drop (lev - lsv)).take (lsv + n - gev - 1)) →
          ∀ x6 : List α, x6 = x5.take (lev - lsv) ++ r2.arr ++
              x5.drop (lev - lsv + (lsv + n - gev - 1)) →
          ((x6.take (n - (gev - gsv)) ++
            (mk_qsort_tuple_fuel s fuel ((x6.drop (n - (gev - gsv))).take (gev - gsv))
              (gev - gsv) depth seenNull).arr).length = n ∧
           List.Perm (x6.take (n - (gev - gsv)) ++
            (mk_qsort_tuple_fuel s fuel ((x6.drop (n - (gev - gsv))).take (gev - gsv))
              (gev - gsv) depth seenNull).arr) x) := by
        intro r2 hlen hperm x6 hx6
        obtain ⟨h6len, h6perm⟩ := hr2fact r2 hlen hperm
        rw [← hx6] at h6len h6perm
        have hg3len : ((x6.drop (n - (gev - gsv))).take (gev - gsv)).length = gev - gsv := by
          rw [List.length_take, List.length_drop, h6len]
          omega
        obtain ⟨R3len, R3perm⟩ :=
          ih ((x6.drop (n - (gev - gsv))).take (gev - gsv)) (gev - gsv) depth seenNull hg3len
        have htk : (x6.drop (n - (gev - gsv))).take (gev - gsv) = x6.drop (n - (gev - gsv)) := by
          apply List.take_of_length_le
          rw [List.length_drop, h6len]
          omega
        constructor
        · rw [List.length_append, R3len, List.length_take, h6len]
          omega
        · refine List.Perm.trans ?_ ((h6perm.trans hx5perm).trans Bperm)
          apply splice_tail_perm
          exact List.Perm.trans R3perm (List.Perm.of_eq htk)
      refine hmain _ ?_ ?_ _ rfl
      · by_cases hd : depth < s.nKeys - 1
        · rw [if_pos hd]
          exact (ih _ _ (depth + 1) _ heqlen).1
        · rw [if_neg hd]
          split_ifs <;> exact heqlen
      · by_cases hd : depth < s.nKeys - 1
        · rw [if_pos hd]
          exact (ih _ _ (depth + 1) _ heqlen).2
        · rw [if_neg hd]
          split_ifs <;> exact List.Perm.refl _

/-! ## Termination: a sufficient step counter completes the recursion -/

theorem mk_qsort_tuple_fuel_ok [Inhabited α] (s : Tuplesortstate α) :
    ∀ fuel x n depth seenNull, depth ≤ s.nKeys → x.length = n →
      n * (s.nKeys + 1 - depth) + 1 ≤ fuel →
      (mk_qsort_tuple_fuel s fuel x n depth seenNull).ok = true := by
  intro fuel
  induction fuel with
  | zero =>
    intro x n depth seenNull hd hx hf
    omega
  | succ fuel ih =>
    intro x n depth seenNull hd hx hf
    simp only [mk_qsort_tuple_fuel]
    by_cases h1 : n ≤ 1
    · rw [if_pos h1]
    rw [if_neg h1]
    by_cases h2 : depth = s.nKeys
    · rw [if_pos h2]
    rw [if_neg h2]
    by_cases h3 : mkqs_preordered_check s x n depth = true
    · rw [if_pos h3]
    rw [if_neg h3]
    by_cases h4 : n < 16 ∧ ¬ s.mkqsHandleDupFunc
    · rw [if_pos h4]
    rw [if_neg h4]
    rcases hpf : mkqs_partition_and_fold s x n depth with ⟨x4, lsv, lev, gsv, gev⟩
    dsimp only
    obtain ⟨Blen, Bperm, B1, B2, B3, B4, B5⟩ :=
      mkqs_partition_and_fold_basic s x n depth hx (by omega) x4 lsv lev gsv gev hpf
    have hdlt : depth < s.nKeys := by omega
    have hm1 : 1 ≤ s.nKeys + 1 - depth := by omega
    have hnm : s.nKeys + 1 - depth ≤ n * (s.nKeys + 1 - depth) :=
      Nat.le_mul_of_pos_left _ (by omega)
    have hchild : ∀ c, c ≤ n - 1 →
        c * (s.nKeys + 1 - depth) + 1 ≤ fuel := by
      intro c hc
      have h5 : c * (s.nKeys + 1 - depth) ≤ (n - 1) * (s.nKeys + 1 - depth) :=
        Nat.mul_le_mul_right _ hc
      have h6 : (n - 1) * (s.nKeys + 1 - depth)
          = n * (s.nKeys + 1 - depth) - (s.nKeys + 1 - depth) :=
        Nat.sub_one_mul n _
      omega
    have hmid : ∀ c, c ≤ n →
        c * (s.nKeys + 1 - (depth + 1)) + 1 ≤ fuel := by
      intro c hc
      have h5 : c * (s.nKeys + 1 - (depth + 1)) ≤ n * (s.nKeys + 1 - (depth + 1)) :=
        Nat.mul_le_mul_right _ hc
      have h6 : n * (s.nKeys + 1 - depth) = n * (s.nKeys + 1 - (depth + 1)) + n := by
        rw [show s.nKeys + 1 - depth = (s.nKeys + 1 - (depth + 1)) + 1 by omega,
          Nat.mul_succ]
      omega
    have htakeL : (x4.take (lev - lsv)).length = lev - lsv := by
      rw [List.length_take]
      omega
    have hok1 : (mk_qsort_tuple_fuel s fuel (x4.take (lev - lsv)) (lev - lsv) depth
        seenNull).ok = true :=
      ih (x4.take (lev - lsv)) (lev - lsv) depth seenNull (by omega) htakeL
        (hchild (lev - lsv) (by omega))
    obtain ⟨R1len, R1perm⟩ :=
      mk_qsort_tuple_fuel_len_perm s fuel (x4.take (lev - lsv)) (lev - lsv) depth
        seenNull htakeL
    set r1 := mk_qsort_tuple_fuel s fuel (x4.take (lev - lsv)) (lev - lsv) depth seenNull
      with hr1def
    set x5 := r1.arr ++ x4.drop (lev - lsv) with hx5def
    have hx5len : x5.length = n := by
      rw [hx5def, List.length_append, R1len, List.length_drop, Blen]
      omega
    have heqlen : ((x5.drop (lev - lsv)).take (lsv + n - gev - 1)).length
        = lsv + n - gev - 1 := by
      rw [List.length_take, List.length_drop, hx5len]
      omega
    have hok2 : ∀ r2 : MkqsResult α,
        (if depth < s.nKeys - 1 then
          mk_qsort_tuple_fuel s fuel ((x5.drop (lev - lsv)).take (lsv + n - gev - 1))
            (lsv + n - gev - 1) (depth + 1)
            (seenNull || check_datum_null s (aget x5 (lev - lsv)) depth)
         else if s.mkqsHandleDupFunc ∧ lsv + n - gev - 1 > 1 then
          ⟨(x5.drop (lev - lsv)).take (lsv + n - gev - 1),
            [⟨(x5.drop (lev - lsv)).take (lsv + n - gev - 1), lsv + n - gev - 1,
              depth, seenNull || check_datum_null s (aget x5 (lev - lsv)) depth⟩], true⟩
         else ⟨(x5.drop (lev - lsv)).take (lsv + n - gev - 1), [], true⟩) = r2 →
        r2.ok = true ∧ r2.arr.length = lsv + n - gev - 1 := by
      intro r2 hr2
      by_cases hdk : depth < s.nKeys - 1
      · rw [if_pos hdk] at hr2
        rw [← hr2]
        refine ⟨ih _ _ (depth + 1) _ (by omega) heqlen (hmid _ (by omega)), ?_⟩
        exact (mk_qsort_tuple_fuel_len_perm s fuel _ _ (depth + 1) _ heqlen).1
      · rw [if_neg hdk] at hr2
        split_ifs at hr2 <;> rw [← hr2] <;> exact ⟨rfl, heqlen⟩
    obtain ⟨hok2', hlen2⟩ := hok2 _ rfl
    set r2 := (if depth < s.nKeys - 1 then
          mk_qsort_tuple_fuel s fuel ((x5.drop (lev - lsv)).take (lsv + n - gev - 1))
            (lsv + n - gev - 1) (depth + 1)
            (seenNull || check_datum_null s (aget x5 (lev - lsv)) depth)
         else if s.mkqsHandleDupFunc ∧ lsv + n - gev - 1 > 1 then
          ⟨(x5.drop (lev - lsv)).take (lsv + n - gev - 1),
            [⟨(x5.drop (lev - lsv)).take (lsv + n - gev - 1), lsv + n - gev - 1,
              depth, seenNull || check_datum_null s (aget x5 (lev - lsv)) depth⟩], true⟩
         else ⟨(x5.drop (lev - lsv)).take (lsv + n - gev - 1), [], true⟩ : MkqsResult α)
      with hr2def
    set x6 := x5.take (lev - lsv) ++ r2.arr ++ x5.drop (lev - lsv + (lsv + n - gev - 1))
      with hx6def
    have h6len : x6.length = n := by
      rw [hx6def]
      simp only [List.length_append, List.length_take, List.length_drop, hx5len, hlen2]
      omega
    have hg3len : ((x6.drop (n - (gev - gsv))).take (gev - gsv)).length = gev - gsv := by
      rw [List.length_take, List.length_drop, h6len]
      omega
    have hok3 : (mk_qsort_tuple_fuel s fuel ((x6.drop (n - (gev - gsv))).take (gev - gsv))
        (gev - gsv) depth seenNull).ok = true :=
      ih _ _ depth seenNull (by omega) hg3len (hchild (gev - gsv) (by omega))
    simp only [hok1, hok2', hok3, Bool.and_self, Bool.true_and]

/-! ## Extracting the pre-ordered checks -/

theorem mkqs_preordered_loop_spec [Inhabited α] (s : Tuplesortstate α) (x : List α) :
    ∀ count i, mkqs_preordered_loop s x i count = true →
      ∀ j, i ≤ j → j < i + count →
        mkqs_compare_tuple s (aget x j) (aget x (j + 1)) ≤ 0 := by
  intro count
  induction count with
  | zero => intro i _ j h1 h2; omega
  | succ c ih =>
    intro i hloop j h1 h2
    simp only [mkqs_preordered_loop] at hloop
    split_ifs at hloop with hcmp
    by_cases hji : j = i
    · subst hji
      omega
    · exact ih (i + 1) hloop j (by omega) (by omega)

theorem mkqs_strict_ordered_loop_spec [Inhabited α] (s : Tuplesortstate α) (x : List α)
    (depth : Nat) :
    ∀ count i, mkqs_strict_ordered_loop s x depth i count = true →
      ∀ j, i ≤ j → j < i + count →
        mkqs_compare_datum s (aget x j) (aget x (j + 1)) depth < 0 := by
  intro count
  induction count with
  | zero => intro i _ j h1 h2; omega
  | succ c ih =>
    intro i hloop j h1 h2
    simp only [mkqs_strict_ordered_loop] at hloop
    split_ifs at hloop with hcmp
    by_cases hji : j = i
    · subst hji
      omega
    · exact ih (i + 1) hloop j (by omega) (by omega)

/-! ## The lexicographic comparison is a well-behaved comparator -/

theorem mkqs_lex_loop_asym (s : Tuplesortstate α) :
    ∀ k depth,
      (∀ j, depth ≤ j → j < depth + k →
        CmpOK (fun u v => mkqs_compare_datum s u v j)) →
      ∀ a b, mkqs_lex_loop s a b depth k < 0 ↔ mkqs_lex_loop s b a depth k > 0 := by
  intro k
  induction k with
  | zero => intro depth _ a b; simp [mkqs_lex_loop]
  | succ m ih =>
    intro depth hw a b
    have hok := hw depth (by omega) (by omega)
    have hasym := hok.asym a b
    have hasym2 := hok.asym b a
    simp only [mkqs_lex_loop]
    by_cases hz : mkqs_compare_datum s a b depth = 0
    · have hz2 : mkqs_compare_datum s b a depth = 0 := cmpok_eq_symm hok hz
      simp only [hz, hz2, ne_eq, not_true_eq_false, if_false]
      exact ih (depth + 1) (fun j h1 h2 => hw j (by omega) (by omega)) a b
    · have hz2 : ¬ mkqs_compare_datum s b a depth = 0 := by
        simp only [gt_iff_lt] at hasym hasym2
        omega
      simp only [ne_eq, hz, hz2, not_false_eq_true, if_true]
      simp only [gt_iff_lt] at hasym hasym2 ⊢
      omega

theorem mkqs_lex_loop_le_trans (s : Tuplesortstate α) :
    ∀ k depth,
      (∀ j, depth ≤ j → j < depth + k →
        CmpOK (fun u v => mkqs_compare_datum s u v j)) →
      ∀ a b c, mkqs_lex_loop s a b depth k ≤ 0 → mkqs_lex_loop s b c depth k ≤ 0 →
        mkqs_lex_loop s a c depth k ≤ 0 := by
  intro k
  induction k with
  | zero => intro depth _ a b c _ _; simp [mkqs_lex_loop]
  | succ m ih =>
    intro depth hw a b c hab hbc
    have hok := hw depth (by omega) (by omega)
    simp only [mkqs_lex_loop] at hab hbc ⊢
    by_cases hzab : mkqs_compare_datum s a b depth = 0
    · by_cases hzbc : mkqs_compare_datum s b c depth = 0
      · have hzac : mkqs_compare_datum s a c depth = 0 := cmpok_eq_trans hok hzab hzbc
        simp only [hzab, hzbc, ne_eq, not_true_eq_false, if_false] at hab hbc
        simp only [hzac, ne_eq, not_true_eq_false, if_false]
        exact ih (depth + 1) (fun j h1 h2 => hw j (by omega) (by omega)) a b c hab hbc
      · simp only [ne_eq, hzbc, not_false_eq_true, if_true] at hbc
        have hlt : mkqs_compare_datum s b c depth < 0 := by omega
        have hzac : mkqs_compare_datum s a c depth < 0 := cmpok_lt_of_eq_of_lt hok hzab hlt
        simp only [ne_eq, if_pos (show ¬ mkqs_compare_datum s a c depth = 0 by omega)]
        omega
    · simp only [ne_eq, hzab, not_false_eq_true, if_true] at hab
      have hltab : mkqs_compare_datum s a b depth < 0 := by omega
      by_cases hzbc : mkqs_compare_datum s b c depth = 0
      · have hzac : mkqs_compare_datum s a c depth < 0 := cmpok_lt_of_lt_of_eq hok hltab hzbc
        simp only [ne_eq, if_pos (show ¬ mkqs_compare_datum s a c depth = 0 by omega)]
        omega
      · simp only [ne_eq, hzbc, not_false_eq_true, if_true] at hbc
        have hltbc : mkqs_compare_datum s b c depth < 0 := by omega
        have hzac : mkqs_compare_datum s a c depth < 0 := cmpok_lt_trans hok hltab hltbc
        simp only [ne_eq, if_pos (show ¬ mkqs_compare_datum s a c depth = 0 by omega)]
        omega

theorem mkqs_lex_cmpok (s : Tuplesortstate α) (depth : Nat) (hok : StateCmpOK s) :
    CmpOK (fun a b => mkqs_lex s a b depth) := by
  constructor
  · intro a b
    exact mkqs_lex_loop_asym s (s.nKeys - depth) depth
      (fun j h1 h2 => hok j (by omega)) a b
  · intro a b c
    exact mkqs_lex_loop_le_trans s (s.nKeys - depth) depth
      (fun j h1 h2 => hok j (by omega)) a b c

/-! ## Adjacent swaps and filters -/

theorem mkqs_swap_cons [Inhabited α] (a b : Nat) (y : α) (t : List α) :
    mkqs_swap (a + 1) (b + 1) (y :: t) = y :: mkqs_swap a b t := by
  unfold mkqs_swap
  by_cases hab : a = b
  · rw [if_pos (by omega), if_pos hab]
  · rw [if_neg (by omega : ¬ a + 1 = b + 1), if_neg hab]
    by_cases hin : a < t.length ∧ b < t.length
    · rw [if_pos (by simp; omega), if_pos hin]
      simp only [aget, List.getD_cons_succ, List.set_cons_succ]
    · rw [if_neg (by simp; omega), if_neg hin]

theorem filter_mkqs_swap_adj [Inhabited α] (p : α → Bool) :
    ∀ (l : Nat) (x : List α),
      ¬ (p (aget x l) = true ∧ p (aget x (l + 1)) = true) →
      (mkqs_swap (l + 1) l x).filter p = x.filter p := by
  intro l
  induction l with
  | zero =>
    intro x hp
    match x with
    | [] => rfl
    | [u] =>
      unfold mkqs_swap
      rw [if_neg (by omega), if_neg (by simp)]
    | u :: v :: t =>
      have hswap : mkqs_swap 1 0 (u :: v :: t) = v :: u :: t := by
        unfold mkqs_swap
        rw [if_neg (by omega), if_pos (by simp)]
        simp [aget]
      rw [hswap]
      simp only [aget, List.getD_cons_zero, List.getD_cons_succ] at hp
      simp only [List.filter_cons]
      by_cases hu : p u = true
      · by_cases hv : p v = true
        · exact absurd ⟨hu, hv⟩ hp
        · simp [hu, hv]
      · by_cases hv : p v = true
        · simp [hu, hv]
        · simp [hu, hv]
  | succ m ih =>
    intro x hp
    match x with
    | [] => rw [mkqs_swap_oob _ _ [] (by simp)]
    | y :: t =>
      rw [mkqs_swap_cons]
      simp only [aget, List.getD_cons_succ] at hp
      simp only [List.filter_cons]
      by_cases hy : p y = true
      · simp only [hy, if_true]
        rw [ih t hp]
      · simp only [hy]
        exact ih t hp

/-! ## Correctness of the small-N insertion sort -/

theorem mkqs_bubble_inner_spec [Inhabited α] (s : Tuplesortstate α) (depth : Nat)
    (hok : CmpOK (fun u v => mkqs_compare_tuple_by_range s u v depth)) (m : Nat) :
    ∀ l x, l ≤ m → m < x.length →
      (∀ i, i + 1 ≤ m → i + 1 < x.length → i + 1 ≠ l →
        mkqs_compare_tuple_by_range s (aget x i) (aget x (i + 1)) depth ≤ 0) →
      (1 ≤ l → l + 1 ≤ m → l + 1 < x.length →
        mkqs_compare_tuple_by_range s (aget x (l - 1)) (aget x (l + 1)) depth ≤ 0) →
      (∀ i, i + 1 ≤ m → i + 1 < (mkqs_bubble_inner s depth x l).length →
        mkqs_compare_tuple_by_range s (aget (mkqs_bubble_inner s depth x l) i)
          (aget (mkqs_bubble_inner s depth x l) (i + 1)) depth ≤ 0) ∧
      (∀ p : α → Bool,
        (∀ u v, mkqs_compare_tuple_by_range s u v depth > 0 →
          ¬ (p u = true ∧ p v = true)) →
        (mkqs_bubble_inner s depth x l).filter p = x.filter p) := by
  intro l
  induction l with
  | zero =>
    intro x _ _ hA _
    refine ⟨?_, fun p _ => rfl⟩
    intro i h1 h2
    simp only [mkqs_bubble_inner] at h2 ⊢
    exact hA i h1 h2 (by omega)
  | succ l ih =>
    intro x hlm hmx hA hB
    simp only [mkqs_bubble_inner]
    by_cases hbr : mkqs_compare_tuple_by_range s (aget x l) (aget x (l + 1)) depth ≤ 0
    · rw [if_pos hbr]
      refine ⟨?_, fun p _ => rfl⟩
      intro i h1 h2
      by_cases hil : i + 1 = l + 1
      · have : i = l := by omega
        rw [this]
        exact hbr
      · exact hA i h1 h2 hil
    · rw [if_neg hbr]
      have hgt : mkqs_compare_tuple_by_range s (aget x l) (aget x (l + 1)) depth > 0 := by
        omega
      have hlx : l < x.length := by omega
      have hl1x : l + 1 < x.length := by omega
      have hswA : ∀ i, aget (mkqs_swap (l + 1) l x) i =
          if i = l then aget x (l + 1) else if i = l + 1 then aget x l else aget x i :=
        fun i => aget_mkqs_swap (l + 1) l x hl1x hlx i
      have hA' : ∀ i, i + 1 ≤ m → i + 1 < (mkqs_swap (l + 1) l x).length → i + 1 ≠ l →
          mkqs_compare_tuple_by_range s (aget (mkqs_swap (l + 1) l x) i)
            (aget (mkqs_swap (l + 1) l x) (i + 1)) depth ≤ 0 := by
        intro i h1 h2 hil
        simp only [length_mkqs_swap] at h2
        rw [hswA i, hswA (i + 1)]
        by_cases hi2 : i = l
        · rw [if_pos hi2, if_neg (show ¬ i + 1 = l by omega),
            if_pos (show i + 1 = l + 1 by omega)]
          have := (cmpok_gt_iff hok (aget x l) (aget x (l + 1))).mp hgt
          omega
        · by_cases hi3 : i = l + 1
          · rw [if_neg (show ¬ i = l by omega), if_pos hi3,
              if_neg (show ¬ i + 1 = l by omega), if_neg (show ¬ i + 1 = l + 1 by omega)]
            subst hi3
            exact hB (by omega) (by omega) h2
          · rw [if_neg hi2, if_neg hi3, if_neg hil,
              if_neg (show ¬ i + 1 = l + 1 by omega)]
            exact hA i h1 h2 (by omega)
      have hB' : 1 ≤ l → l + 1 ≤ m → l + 1 < (mkqs_swap (l + 1) l x).length →
          mkqs_compare_tuple_by_range s (aget (mkqs_swap (l + 1) l x) (l - 1))
            (aget (mkqs_swap (l + 1) l x) (l + 1)) depth ≤ 0 := by
        intro hl1 hl2 hl3
        simp only [length_mkqs_swap] at hl3
        rw [hswA (l - 1), hswA (l + 1)]
        rw [if_neg (show ¬ l - 1 = l by omega), if_neg (show ¬ l - 1 = l + 1 by omega),
          if_neg (show ¬ l + 1 = l by omega), if_pos (show l + 1 = l + 1 from rfl)]
        have := hA (l - 1) (by omega) (by omega) (by omega)
        rw [show l - 1 + 1 = l by omega] at this
        exact this
      obtain ⟨IH1, IH2⟩ := ih (mkqs_swap (l + 1) l x) (by omega) (by simp; omega) hA' hB'
      refine ⟨IH1, ?_⟩
      intro p hp
      rw [IH2 p hp]
      exact filter_mkqs_swap_adj p l x (hp _ _ hgt)

theorem mkqs_bubble_spec [Inhabited α] (s : Tuplesortstate α) (depth : Nat)
    (hok : CmpOK (fun u v => mkqs_compare_tuple_by_range s u v depth)) :
    ∀ count x m, m + count ≤ x.length →
      (∀ i, i + 1 ≤ m → i + 1 < x.length → i + 1 ≠ m →
        mkqs_compare_tuple_by_range s (aget x i) (aget x (i + 1)) depth ≤ 0) →
      (∀ i, i + 1 < m + count → i + 1 < (mkqs_bubble s depth x m count).length →
        mkqs_compare_tuple_by_range s (aget (mkqs_bubble s depth x m count) i)
          (aget (mkqs_bubble s depth x m count) (i + 1)) depth ≤ 0) ∧
      (∀ p : α → Bool,
        (∀ u v, mkqs_compare_tuple_by_range s u v depth > 0 →
          ¬ (p u = true ∧ p v = true)) →
        (mkqs_bubble s depth x m count).filter p = x.filter p) := by
  intro count
  induction count with
  | zero =>
    intro x m hmc hpre
    refine ⟨?_, fun p _ => rfl⟩
    intro i h1 h2
    simp only [mkqs_bubble] at h2 ⊢
    exact hpre i (by omega) h2 (by omega)
  | succ c ih =>
    intro x m hmc hpre
    simp only [mkqs_bubble]
    obtain ⟨In1, In2⟩ :=
      mkqs_bubble_inner_spec s depth hok m m x le_rfl (by omega) hpre
        (fun h1 h2 _ => absurd h2 (by omega))
    obtain ⟨InLen, InPerm⟩ := mkqs_bubble_inner_len_perm s depth m x
    have hpre' : ∀ i, i + 1 ≤ m + 1 → i + 1 < (mkqs_bubble_inner s depth x m).length →
        i + 1 ≠ m + 1 →
        mkqs_compare_tuple_by_range s (aget (mkqs_bubble_inner s depth x m) i)
          (aget (mkqs_bubble_inner s depth x m) (i + 1)) depth ≤ 0 := by
      intro i h1 h2 h3
      exact In1 i (by omega) h2
    obtain ⟨Out1, Out2⟩ := ih (mkqs_bubble_inner s depth x m) (m + 1)
      (by rw [InLen]; omega) hpre'
    refine ⟨?_, ?_⟩
    · intro i h1 h2
      exact Out1 i (by omega) h2
    · intro p hp
      rw [Out2 p hp, In2 p hp]

/-! ## Indexing into appended and sliced lists -/

theorem aget_append_left [Inhabited α] (u v : List α) (i : Nat) (h : i < u.length) :
    aget (u ++ v) i = aget u i := by
  rw [aget_eq_getElem (u ++ v) i (by simp; omega), aget_eq_getElem u i h]
  exact List.getElem_append_left h

theorem aget_append_right [Inhabited α] (u v : List α) (i : Nat) (h : u.length ≤ i)
    (h2 : i < u.length + v.length) :
    aget (u ++ v) i = aget v (i - u.length) := by
  rw [aget_eq_getElem (u ++ v) i (by simp; omega),
    aget_eq_getElem v (i - u.length) (by omega)]
  exact List.getElem_append_right h

theorem aget_mem [Inhabited α] (l : List α) (i : Nat) (h : i < l.length) :
    aget l i ∈ l := by
  rw [aget_eq_getElem l i h]
  exact List.getElem_mem h

theorem mem_aget [Inhabited α] {l : List α} {b : α} (h : b ∈ l) :
    ∃ i, i < l.length ∧ aget l i = b := by
  obtain ⟨i, hi, hb⟩ := List.mem_iff_getElem.mp h
  exact ⟨i, hi, by rw [aget_eq_getElem l i hi]; exact hb⟩

theorem aget_drop_take [Inhabited α] (x : List α) (k t i : Nat)
    (hi : i < t) (hkt : k + t ≤ x.length) :
    aget ((x.drop k).take t) i = aget x (k + i) := by
  have h1 : i < ((x.drop k).take t).length := by
    rw [List.length_take, List.length_drop]
    omega
  rw [aget_eq_getElem _ i h1, aget_eq_getElem x (k + i) (by omega)]
  rw [List.getElem_take, List.getElem_drop]

/-! ## Adjacent order of concatenations -/

theorem adjSorted_append [Inhabited α] (cmp : α → α → Int) (u v : List α)
    (hu : AdjSorted cmp u) (hv : AdjSorted cmp v)
    (huv : ∀ a ∈ u, ∀ b ∈ v, cmp a b ≤ 0) : AdjSorted cmp (u ++ v) := by
  intro i hi
  rw [List.length_append] at hi
  by_cases h1 : i + 1 < u.length
  · rw [aget_append_left u v i (by omega), aget_append_left u v (i + 1) h1]
    exact hu i h1
  · by_cases h2 : i < u.length
    · rw [aget_append_left u v i h2,
        aget_append_right u v (i + 1) (by omega) (by omega)]
      refine huv (aget u i) (aget_mem u i h2) _ (aget_mem v (i + 1 - u.length) ?_)
      omega
    · rw [aget_append_right u v i (by omega) (by omega),
        aget_append_right u v (i + 1) (by omega) (by omega)]
      have := hv (i - u.length) (by omega)
      rw [show i - u.length + 1 = i + 1 - u.length by omega] at this
      exact this

theorem adjSorted_append3 [Inhabited α] (cmp : α → α → Int) (u v w : List α)
    (hu : AdjSorted cmp u) (hv : AdjSorted cmp v) (hw : AdjSorted cmp w)
    (huv : ∀ a ∈ u, ∀ b ∈ v, cmp a b ≤ 0)
    (hvw : ∀ b ∈ v, ∀ c ∈ w, cmp b c ≤ 0)
    (huw : ∀ a ∈ u, ∀ c ∈ w, cmp a c ≤ 0) : AdjSorted cmp (u ++ v ++ w) := by
  refine adjSorted_append cmp (u ++ v) w (adjSorted_append cmp u v hu hv huv) hw ?_
  intro a ha c hc
  rcases List.mem_append.mp ha with h | h
  · exact huw a h c hc
  · exact hvw a h c hc

theorem aget_take [Inhabited α] (x : List α) (t i : Nat) (hi : i < t) (h : i < x.length) :
    aget (x.take t) i = aget x i := by
  rw [aget_eq_getElem _ i (by rw [List.length_take]; omega), aget_eq_getElem x i h]
  exact List.getElem_take ..

theorem aget_drop' [Inhabited α] (x : List α) (k i : Nat) (h : k + i < x.length) :
    aget (x.drop k) i = aget x (k + i) := by
  rw [aget_eq_getElem _ i (by rw [List.length_drop]; omega),
    aget_eq_getElem x (k + i) h]
  exact List.getElem_drop ..

/-! ## The driver sorts: orderedness of a completed run -/

theorem mk_qsort_tuple_fuel_sorted [Inhabited α] (s : Tuplesortstate α)
    (hok : StateCmpOK s) :
    ∀ fuel x n depth seenNull, x.length = n → depth ≤ s.nKeys →
      (mk_qsort_tuple_fuel s fuel x n depth seenNull).ok = true →
      AdjSorted (fun a b => mkqs_lex s a b depth)
        (mk_qsort_tuple_fuel s fuel x n depth seenNull).arr := by
  intro fuel
  induction fuel with
  | zero =>
    intro x n depth seenNull hx hd hkk
    simp [mk_qsort_tuple_fuel] at hkk
  | succ fuel ih =>
    intro x n depth seenNull hx hd
    simp only [mk_qsort_tuple_fuel]
    by_cases h1 : n ≤ 1
    · rw [if_pos h1]
      intro _ i hi
      dsimp only at hi
      exact absurd hi (by omega)
    rw [if_neg h1]
    by_cases h2 : depth = s.nKeys
    · rw [if_pos h2]
      intro _ i hi
      dsimp only at hi ⊢
      rw [mkqs_lex_stop s (aget x i) (aget x (i + 1)) depth (by omega)]
    rw [if_neg h2]
    have hdlt : depth < s.nKeys := by omega
    by_cases h3 : mkqs_preordered_check s x n depth = true
    · rw [if_pos h3]
      intro _
      unfold mkqs_preordered_check at h3
      by_cases hk : s.mkqsCompFuncType ≠ .GENERIC
      · rw [if_pos hk] at h3
        by_cases hd0 : depth = 0
        · rw [if_pos hd0] at h3
          subst hd0
          intro i hi
          dsimp only at hi ⊢
          have hcm := mkqs_preordered_loop_spec s x (n - 1) 0 h3 i (by omega) (by omega)
          rw [mkqs_compare_tuple, mkqs_compare_tuple_by_range_eq_lex s _ _ 0 hdlt] at hcm
          exact hcm
        · rw [if_neg hd0] at h3
          exact absurd h3 (by simp)
      · rw [if_neg hk] at h3
        intro i hi
        dsimp only at hi ⊢
        have hcm := mkqs_strict_ordered_loop_spec s x depth (n - 1) 0 h3 i (by omega)
          (by omega)
        rw [mkqs_lex_unfold s _ _ depth hdlt,
          if_pos (show mkqs_compare_datum s (aget x i) (aget x (i + 1)) depth ≠ 0 by omega)]
        omega
    rw [if_neg h3]
    by_cases h4 : n < 16 ∧ ¬ s.mkqsHandleDupFunc
    · rw [if_pos h4]
      intro _
      have hRL : (fun u v => mkqs_compare_tuple_by_range s u v depth)
          = (fun u v => mkqs_lex s u v depth) :=
        funext fun u => funext fun v => mkqs_compare_tuple_by_range_eq_lex s u v depth hdlt
      have hokR : CmpOK (fun u v => mkqs_compare_tuple_by_range s u v depth) := by
        rw [hRL]
        exact mkqs_lex_cmpok s depth hok
      obtain ⟨Out1, -⟩ := mkqs_bubble_spec s depth hokR n x 0 (by omega)
        (fun i hia _ _ => absurd hia (by omega))
      intro i hi
      dsimp only at hi ⊢
      have hblen : (mkqs_bubble s depth x 0 n).length = n :=
        (mkqs_bubble_len_perm s depth n x 0).1.trans hx
      have := Out1 i (by omega) hi
      rw [mkqs_compare_tuple_by_range_eq_lex s _ _ depth hdlt] at this
      exact this
    rw [if_neg h4]
    rcases hpf : mkqs_partition_and_fold s x n depth with ⟨x4, lsv, lev, gsv, gev⟩
    dsimp only
    have hokd := hok depth hdlt
    obtain ⟨Blen, Bperm, B1, B2, B3, B4, B5, Flt, Feq, Fgt⟩ :=
      mkqs_partition_and_fold_spec s x n depth hx (by omega) hokd x4 lsv lev gsv gev hpf
    have htakeL : (x4.take (lev - lsv)).length = lev - lsv := by
      rw [List.length_take]
      omega
    obtain ⟨R1len, R1perm⟩ :=
      mk_qsort_tuple_fuel_len_perm s fuel (x4.take (lev - lsv)) (lev - lsv) depth
        seenNull htakeL
    set r1 := mk_qsort_tuple_fuel s fuel (x4.take (lev - lsv)) (lev - lsv) depth seenNull
      with hr1def
    set x5 := r1.arr ++ x4.drop (lev - lsv) with hx5def
    have hx5len : x5.length = n := by
      rw [hx5def, List.length_append, R1len, List.length_drop, Blen]
      omega
    have hx5dropL : x5.drop (lev - lsv) = x4.drop (lev - lsv) := by
      rw [hx5def]
      exact List.drop_left' R1len
    have heqlen : ((x5.drop (lev - lsv)).take (lsv + n - gev - 1)).length
        = lsv + n - gev - 1 := by
      rw [List.length_take, List.length_drop, hx5len]
      omega
    have heqIdx : ∀ i, i < lsv + n - gev - 1 →
        aget ((x5.drop (lev - lsv)).take (lsv + n - gev - 1)) i
          = aget x4 (lev - lsv + i) := by
      intro i hi
      rw [hx5dropL, aget_drop_take x4 (lev - lsv) (lsv + n - gev - 1) i hi
        (by rw [Blen]; omega)]
    have hMemEqSlice : ∀ b ∈ (x5.drop (lev - lsv)).take (lsv + n - gev - 1),
        mkqs_compare_datum s b (aget x (mkqs_choose_pivot s x n depth)) depth = 0 := by
      intro b hb
      obtain ⟨i, hi, hbi⟩ := mem_aget hb
      rw [heqlen] at hi
      rw [heqIdx i hi] at hbi
      rw [← hbi]
      exact Feq (lev - lsv + i) (by omega) (by omega)
    set r2 := (if depth < s.nKeys - 1 then
          mk_qsort_tuple_fuel s fuel ((x5.drop (lev - lsv)).take (lsv + n - gev - 1))
            (lsv + n - gev - 1) (depth + 1)
            (seenNull || check_datum_null s (aget x5 (lev - lsv)) depth)
         else if s.mkqsHandleDupFunc ∧ lsv + n - gev - 1 > 1 then
          ⟨(x5.drop (lev - lsv)).take (lsv + n - gev - 1),
            [⟨(x5.drop (lev - lsv)).take (lsv + n - gev - 1), lsv + n - gev - 1,
              depth, seenNull || check_datum_null s (aget x5 (lev - lsv)) depth⟩], true⟩
         else ⟨(x5.drop (lev - lsv)).take (lsv + n - gev - 1), [], true⟩ : MkqsResult α)
      with hr2def
    set x6 := x5.take (lev - lsv) ++ r2.arr ++ x5.drop (lev - lsv + (lsv + n - gev - 1))
      with hx6def
    set r3 := mk_qsort_tuple_fuel s fuel
        ((x6.drop (n - (gev - gsv))).take (gev - gsv)) (gev - gsv) depth seenNull
      with hr3def
    intro hkk
    rw [Bool.and_eq_true, Bool.and_eq_true] at hkk
    obtain ⟨⟨hk1, hk2⟩, hk3⟩ := hkk
    have hSr1 : AdjSorted (fun a b => mkqs_lex s a b depth) r1.arr :=
      ih (x4.take (lev - lsv)) (lev - lsv) depth seenNull htakeL hd hk1
    have hMemLess : ∀ b ∈ r1.arr,
        mkqs_compare_datum s b (aget x (mkqs_choose_pivot s x n depth)) depth < 0 := by
      intro b hb
      have hb2 : b ∈ x4.take (lev - lsv) := R1perm.mem_iff.mp hb
      obtain ⟨i, hi, hbi⟩ := mem_aget hb2
      rw [htakeL] at hi
      rw [aget_take x4 (lev - lsv) i hi (by omega)] at hbi
      rw [← hbi]
      exact Flt i hi
    -- the middle part
    have hr2arr : r2.arr.length = lsv + n - gev - 1 ∧
        (∀ b ∈ r2.arr,
          mkqs_compare_datum s b (aget x (mkqs_choose_pivot s x n depth)) depth = 0) ∧
        AdjSorted (fun a b => mkqs_lex s a b depth) r2.arr := by
      by_cases hdk : depth < s.nKeys - 1
      · have hr2eq : r2 = mk_qsort_tuple_fuel s fuel
            ((x5.drop (lev - lsv)).take (lsv + n - gev - 1)) (lsv + n - gev - 1)
            (depth + 1) (seenNull || check_datum_null s (aget x5 (lev - lsv)) depth) := by
          rw [hr2def, if_pos hdk]
        obtain ⟨R2len, R2perm⟩ := mk_qsort_tuple_fuel_len_perm s fuel
          ((x5.drop (lev - lsv)).take (lsv + n - gev - 1)) (lsv + n - gev - 1)
          (depth + 1) (seenNull || check_datum_null s (aget x5 (lev - lsv)) depth) heqlen
        have hmem : ∀ b ∈ r2.arr,
            mkqs_compare_datum s b (aget x (mkqs_choose_pivot s x n depth)) depth = 0 := by
          intro b hb
          rw [hr2eq] at hb
          exact hMemEqSlice b (R2perm.mem_iff.mp hb)
        have hsort2 : AdjSorted (fun a b => mkqs_lex s a b (depth + 1)) r2.arr := by
          rw [hr2eq]
          exact ih _ _ (depth + 1) _ heqlen (by omega) (by rw [hr2eq] at hk2; exact hk2)
        refine ⟨by rw [hr2eq]; exact R2len, hmem, ?_⟩
        intro i hi
        have ha := aget_mem r2.arr i (by omega)
        have hb := aget_mem r2.arr (i + 1) hi
        have hab : mkqs_compare_datum s (aget r2.arr i) (aget r2.arr (i + 1)) depth = 0 :=
          cmpok_eq_trans hokd (hmem _ ha) (cmpok_eq_symm hokd (hmem _ hb))
        show mkqs_lex s (aget r2.arr i) (aget r2.arr (i + 1)) depth ≤ 0
        rw [mkqs_lex_unfold s _ _ depth hdlt, if_neg (by simp [hab])]
        exact hsort2 i hi
      · have hr2arr2 : r2.arr = (x5.drop (lev - lsv)).take (lsv + n - gev - 1) := by
          rw [hr2def, if_neg hdk]
          split_ifs <;> rfl
        refine ⟨by rw [hr2arr2]; exact heqlen, by rw [hr2arr2]; exact hMemEqSlice, ?_⟩
        intro i hi
        have ha := aget_mem r2.arr i (by omega)
        have hb := aget_mem r2.arr (i + 1) hi
        rw [hr2arr2] at ha hb
        have hab : mkqs_compare_datum s (aget r2.arr i) (aget r2.arr (i + 1)) depth = 0 := by
          rw [hr2arr2]
          exact cmpok_eq_trans hokd (hMemEqSlice _ ha)
            (cmpok_eq_symm hokd (hMemEqSlice _ hb))
        show mkqs_lex s (aget r2.arr i) (aget r2.arr (i + 1)) depth ≤ 0
        rw [mkqs_lex_unfold s _ _ depth hdlt, if_neg (by simp [hab]),
          mkqs_lex_stop s _ _ (depth + 1) (by omega)]
    obtain ⟨hr2len, hMemEq, hSr2⟩ := hr2arr
    have hx5takeL : x5.take (lev - lsv) = r1.arr := by
      rw [hx5def]
      exact List.take_left' R1len
    have hx5dropLE : x5.drop (lev - lsv + (lsv + n - gev - 1))
        = x4.drop (lev - lsv + (lsv + n - gev - 1)) := by
      rw [← List.drop_drop, hx5dropL, List.drop_drop]
    have hx6len : x6.length = n := by
      rw [hx6def]
      simp only [List.length_append, List.length_take, List.length_drop, hx5len, hr2len]
      omega
    have hx6eq : x6 = r1.arr ++ r2.arr ++ x4.drop (lev - lsv + (lsv + n - gev - 1)) := by
      rw [hx6def, hx5takeL, hx5dropLE]
    have hKsplit : lev - lsv + (lsv + n - gev - 1) = r1.arr.length + r2.arr.length := by
      rw [R1len, hr2len]
    have hx6dropK : x6.drop (lev - lsv + (lsv + n - gev - 1))
        = x4.drop (lev - lsv + (lsv + n - gev - 1)) := by
      rw [hx6eq, hKsplit]
      exact List.drop_left' (List.length_append r1.arr r2.arr)
    have hx6takeK : x6.take (lev - lsv + (lsv + n - gev - 1)) = r1.arr ++ r2.arr := by
      rw [hx6eq, hKsplit]
      exact List.take_left' (List.length_append r1.arr r2.arr)
    have hr3slice : (x6.drop (n - (gev - gsv))).take (gev - gsv)
        = x4.drop (lev - lsv + (lsv + n - gev - 1)) := by
      have hng : n - (gev - gsv) = lev - lsv + (lsv + n - gev - 1) := by omega
      rw [hng, hx6dropK]
      apply List.take_of_length_le
      rw [List.length_drop, Blen]
      omega
    have hr3len : ((x6.drop (n - (gev - gsv))).take (gev - gsv)).length = gev - gsv := by
      rw [hr3slice, List.length_drop, Blen]
      omega
    obtain ⟨R3len, R3perm⟩ := mk_qsort_tuple_fuel_len_perm s fuel
      ((x6.drop (n - (gev - gsv))).take (gev - gsv)) (gev - gsv) depth seenNull hr3len
    have hSr3 : AdjSorted (fun a b => mkqs_lex s a b depth) r3.arr :=
      ih _ _ depth seenNull hr3len hd hk3
    have hMemGt : ∀ b ∈ r3.arr,
        mkqs_compare_datum s b (aget x (mkqs_choose_pivot s x n depth)) depth > 0 := by
      intro b hb
      have hb2 := R3perm.mem_iff.mp hb
      rw [hr3slice] at hb2
      obtain ⟨i, hi, hbi⟩ := mem_aget hb2
      rw [List.length_drop, Blen] at hi
      rw [aget_drop' x4 _ i (by omega)] at hbi
      rw [← hbi]
      exact Fgt (lev - lsv + (lsv + n - gev - 1) + i) (by omega) (by omega)
    have hx7eq : x6.take (n - (gev - gsv)) ++ r3.arr = r1.arr ++ r2.arr ++ r3.arr := by
      have hng : n - (gev - gsv) = lev - lsv + (lsv + n - gev - 1) := by omega
      rw [hng, hx6takeK]
    rw [hx7eq]
    have hlexlt : ∀ a b, mkqs_compare_datum s a b depth < 0 →
        mkqs_lex s a b depth ≤ 0 := by
      intro a b hab
      rw [mkqs_lex_unfold s _ _ depth hdlt, if_pos (by omega :
        mkqs_compare_datum s a b depth ≠ 0)]
      omega
    refine adjSorted_append3 _ r1.arr r2.arr r3.arr hSr1 hSr2 hSr3 ?_ ?_ ?_
    · intro a ha b hb
      exact hlexlt a b (cmpok_lt_of_lt_of_eq hokd (hMemLess a ha)
        (cmpok_eq_symm hokd (hMemEq b hb)))
    · intro b hb c hc
      refine hlexlt b c (cmpok_lt_of_eq_of_lt hokd (hMemEq b hb) ?_)
      exact (cmpok_gt_iff hokd _ _).mp (hMemGt c hc)
    · intro a ha c hc
      refine hlexlt a c (cmpok_lt_trans hokd (hMemLess a ha) ?_)
      exact (cmpok_gt_iff hokd _ _).mp (hMemGt c hc)

/-! ## Shared facts about one partition step of the driver -/

theorem mkqs_step_facts [Inhabited α] (s : Tuplesortstate α) (x : List α)
    (n depth : Nat) (hx : x.length = n) (hn : 2 ≤ n)
    (x4 : List α) (lsv lev gsv gev : Nat)
    (hpf : mkqs_partition_and_fold s x n depth = (x4, lsv, lev, gsv, gev))
    (r1arr r2arr : List α) (hr1 : r1arr.length = lev - lsv)
    (hr2 : r2arr.length = lsv + n - gev - 1) :
    (r1arr ++ x4.drop (lev - lsv)).drop (lev - lsv) = x4.drop (lev - lsv) ∧
    ((r1arr ++ x4.drop (lev - lsv)).drop (lev - lsv)).take (lsv + n - gev - 1)
      = (x4.drop (lev - lsv)).take (lsv + n - gev - 1) ∧
    (((r1arr ++ x4.drop (lev - lsv)).take (lev - lsv) ++ r2arr
        ++ (r1arr ++ x4.drop (lev - lsv)).drop (lev - lsv + (lsv + n - gev - 1))).drop
          (n - (gev - gsv))).take (gev - gsv)
      = x4.drop (lev - lsv + (lsv + n - gev - 1)) ∧
    aget (r1arr ++ x4.drop (lev - lsv)) (lev - lsv) = aget x4 (lev - lsv) ∧
    1 ≤ lsv + n - gev - 1 ∧
    (lev - lsv) + (lsv + n - gev - 1) ≤ n ∧
    ((x4.drop (lev - lsv)).take (lsv + n - gev - 1)).length = lsv + n - gev - 1 ∧
    (∀ u ∈ x4.take (lev - lsv), u ∈ x) ∧
    (∀ u ∈ (x4.drop (lev - lsv)).take (lsv + n - gev - 1), u ∈ x) ∧
    (∀ u ∈ x4.drop (lev - lsv + (lsv + n - gev - 1)), u ∈ x) := by
  obtain ⟨Blen, Bperm, B1, B2, B3, B4, B5⟩ :=
    mkqs_partition_and_fold_basic s x n depth hx hn x4 lsv lev gsv gev hpf
  have hE1 : 1 ≤ lsv + n - gev - 1 := by omega
  have hLE : (lev - lsv) + (lsv + n - gev - 1) ≤ n := by omega
  have hdropL : (r1arr ++ x4.drop (lev - lsv)).drop (lev - lsv) = x4.drop (lev - lsv) :=
    List.drop_left' hr1
  have htakeL : (r1arr ++ x4.drop (lev - lsv)).take (lev - lsv) = r1arr :=
    List.take_left' hr1
  have hdropLE : (r1arr ++ x4.drop (lev - lsv)).drop (lev - lsv + (lsv + n - gev - 1))
      = x4.drop (lev - lsv + (lsv + n - gev - 1)) := by
    rw [← List.drop_drop, hdropL, List.drop_drop]
  have hx6 : (r1arr ++ x4.drop (lev - lsv)).take (lev - lsv) ++ r2arr
      ++ (r1arr ++ x4.drop (lev - lsv)).drop (lev - lsv + (lsv + n - gev - 1))
      = r1arr ++ r2arr ++ x4.drop (lev - lsv + (lsv + n - gev - 1)) := by
    rw [htakeL, hdropLE]
  have hsplit : lev - lsv + (lsv + n - gev - 1) = r1arr.length + r2arr.length := by
    rw [hr1, hr2]
  have hng : n - (gev - gsv) = lev - lsv + (lsv + n - gev - 1) := by omega
  refine ⟨hdropL, by rw [hdropL], ?_, ?_, hE1, hLE, ?_, ?_, ?_, ?_⟩
  · rw [hx6, hng, hsplit, List.drop_left' (List.length_append r1arr r2arr)]
    apply List.take_of_length_le
    rw [List.length_drop, Blen]
    omega
  · rw [aget_append_right r1arr (x4.drop (lev - lsv)) (lev - lsv) (by omega)
      (by rw [hr1, List.length_drop, Blen]; omega), hr1, Nat.sub_self,
      aget_drop' x4 (lev - lsv) 0 (by rw [Blen]; omega), Nat.add_zero]
  · rw [List.length_take, List.length_drop, Blen]
    omega
  · intro u hu
    exact Bperm.mem_iff.mp ((List.take_sublist _ _).subset hu)
  · intro u hu
    exact Bperm.mem_iff.mp
      ((List.drop_sublist _ _).subset ((List.take_sublist _ _).subset hu))
  · intro u hu
    exact Bperm.mem_iff.mp ((List.drop_sublist _ _).subset hu)

/-! ## Every duplicate-handler slice is drawn from the input slice -/

theorem mkqs_dups_slices_mem [Inhabited α] (s : Tuplesortstate α) :
    ∀ fuel x n depth seenNull,
      x.length = n →
      ∀ c ∈ (mk_qsort_tuple_fuel s fuel x n depth seenNull).dups,
        ∀ u ∈ c.slice, u ∈ x := by
  intro fuel
  induction fuel with
  | zero =>
    intro x n depth seenNull hx c hc
    simp [mk_qsort_tuple_fuel] at hc
  | succ fuel ih =>
    intro x n depth seenNull hx
    simp only [mk_qsort_tuple_fuel]
    by_cases h1 : n ≤ 1
    · rw [if_pos h1]
      intro c hc
      simp at hc
    rw [if_neg h1]
    by_cases h2 : depth = s.nKeys
    · rw [if_pos h2]
      intro c hc
      simp at hc
    rw [if_neg h2]
    by_cases h3 : mkqs_preordered_check s x n depth = true
    · rw [if_pos h3]
      intro c hc
      simp at hc
    rw [if_neg h3]
    by_cases h4 : n < 16 ∧ ¬ s.mkqsHandleDupFunc
    · rw [if_pos h4]
      intro c hc
      simp at hc
    rw [if_neg h4]
    rcases hpf : mkqs_partition_and_fold s x n depth with ⟨x4, lsv, lev, gsv, gev⟩
    dsimp only
    obtain ⟨Blen, Bperm, B1, B2, B3, B4, B5⟩ :=
      mkqs_partition_and_fold_basic s x n depth hx (by omega) x4 lsv lev gsv gev hpf
    have htakeL : (x4.take (lev - lsv)).length = lev - lsv := by
      rw [List.length_take]
      omega
    obtain ⟨R1len, R1perm⟩ :=
      mk_qsort_tuple_fuel_len_perm s fuel (x4.take (lev - lsv)) (lev - lsv) depth
        seenNull htakeL
    set r1 := mk_qsort_tuple_fuel s fuel (x4.take (lev - lsv)) (lev - lsv) depth seenNull
      with hr1def
    set x5 := r1.arr ++ x4.drop (lev - lsv) with hx5def
    have hx5dropL : x5.drop (lev - lsv) = x4.drop (lev - lsv) := by
      rw [hx5def]
      exact List.drop_left' R1len
    have heqlen : ((x5.drop (lev - lsv)).take (lsv + n - gev - 1)).length
        = lsv + n - gev - 1 := by
      rw [hx5dropL, List.length_take, List.length_drop, Blen]
      omega
    set r2 := (if depth < s.nKeys - 1 then
          mk_qsort_tuple_fuel s fuel ((x5.drop (lev - lsv)).take (lsv + n - gev - 1))
            (lsv + n - gev - 1) (depth + 1)
            (seenNull || check_datum_null s (aget x5 (lev - lsv)) depth)
         else if s.mkqsHandleDupFunc ∧ lsv + n - gev - 1 > 1 then
          ⟨(x5.drop (lev - lsv)).take (lsv + n - gev - 1),
            [⟨(x5.drop (lev - lsv)).take (lsv + n - gev - 1), lsv + n - gev - 1,
              depth, seenNull || check_datum_null s (aget x5 (lev - lsv)) depth⟩], true⟩
         else ⟨(x5.drop (lev - lsv)).take (lsv + n - gev - 1), [], true⟩ : MkqsResult α)
      with hr2def
    have hr2len : r2.arr.length = lsv + n - gev - 1 := by
      rw [hr2def]
      split_ifs with hdk hdup2
      · exact (mk_qsort_tuple_fuel_len_perm s fuel _ _ (depth + 1) _ heqlen).1
      · exact heqlen
      · exact heqlen
    obtain ⟨SF1, SF2, SF3, SF4, SF5, SF6, SF7, SM1, SM2, SM3⟩ :=
      mkqs_step_facts s x n depth hx (by omega) x4 lsv lev gsv gev hpf
        r1.arr r2.arr R1len hr2len
    intro c hc
    simp only [List.mem_append] at hc
    rcases hc with (hc | hc) | hc
    · intro u hu
      exact SM1 u (ih (x4.take (lev - lsv)) (lev - lsv) depth seenNull htakeL c hc u hu)
    · rw [hr2def] at hc
      split_ifs at hc with hdk hdup2
      · intro u hu
        have hmem := ih ((x5.drop (lev - lsv)).take (lsv + n - gev - 1))
          (lsv + n - gev - 1) (depth + 1) _ heqlen c hc u hu
        rw [hx5dropL] at hmem
        exact SM2 u hmem
      · simp only [List.mem_singleton] at hc
        subst hc
        intro u hu
        dsimp only at hu
        rw [hx5dropL] at hu
        exact SM2 u hu
      · simp at hc
    · intro u hu
      have hslice : (((x5.take (lev - lsv) ++ r2.arr
          ++ x5.drop (lev - lsv + (lsv + n - gev - 1))).drop (n - (gev - gsv))).take
            (gev - gsv)) = x4.drop (lev - lsv + (lsv + n - gev - 1)) := by
        rw [hx5def]
        exact SF3
      have hlen3 : ((((x5.take (lev - lsv) ++ r2.arr
          ++ x5.drop (lev - lsv + (lsv + n - gev - 1))).drop (n - (gev - gsv))).take
            (gev - gsv))).length = gev - gsv := by
        rw [hslice, List.length_drop, Blen]
        omega
      have hmem := ih _ (gev - gsv) depth seenNull hlen3 c hc u hu
      rw [hslice] at hmem
      exact SM3 u hmem

/-! ## What `seenNull` means at each duplicate-handler call -/

theorem mkqs_seennull_master [Inhabited α] (s : Tuplesortstate α)
    (hok : StateCmpOK s) (hnull : StateNullOK s) :
    ∀ fuel x n depth seenNull, x.length = n → depth ≤ s.nKeys →
      (∀ u ∈ x, (seenNull = true ↔ ∃ d, d < depth ∧ check_datum_null s u d = true)) →
      ∀ c ∈ (mk_qsort_tuple_fuel s fuel x n depth seenNull).dups,
        c.depth = s.nKeys - 1 ∧ c.len = c.slice.length ∧ 1 < c.len ∧
        ∀ u ∈ c.slice,
          (c.seenNull = true ↔ ∃ d, d < s.nKeys ∧ check_datum_null s u d = true) := by
  intro fuel
  induction fuel with
  | zero =>
    intro x n depth seenNull hx hd hH c hc
    simp [mk_qsort_tuple_fuel] at hc
  | succ fuel ih =>
    intro x n depth seenNull hx hd hH
    simp only [mk_qsort_tuple_fuel]
    by_cases h1 : n ≤ 1
    · rw [if_pos h1]
      intro c hc
      simp at hc
    rw [if_neg h1]
    by_cases h2 : depth = s.nKeys
    · rw [if_pos h2]
      intro c hc
      simp at hc
    rw [if_neg h2]
    have hdlt : depth < s.nKeys := by omega
    by_cases h3 : mkqs_preordered_check s x n depth = true
    · rw [if_pos h3]
      intro c hc
      simp at hc
    rw [if_neg h3]
    by_cases h4 : n < 16 ∧ ¬ s.mkqsHandleDupFunc
    · rw [if_pos h4]
      intro c hc
      simp at hc
    rw [if_neg h4]
    rcases hpf : mkqs_partition_and_fold s x n depth with ⟨x4, lsv, lev, gsv, gev⟩
    dsimp only
    have hokd := hok depth hdlt
    obtain ⟨Blen, Bperm, B1, B2, B3, B4, B5, Flt, Feq, Fgt⟩ :=
      mkqs_partition_and_fold_spec s x n depth hx (by omega) hokd x4 lsv lev gsv gev hpf
    have htakeL : (x4.take (lev - lsv)).length = lev - lsv := by
      rw [List.length_take]
      omega
    obtain ⟨R1len, R1perm⟩ :=
      mk_qsort_tuple_fuel_len_perm s fuel (x4.take (lev - lsv)) (lev - lsv) depth
        seenNull htakeL
    set r1 := mk_qsort_tuple_fuel s fuel (x4.take (lev - lsv)) (lev - lsv) depth seenNull
      with hr1def
    set x5 := r1.arr ++ x4.drop (lev - lsv) with hx5def
    have hx5dropL : x5.drop (lev - lsv) = x4.drop (lev - lsv) := by
      rw [hx5def]
      exact List.drop_left' R1len
    have heqlen : ((x5.drop (lev - lsv)).take (lsv + n - gev - 1)).length
        = lsv + n - gev - 1 := by
      rw [hx5dropL, List.length_take, List.length_drop, Blen]
      omega
    set r2 := (if depth < s.nKeys - 1 then
          mk_qsort_tuple_fuel s fuel ((x5.drop (lev - lsv)).take (lsv + n - gev - 1))
            (lsv + n - gev - 1) (depth + 1)
            (seenNull || check_datum_null s (aget x5 (lev - lsv)) depth)
         else if s.mkqsHandleDupFunc ∧ lsv + n - gev - 1 > 1 then
          ⟨(x5.drop (lev - lsv)).take (lsv + n - gev - 1),
            [⟨(x5.drop (lev - lsv)).take (lsv + n - gev - 1), lsv + n - gev - 1,
              depth, seenNull || check_datum_null s (aget x5 (lev - lsv)) depth⟩], true⟩
         else ⟨(x5.drop (lev - lsv)).take (lsv + n - gev - 1), [], true⟩ : MkqsResult α)
      with hr2def
    have hr2len : r2.arr.length = lsv + n - gev - 1 := by
      rw [hr2def]
      split_ifs with hdk hdup2
      · exact (mk_qsort_tuple_fuel_len_perm s fuel _ _ (depth + 1) _ heqlen).1
      · exact heqlen
      · exact heqlen
    obtain ⟨SF1, SF2, SF3, SF4, SF5, SF6, SF7, SM1, SM2, SM3⟩ :=
      mkqs_step_facts s x n depth hx (by omega) x4 lsv lev gsv gev hpf
        r1.arr r2.arr R1len hr2len
    have hfirstx4 : aget x5 (lev - lsv) = aget x4 (lev - lsv) := by
      rw [hx5def]
      exact SF4
    have hfirsteq : mkqs_compare_datum s (aget x4 (lev - lsv))
        (aget x (mkqs_choose_pivot s x n depth)) depth = 0 :=
      Feq (lev - lsv) le_rfl (by omega)
    have hEqAll : ∀ u ∈ (x4.drop (lev - lsv)).take (lsv + n - gev - 1),
        mkqs_compare_datum s u (aget x (mkqs_choose_pivot s x n depth)) depth = 0 := by
      intro u hu
      obtain ⟨i, hi, hiu⟩ := mem_aget hu
      rw [SF7] at hi
      rw [aget_drop_take x4 (lev - lsv) (lsv + n - gev - 1) i hi (by rw [Blen]; omega)]
        at hiu
      rw [← hiu]
      exact Feq (lev - lsv + i) (by omega) (by omega)
    have hfirstu : ∀ u ∈ (x4.drop (lev - lsv)).take (lsv + n - gev - 1),
        check_datum_null s (aget x4 (lev - lsv)) depth = check_datum_null s u depth := by
      intro u hu
      exact hnull depth hdlt _ _
        (cmpok_eq_trans hokd hfirsteq (cmpok_eq_symm hokd (hEqAll u hu)))
    have hInvChild : ∀ u ∈ (x5.drop (lev - lsv)).take (lsv + n - gev - 1),
        ((seenNull || check_datum_null s (aget x5 (lev - lsv)) depth) = true ↔
          ∃ d, d < depth + 1 ∧ check_datum_null s u d = true) := by
      intro u hu
      rw [hx5dropL] at hu
      rw [Bool.or_eq_true, hfirstx4]
      constructor
      · rintro (hsn | hdn)
        · obtain ⟨d, hd1, hd2⟩ := (hH u (SM2 u hu)).mp hsn
          exact ⟨d, by omega, hd2⟩
        · refine ⟨depth, by omega, ?_⟩
          rw [← hfirstu u hu]
          exact hdn
      · rintro ⟨d, hd1, hd2⟩
        by_cases hdd : d < depth
        · exact Or.inl ((hH u (SM2 u hu)).mpr ⟨d, hdd, hd2⟩)
        · have : d = depth := by omega
          subst this
          right
          rw [hfirstu u hu]
          exact hd2
    intro c hc
    simp only [List.mem_append] at hc
    rcases hc with (hc | hc) | hc
    · exact ih (x4.take (lev - lsv)) (lev - lsv) depth seenNull htakeL hd
        (fun u hu => hH u (SM1 u hu)) c hc
    · rw [hr2def] at hc
      split_ifs at hc with hdk hdup2
      · exact ih ((x5.drop (lev - lsv)).take (lsv + n - gev - 1)) (lsv + n - gev - 1)
          (depth + 1) _ heqlen (by omega) hInvChild c hc
      · simp only [List.mem_singleton] at hc
        subst hc
        refine ⟨by dsimp only; omega, by dsimp only; exact heqlen.symm, hdup2.2, ?_⟩
        intro u hu
        dsimp only at hu ⊢
        have hiff := hInvChild u hu
        rw [hiff]
        constructor
        · rintro ⟨d, hd1, hd2⟩
          exact ⟨d, by omega, hd2⟩
        · rintro ⟨d, hd1, hd2⟩
          exact ⟨d, by omega, hd2⟩
      · simp at hc
    · have hslice : (((x5.take (lev - lsv) ++ r2.arr
          ++ x5.drop (lev - lsv + (lsv + n - gev - 1))).drop (n - (gev - gsv))).take
            (gev - gsv)) = x4.drop (lev - lsv + (lsv + n - gev - 1)) := by
        rw [hx5def]
        exact SF3
      have hlen3 : ((((x5.take (lev - lsv) ++ r2.arr
          ++ x5.drop (lev - lsv + (lsv + n - gev - 1))).drop (n - (gev - gsv))).take
            (gev - gsv))).length = gev - gsv := by
        rw [hslice, List.length_drop, Blen]
        omega
      refine ih _ (gev - gsv) depth seenNull hlen3 hd ?_ c hc
      intro u hu
      rw [hslice] at hu
      exact hH u (SM3 u hu)

/-! ## Helpers for the duplicate-handler analysis -/

theorem countP_two_idx [Inhabited α] (p : α → Bool) :
    ∀ l : List α, 2 ≤ l.countP p →
      ∃ i j, i < j ∧ j < l.length ∧ p (aget l i) = true ∧ p (aget l j) = true := by
  intro l
  induction l with
  | nil => intro h; simp [List.countP_nil] at h
  | cons a t ihl =>
    intro h
    rw [List.countP_cons] at h
    by_cases hpa : p a = true
    · rw [if_pos hpa] at h
      have h1 : 1 ≤ t.countP p := by omega
      have h2 : 0 < t.countP p := h1
      rw [List.countP_pos_iff] at h2
      obtain ⟨u, hu, hpu⟩ := h2
      obtain ⟨j, hj, hju⟩ := mem_aget hu
      refine ⟨0, j + 1, by omega, by simp; omega, hpa, ?_⟩
      show p (aget t j) = true
      rw [hju]
      exact hpu
    · rw [if_neg hpa] at h
      obtain ⟨i, j, hij, hjl, hpi, hpj⟩ := ihl (by omega)
      exact ⟨i + 1, j + 1, by omega, by simp; omega, hpi, hpj⟩

theorem mkqs_strict_chain [Inhabited α] (s : Tuplesortstate α) (x : List α)
    (depth : Nat) (hokd : CmpOK (fun u v => mkqs_compare_datum s u v depth))
    (count : Nat)
    (hloop : mkqs_strict_ordered_loop s x depth 0 count = true) :
    ∀ i j, i < j → j ≤ count →
      mkqs_compare_datum s (aget x i) (aget x j) depth < 0 := by
  intro i j
  induction j with
  | zero => intro h _; omega
  | succ j ihj =>
    intro hij hj
    by_cases hji : i = j
    · subst hji
      exact mkqs_strict_ordered_loop_spec s x depth count 0 hloop i (by omega) (by omega)
    · have h1 := ihj (by omega) (by omega)
      have h2 := mkqs_strict_ordered_loop_spec s x depth count 0 hloop j (by omega)
        (by omega)
      exact cmpok_lt_trans hokd h1 h2

theorem mkqs_class_cmp_eq (s : Tuplesortstate α) (a : α)
    (hok : StateCmpOK s) (u v : α) (hu : mkqs_class s a u = true)
    (hv : mkqs_class s a v = true) :
    ∀ d, d < s.nKeys → mkqs_compare_datum s u v d = 0 := by
  intro d hd
  have hu2 : EqAllKeys s u a := of_decide_eq_true hu
  have hv2 : EqAllKeys s v a := of_decide_eq_true hv
  exact cmpok_eq_trans (hok d hd) (hu2 d hd) (cmpok_eq_symm (hok d hd) (hv2 d hd))

theorem mkqs_class_eq_true {s : Tuplesortstate α} {a u : α} :
    mkqs_class s a u = true ↔ EqAllKeys s u a := by
  simp [mkqs_class]

theorem mkqs_touches_eq_true {s : Tuplesortstate α} {a : α} {c : DupCall α} :
    mkqs_touches s a c = true ↔ 0 < c.slice.countP (mkqs_class s a) := by
  simp [mkqs_touches]

/-! ## The duplicate handler fires exactly once per equivalence class
(generic comparator) -/

theorem mkqs_dup_master [Inhabited α] (s : Tuplesortstate α)
    (hok : StateCmpOK s) (hgen : s.mkqsCompFuncType = .GENERIC)
    (hdup : s.mkqsHandleDupFunc = true) (a : α) :
    ∀ fuel x n depth seenNull, x.length = n → depth ≤ s.nKeys - 1 → 1 ≤ s.nKeys →
      (∀ u ∈ x, ∀ d, d < depth → mkqs_compare_datum s u a d = 0) →
      (mk_qsort_tuple_fuel s fuel x n depth seenNull).ok = true →
      2 ≤ x.countP (mkqs_class s a) →
      (mk_qsort_tuple_fuel s fuel x n depth seenNull).dups.countP (mkqs_touches s a) = 1
      ∧ ∀ c ∈ (mk_qsort_tuple_fuel s fuel x n depth seenNull).dups,
          mkqs_touches s a c = true →
          c.slice.Perm (x.filter (mkqs_class s a))
          ∧ c.len = x.countP (mkqs_class s a)
          ∧ c.depth = s.nKeys - 1 := by
  intro fuel
  induction fuel with
  | zero =>
    intro x n depth seenNull hx hdle hnk hpure hkk
    simp [mk_qsort_tuple_fuel] at hkk
  | succ fuel ih =>
    intro x n depth seenNull hx hdle hnk hpure
    simp only [mk_qsort_tuple_fuel]
    by_cases h1 : n ≤ 1
    · rw [if_pos h1]
      intro _ hcnt
      have hcle : x.countP (mkqs_class s a) ≤ x.length := by
        rw [List.countP_eq_length_filter]
        exact List.length_filter_le _ _
      omega
    rw [if_neg h1]
    by_cases h2 : depth = s.nKeys
    · exact absurd h2 (by omega)
    rw [if_neg h2]
    have hdlt : depth < s.nKeys := by omega
    have hokd := hok depth hdlt
    by_cases h3 : mkqs_preordered_check s x n depth = true
    · rw [if_pos h3]
      intro _ hcnt
      exfalso
      unfold mkqs_preordered_check at h3
      rw [if_neg (by simp [hgen])] at h3
      obtain ⟨i, j, hij, hjl, hpi, hpj⟩ := countP_two_idx (mkqs_class s a) x hcnt
      have hlt := mkqs_strict_chain s x depth hokd (n - 1) h3 i j hij (by omega)
      have heq := mkqs_class_cmp_eq s a hok (aget x i) (aget x j) hpi hpj depth hdlt
      omega
    rw [if_neg h3]
    by_cases h4 : n < 16 ∧ ¬ s.mkqsHandleDupFunc
    · exact absurd h4 (by simp [hdup])
    rw [if_neg h4]
    rcases hpf : mkqs_partition_and_fold s x n depth with ⟨x4, lsv, lev, gsv, gev⟩
    dsimp only
    obtain ⟨Blen, Bperm, B1, B2, B3, B4, B5, Flt, Feq, Fgt⟩ :=
      mkqs_partition_and_fold_spec s x n depth hx (by omega) hokd x4 lsv lev gsv gev hpf
    have htakeL : (x4.take (lev - lsv)).length = lev - lsv := by
      rw [List.length_take]
      omega
    obtain ⟨R1len, R1perm⟩ :=
      mk_qsort_tuple_fuel_len_perm s fuel (x4.take (lev - lsv)) (lev - lsv) depth
        seenNull htakeL
    set r1 := mk_qsort_tuple_fuel s fuel (x4.take (lev - lsv)) (lev - lsv) depth seenNull
      with hr1def
    set x5 := r1.arr ++ x4.drop (lev - lsv) with hx5def
    have hx5dropL : x5.drop (lev - lsv) = x4.drop (lev - lsv) := by
      rw [hx5def]
      exact List.drop_left' R1len
    have heqlen : ((x5.drop (lev - lsv)).take (lsv + n - gev - 1)).length
        = lsv + n - gev - 1 := by
      rw [hx5dropL, List.length_take, List.length_drop, Blen]
      omega
    set r2 := (if depth < s.nKeys - 1 then
          mk_qsort_tuple_fuel s fuel ((x5.drop (lev - lsv)).take (lsv + n - gev - 1))
            (lsv + n - gev - 1) (depth + 1)
            (seenNull || check_datum_null s (aget x5 (lev - lsv)) depth)
         else if s.mkqsHandleDupFunc ∧ lsv + n - gev - 1 > 1 then
          ⟨(x5.drop (lev - lsv)).take (lsv + n - gev - 1),
            [⟨(x5.drop (lev - lsv)).take (lsv + n - gev - 1), lsv + n - gev - 1,
              depth, seenNull || check_datum_null s (aget x5 (lev - lsv)) depth⟩], true⟩
         else ⟨(x5.drop (lev - lsv)).take (lsv + n - gev - 1), [], true⟩ : MkqsResult α)
      with hr2def
    have hr2len : r2.arr.length = lsv + n - gev - 1 := by
      rw [hr2def]
      split_ifs with hdk hdup2
      · exact (mk_qsort_tuple_fuel_len_perm s fuel _ _ (depth + 1) _ heqlen).1
      · exact heqlen
      · exact heqlen
    obtain ⟨SF1, SF2, SF3, SF4, SF5, SF6, SF7, SM1, SM2, SM3⟩ :=
      mkqs_step_facts s x n depth hx (by omega) x4 lsv lev gsv gev hpf
        r1.arr r2.arr R1len hr2len
    set x6 := x5.take (lev - lsv) ++ r2.arr ++ x5.drop (lev - lsv + (lsv + n - gev - 1))
      with hx6def
    set r3 := mk_qsort_tuple_fuel s fuel ((x6.drop (n - (gev - gsv))).take (gev - gsv))
      (gev - gsv) depth seenNull with hr3def
    have hslice : (x6.drop (n - (gev - gsv))).take (gev - gsv)
        = x4.drop (lev - lsv + (lsv + n - gev - 1)) := by
      rw [hx6def, hx5def]
      exact SF3
    have hlen3 : ((x6.drop (n - (gev - gsv))).take (gev - gsv)).length = gev - gsv := by
      rw [hslice, List.length_drop, Blen]
      omega
    intro hkk hcnt
    rw [Bool.and_eq_true, Bool.and_eq_true] at hkk
    obtain ⟨⟨hok1, hok2⟩, hok3⟩ := hkk
    have hMemL : ∀ u ∈ x4.take (lev - lsv),
        mkqs_compare_datum s u (aget x (mkqs_choose_pivot s x n depth)) depth < 0 := by
      intro u hu
      obtain ⟨i, hi, hiu⟩ := mem_aget hu
      rw [htakeL] at hi
      rw [aget_take x4 (lev - lsv) i hi (by omega)] at hiu
      rw [← hiu]
      exact Flt i hi
    have hMemM : ∀ u ∈ (x4.drop (lev - lsv)).take (lsv + n - gev - 1),
        mkqs_compare_datum s u (aget x (mkqs_choose_pivot s x n depth)) depth = 0 := by
      intro u hu
      obtain ⟨i, hi, hiu⟩ := mem_aget hu
      rw [SF7] at hi
      rw [aget_drop_take x4 (lev - lsv) (lsv + n - gev - 1) i hi (by rw [Blen]; omega)]
        at hiu
      rw [← hiu]
      exact Feq (lev - lsv + i) (by omega) (by omega)
    have hMemR : ∀ u ∈ x4.drop (lev - lsv + (lsv + n - gev - 1)),
        mkqs_compare_datum s u (aget x (mkqs_choose_pivot s x n depth)) depth > 0 := by
      intro u hu
      obtain ⟨i, hi, hiu⟩ := mem_aget hu
      rw [List.length_drop, Blen] at hi
      rw [aget_drop' x4 _ i (by omega)] at hiu
      rw [← hiu]
      exact Fgt (lev - lsv + (lsv + n - gev - 1) + i) (by omega) (by omega)
    have hsum : x.countP (mkqs_class s a) =
        (x4.take (lev - lsv)).countP (mkqs_class s a)
        + ((x4.drop (lev - lsv)).take (lsv + n - gev - 1)).countP (mkqs_class s a)
        + (x4.drop (lev - lsv + (lsv + n - gev - 1))).countP (mkqs_class s a) := by
      rw [← Bperm.countP_eq]
      conv_lhs => rw [← List.take_append_drop (lev - lsv) x4]
      rw [List.countP_append]
      conv_lhs => rw [← List.take_append_drop (lsv + n - gev - 1) (x4.drop (lev - lsv))]
      rw [List.countP_append, List.drop_drop]
      omega
    have hpos : 0 < x.countP (mkqs_class s a) := by omega
    rw [List.countP_pos_iff] at hpos
    obtain ⟨w, hwx, hwcls⟩ := hpos
    rcases lt_trichotomy
      (mkqs_compare_datum s w (aget x (mkqs_choose_pivot s x n depth)) depth) 0
      with hc0 | hc0 | hc0
    · -- the whole class lies in the `less` part
      have hM0 : ((x4.drop (lev - lsv)).take (lsv + n - gev - 1)).countP
          (mkqs_class s a) = 0 := by
        rw [List.countP_eq_zero]
        intro u hu hpu
        have hcuw := mkqs_class_cmp_eq s a hok u w hpu hwcls depth hdlt
        have hlt := cmpok_lt_of_eq_of_lt hokd hcuw hc0
        have := hMemM u hu
        omega
      have hR0 : (x4.drop (lev - lsv + (lsv + n - gev - 1))).countP
          (mkqs_class s a) = 0 := by
        rw [List.countP_eq_zero]
        intro u hu hpu
        have hcuw := mkqs_class_cmp_eq s a hok u w hpu hwcls depth hdlt
        have hlt := cmpok_lt_of_eq_of_lt hokd hcuw hc0
        have := hMemR u hu
        omega
      have hLfull : (x4.take (lev - lsv)).countP (mkqs_class s a)
          = x.countP (mkqs_class s a) := by omega
      have hpure1 : ∀ u ∈ x4.take (lev - lsv), ∀ d, d < depth →
          mkqs_compare_datum s u a d = 0 := fun u hu => hpure u (SM1 u hu)
      obtain ⟨IH1, IH2⟩ := ih (x4.take (lev - lsv)) (lev - lsv) depth seenNull htakeL
        hdle hnk hpure1 hok1 (by omega)
      rw [← hr1def] at IH1 IH2
      have hfiltM : ((x4.drop (lev - lsv)).take (lsv + n - gev - 1)).filter
          (mkqs_class s a) = [] := by
        apply List.length_eq_zero.mp
        rw [← List.countP_eq_length_filter]
        exact hM0
      have hfiltR : (x4.drop (lev - lsv + (lsv + n - gev - 1))).filter
          (mkqs_class s a) = [] := by
        apply List.length_eq_zero.mp
        rw [← List.countP_eq_length_filter]
        exact hR0
      have hfiltx : List.Perm (x.filter (mkqs_class s a))
          ((x4.take (lev - lsv)).filter (mkqs_class s a)) := by
        refine (Bperm.filter (mkqs_class s a)).symm.trans (List.Perm.of_eq ?_)
        conv_lhs => rw [← List.take_append_drop (lev - lsv) x4]
        rw [List.filter_append]
        conv_lhs => rw [← List.take_append_drop (lsv + n - gev - 1) (x4.drop (lev - lsv))]
        rw [List.filter_append, List.drop_drop, hfiltM, hfiltR]
        simp
      have hdups2 : ∀ c ∈ r2.dups, c.slice.countP (mkqs_class s a) = 0 := by
        rw [hr2def]
        split_ifs with hdk hdup2
        · intro c hc
          rw [List.countP_eq_zero]
          intro u hu hpu
          have hmem := mkqs_dups_slices_mem s fuel _ _ (depth + 1) _ heqlen c hc u hu
          rw [hx5dropL] at hmem
          exact List.countP_eq_zero.mp hM0 u hmem hpu
        · intro c hc
          simp only [List.mem_singleton] at hc
          subst hc
          dsimp only
          rw [hx5dropL]
          exact hM0
        · intro c hc
          simp at hc
      have hdups3 : ∀ c ∈ r3.dups, c.slice.countP (mkqs_class s a) = 0 := by
        rw [hr3def]
        intro c hc
        rw [List.countP_eq_zero]
        intro u hu hpu
        have hmem := mkqs_dups_slices_mem s fuel _ (gev - gsv) depth seenNull hlen3 c hc u hu
        rw [hslice] at hmem
        exact List.countP_eq_zero.mp hR0 u hmem hpu
      have hz2 : r2.dups.countP (mkqs_touches s a) = 0 := by
        rw [List.countP_eq_zero]
        intro c hc htc
        rw [mkqs_touches_eq_true, hdups2 c hc] at htc
        omega
      have hz3 : r3.dups.countP (mkqs_touches s a) = 0 := by
        rw [List.countP_eq_zero]
        intro c hc htc
        rw [mkqs_touches_eq_true, hdups3 c hc] at htc
        omega
      constructor
      · rw [List.countP_append, List.countP_append, IH1, hz2, hz3]
      · intro c hc htouch
        simp only [List.mem_append] at hc
        rcases hc with (hc | hc) | hc
        · obtain ⟨hperm, hlen, hdep⟩ := IH2 c hc htouch
          exact ⟨hperm.trans hfiltx.symm, by rw [hlen, hLfull], hdep⟩
        · rw [mkqs_touches_eq_true, hdups2 c hc] at htouch
          omega
        · rw [mkqs_touches_eq_true, hdups3 c hc] at htouch
          omega
    · -- the whole class lies in the `equals` part
      have hL0 : (x4.take (lev - lsv)).countP (mkqs_class s a) = 0 := by
        rw [List.countP_eq_zero]
        intro u hu hpu
        have hcuw := mkqs_class_cmp_eq s a hok u w hpu hwcls depth hdlt
        have heqp := cmpok_eq_trans hokd hcuw hc0
        have := hMemL u hu
        omega
      have hR0 : (x4.drop (lev - lsv + (lsv + n - gev - 1))).countP
          (mkqs_class s a) = 0 := by
        rw [List.countP_eq_zero]
        intro u hu hpu
        have hcuw := mkqs_class_cmp_eq s a hok u w hpu hwcls depth hdlt
        have heqp := cmpok_eq_trans hokd hcuw hc0
        have := hMemR u hu
        omega
      have hMfull : ((x4.drop (lev - lsv)).take (lsv + n - gev - 1)).countP
          (mkqs_class s a) = x.countP (mkqs_class s a) := by omega
      have hfiltL : (x4.take (lev - lsv)).filter (mkqs_class s a) = [] := by
        apply List.length_eq_zero.mp
        rw [← List.countP_eq_length_filter]
        exact hL0
      have hfiltR : (x4.drop (lev - lsv + (lsv + n - gev - 1))).filter
          (mkqs_class s a) = [] := by
        apply List.length_eq_zero.mp
        rw [← List.countP_eq_length_filter]
        exact hR0
      have hfiltx : List.Perm (x.filter (mkqs_class s a))
          (((x4.drop (lev - lsv)).take (lsv + n - gev - 1)).filter (mkqs_class s a)) := by
        refine (Bperm.filter (mkqs_class s a)).symm.trans (List.Perm.of_eq ?_)
        conv_lhs => rw [← List.take_append_drop (lev - lsv) x4]
        rw [List.filter_append]
        conv_lhs => rw [← List.take_append_drop (lsv + n - gev - 1) (x4.drop (lev - lsv))]
        rw [List.filter_append, List.drop_drop, hfiltL, hfiltR]
        simp
      have hdups1 : ∀ c ∈ r1.dups, c.slice.countP (mkqs_class s a) = 0 := by
        rw [hr1def]
        intro c hc
        rw [List.countP_eq_zero]
        intro u hu hpu
        have hmem := mkqs_dups_slices_mem s fuel _ (lev - lsv) depth seenNull htakeL c hc u hu
        exact List.countP_eq_zero.mp hL0 u hmem hpu
      have hdups3 : ∀ c ∈ r3.dups, c.slice.countP (mkqs_class s a) = 0 := by
        rw [hr3def]
        intro c hc
        rw [List.countP_eq_zero]
        intro u hu hpu
        have hmem := mkqs_dups_slices_mem s fuel _ (gev - gsv) depth seenNull hlen3 c hc u hu
        rw [hslice] at hmem
        exact List.countP_eq_zero.mp hR0 u hmem hpu
      have hz1 : r1.dups.countP (mkqs_touches s a) = 0 := by
        rw [List.countP_eq_zero]
        intro c hc htc
        rw [mkqs_touches_eq_true, hdups1 c hc] at htc
        omega
      have hz3 : r3.dups.countP (mkqs_touches s a) = 0 := by
        rw [List.countP_eq_zero]
        intro c hc htc
        rw [mkqs_touches_eq_true, hdups3 c hc] at htc
        omega
      have hclsmid : ∀ u ∈ (x4.drop (lev - lsv)).take (lsv + n - gev - 1), ∀ d,
          d ≤ depth → mkqs_compare_datum s u a d = 0 := by
        intro u hu d hd
        by_cases hdd : d < depth
        · exact hpure u (SM2 u hu) d hdd
        · have hddep : d = depth := by omega
          subst hddep
          have h1 := hMemM u hu
          have hwa : mkqs_compare_datum s w a d = 0 :=
            (mkqs_class_eq_true.mp hwcls) d hdlt
          exact cmpok_eq_trans hokd
            (cmpok_eq_trans hokd h1 (cmpok_eq_symm hokd hc0)) hwa
      by_cases hdk : depth < s.nKeys - 1
      · -- recurse into the equal part at depth + 1
        have hpure2 : ∀ u ∈ (x5.drop (lev - lsv)).take (lsv + n - gev - 1), ∀ d,
            d < depth + 1 → mkqs_compare_datum s u a d = 0 := by
          intro u hu d hd
          rw [hx5dropL] at hu
          exact hclsmid u hu d (by omega)
        have hok2' : (mk_qsort_tuple_fuel s fuel
            ((x5.drop (lev - lsv)).take (lsv + n - gev - 1)) (lsv + n - gev - 1)
            (depth + 1)
            (seenNull || check_datum_null s (aget x5 (lev - lsv)) depth)).ok = true := by
          rw [hr2def, if_pos hdk] at hok2
          exact hok2
        have hcnt2 : 2 ≤ ((x5.drop (lev - lsv)).take (lsv + n - gev - 1)).countP
            (mkqs_class s a) := by
          rw [hx5dropL]
          omega
        obtain ⟨IH1, IH2⟩ := ih ((x5.drop (lev - lsv)).take (lsv + n - gev - 1))
          (lsv + n - gev - 1) (depth + 1)
          (seenNull || check_datum_null s (aget x5 (lev - lsv)) depth)
          heqlen (by omega) hnk hpure2 hok2' hcnt2
        have hr2dups : r2.dups = (mk_qsort_tuple_fuel s fuel
            ((x5.drop (lev - lsv)).take (lsv + n - gev - 1)) (lsv + n - gev - 1)
            (depth + 1)
            (seenNull || check_datum_null s (aget x5 (lev - lsv)) depth)).dups := by
          rw [hr2def, if_pos hdk]
        constructor
        · rw [List.countP_append, List.countP_append, hz1, hz3, hr2dups, IH1]
        · intro c hc htouch
          simp only [List.mem_append] at hc
          rcases hc with (hc | hc) | hc
          · rw [mkqs_touches_eq_true, hdups1 c hc] at htouch
            omega
          · rw [hr2dups] at hc
            obtain ⟨hperm, hlen, hdep⟩ := IH2 c hc htouch
            rw [hx5dropL] at hperm hlen
            refine ⟨hperm.trans hfiltx.symm, ?_, hdep⟩
            rw [hlen, hMfull]
          · rw [mkqs_touches_eq_true, hdups3 c hc] at htouch
            omega
      · -- the duplicate handler fires here, at depth = nKeys - 1
        have hdepEq : depth = s.nKeys - 1 := by omega
        have hallM : ∀ u ∈ (x4.drop (lev - lsv)).take (lsv + n - gev - 1),
            mkqs_class s a u = true := by
          intro u hu
          rw [mkqs_class_eq_true]
          intro d hd
          exact hclsmid u hu d (by omega)
        have hMlen : ((x4.drop (lev - lsv)).take (lsv + n - gev - 1)).countP
            (mkqs_class s a) = lsv + n - gev - 1 := by
          rw [List.countP_eq_length_filter, List.filter_eq_self.mpr hallM]
          exact SF7
        have hE2 : 1 < lsv + n - gev - 1 := by omega
        have hguard : (s.mkqsHandleDupFunc = true) ∧ lsv + n - gev - 1 > 1 :=
          ⟨hdup, hE2⟩
        have hr2eq : r2 = ⟨(x5.drop (lev - lsv)).take (lsv + n - gev - 1),
            [⟨(x5.drop (lev - lsv)).take (lsv + n - gev - 1), lsv + n - gev - 1,
              depth, seenNull || check_datum_null s (aget x5 (lev - lsv)) depth⟩],
            true⟩ := by
          rw [hr2def, if_neg hdk, if_pos hguard]
        have hcstar : ((x5.drop (lev - lsv)).take (lsv + n - gev - 1)).countP
            (mkqs_class s a) = lsv + n - gev - 1 := by
          rw [hx5dropL]
          exact hMlen
        constructor
        · rw [List.countP_append, List.countP_append, hz1, hz3, hr2eq]
          have : mkqs_touches s a ⟨(x5.drop (lev - lsv)).take (lsv + n - gev - 1),
              lsv + n - gev - 1, depth,
              seenNull || check_datum_null s (aget x5 (lev - lsv)) depth⟩ = true := by
            rw [mkqs_touches_eq_true]
            dsimp only
            rw [hcstar]
            omega
          rw [List.countP_singleton, if_pos this]
        · intro c hc htouch
          simp only [List.mem_append] at hc
          rcases hc with (hc | hc) | hc
          · rw [mkqs_touches_eq_true, hdups1 c hc] at htouch
            omega
          · rw [hr2eq] at hc
            simp only [List.mem_singleton] at hc
            subst hc
            refine ⟨?_, ?_, by dsimp only; omega⟩
            · dsimp only
              rw [hx5dropL]
              exact (hfiltx.trans (List.Perm.of_eq (List.filter_eq_self.mpr hallM))).symm
            · dsimp only
              omega
          · rw [mkqs_touches_eq_true, hdups3 c hc] at htouch
            omega
    · -- the whole class lies in the `greater` part
      have hgt0 : mkqs_compare_datum s w (aget x (mkqs_choose_pivot s x n depth)) depth
          > 0 := hc0
      have hL0 : (x4.take (lev - lsv)).countP (mkqs_class s a) = 0 := by
        rw [List.countP_eq_zero]
        intro u hu hpu
        have hcwu := mkqs_class_cmp_eq s a hok w u hwcls hpu depth hdlt
        have hlt : mkqs_compare_datum s (aget x (mkqs_choose_pivot s x n depth)) u depth
            < 0 := cmpok_lt_of_lt_of_eq hokd ((cmpok_gt_iff hokd _ _).mp hgt0) hcwu
        have hgtu := (cmpok_gt_iff hokd _ _).mpr hlt
        have := hMemL u hu
        omega
      have hM0 : ((x4.drop (lev - lsv)).take (lsv + n - gev - 1)).countP
          (mkqs_class s a) = 0 := by
        rw [List.countP_eq_zero]
        intro u hu hpu
        have hcwu := mkqs_class_cmp_eq s a hok w u hwcls hpu depth hdlt
        have hlt : mkqs_compare_datum s (aget x (mkqs_choose_pivot s x n depth)) u depth
            < 0 := cmpok_lt_of_lt_of_eq hokd ((cmpok_gt_iff hokd _ _).mp hgt0) hcwu
        have hgtu := (cmpok_gt_iff hokd _ _).mpr hlt
        have := hMemM u hu
        omega
      have hRfull : (x4.drop (lev - lsv + (lsv + n - gev - 1))).countP
          (mkqs_class s a) = x.countP (mkqs_class s a) := by omega
      have hfiltL : (x4.take (lev - lsv)).filter (mkqs_class s a) = [] := by
        apply List.length_eq_zero.mp
        rw [← List.countP_eq_length_filter]
        exact hL0
      have hfiltM : ((x4.drop (lev - lsv)).take (lsv + n - gev - 1)).filter
          (mkqs_class s a) = [] := by
        apply List.length_eq_zero.mp
        rw [← List.countP_eq_length_filter]
        exact hM0
      have hfiltx : List.Perm (x.filter (mkqs_class s a))
          ((x4.drop (lev - lsv + (lsv + n - gev - 1))).filter (mkqs_class s a)) := by
        refine (Bperm.filter (mkqs_class s a)).symm.trans (List.Perm.of_eq ?_)
        conv_lhs => rw [← List.take_append_drop (lev - lsv) x4]
        rw [List.filter_append]
        conv_lhs => rw [← List.take_append_drop (lsv + n - gev - 1) (x4.drop (lev - lsv))]
        rw [List.filter_append, List.drop_drop, hfiltL, hfiltM]
        simp
      have hpure3 : ∀ u ∈ (x6.drop (n - (gev - gsv))).take (gev - gsv), ∀ d,
          d < depth → mkqs_compare_datum s u a d = 0 := by
        intro u hu
        rw [hslice] at hu
        exact hpure u (SM3 u hu)
      have hcnt3 : 2 ≤ ((x6.drop (n - (gev - gsv))).take (gev - gsv)).countP
          (mkqs_class s a) := by
        rw [hslice]
        omega
      obtain ⟨IH1, IH2⟩ := ih ((x6.drop (n - (gev - gsv))).take (gev - gsv))
        (gev - gsv) depth seenNull hlen3 hdle hnk hpure3 hok3 hcnt3
      rw [← hr3def] at IH1 IH2
      have hdups1 : ∀ c ∈ r1.dups, c.slice.countP (mkqs_class s a) = 0 := by
        rw [hr1def]
        intro c hc
        rw [List.countP_eq_zero]
        intro u hu hpu
        have hmem := mkqs_dups_slices_mem s fuel _ (lev - lsv) depth seenNull htakeL c hc u hu
        exact List.countP_eq_zero.mp hL0 u hmem hpu
      have hdups2 : ∀ c ∈ r2.dups, c.slice.countP (mkqs_class s a) = 0 := by
        rw [hr2def]
        split_ifs with hdk hdup2
        · intro c hc
          rw [List.countP_eq_zero]
          intro u hu hpu
          have hmem := mkqs_dups_slices_mem s fuel _ _ (depth + 1) _ heqlen c hc u hu
          rw [hx5dropL] at hmem
          exact List.countP_eq_zero.mp hM0 u hmem hpu
        · intro c hc
          simp only [List.mem_singleton] at hc
          subst hc
          dsimp only
          rw [hx5dropL]
          exact hM0
        · intro c hc
          simp at hc
      have hz1 : r1.dups.countP (mkqs_touches s a) = 0 := by
        rw [List.countP_eq_zero]
        intro c hc htc
        rw [mkqs_touches_eq_true, hdups1 c hc] at htc
        omega
      have hz2 : r2.dups.countP (mkqs_touches s a) = 0 := by
        rw [List.countP_eq_zero]
        intro c hc htc
        rw [mkqs_touches_eq_true, hdups2 c hc] at htc
        omega
      constructor
      · rw [List.countP_append, List.countP_append, hz1, hz2, IH1]
      · intro c hc htouch
        simp only [List.mem_append] at hc
        rcases hc with (hc | hc) | hc
        · rw [mkqs_touches_eq_true, hdups1 c hc] at htouch
          omega
        · rw [mkqs_touches_eq_true, hdups2 c hc] at htouch
          omega
        · obtain ⟨hperm, hlen, hdep⟩ := IH2 c hc htouch
          rw [hslice] at hperm hlen
          exact ⟨hperm.trans hfiltx.symm, by rw [hlen, hRfull], hdep⟩

/-! ## Converse of the pre-ordered scan: sorted input passes the check -/

theorem mkqs_preordered_loop_conv [Inhabited α] (s : Tuplesortstate α) (x : List α) :
    ∀ count i,
      (∀ j, i ≤ j → j < i + count →
        mkqs_compare_tuple s (aget x j) (aget x (j + 1)) ≤ 0) →
      mkqs_preordered_loop s x i count = true := by
  intro count
  induction count with
  | zero => intro i _; rfl
  | succ c ih =>
    intro i hall
    simp only [mkqs_preordered_loop]
    rw [if_neg (by have := hall i le_rfl (by omega); omega)]
    exact ih (i + 1) (fun j h1 h2 => hall j (by omega) (by omega))

/-! ## The concrete comparator is well-behaved -/

theorem ocmp_asym (a b : Option Int) : ocmp a b < 0 ↔ ocmp b a > 0 := by
  rcases a with _ | av <;> rcases b with _ | bv <;> simp [ocmp] <;> split_ifs <;> omega

theorem ocmp_le_trans (a b c : Option Int) (h1 : ocmp a b ≤ 0) (h2 : ocmp b c ≤ 0) :
    ocmp a c ≤ 0 := by
  rcases a with _ | av <;> rcases b with _ | bv <;> rcases c with _ | cv <;>
    simp [ocmp] at h1 h2 ⊢ <;> split_ifs at h1 h2 ⊢ <;> omega

theorem ocmp_zero_isNone (a b : Option Int) (h : ocmp a b = 0) : a.isNone = b.isNone := by
  rcases a with _ | av <;> rcases b with _ | bv <;> simp [ocmp] at h ⊢

theorem testState_cmp0 (kind : MkqsCompFuncType) (dup : Bool) (a b : TestTuple) :
    mkqs_compare_datum (testState kind dup) a b 0 = ocmp a.1 b.1 := by
  cases kind <;>
    simp [mkqs_compare_datum, mkqs_compare_datum_by_shortcut,
      mkqs_compare_datum_tiebreak, testState]

theorem testState_cmp1 (kind : MkqsCompFuncType) (dup : Bool) (a b : TestTuple) :
    mkqs_compare_datum (testState kind dup) a b 1 = ocmp a.2.1 b.2.1 := by
  simp [mkqs_compare_datum, mkqs_compare_datum_tiebreak, testState]

theorem testState_cmpok (kind : MkqsCompFuncType) (dup : Bool) :
    StateCmpOK (testState kind dup) := by
  intro depth hdepth
  have h2 : depth < 2 := hdepth
  by_cases hd0 : depth = 0
  · subst hd0
    constructor
    · intro a b
      rw [testState_cmp0, testState_cmp0]
      exact ocmp_asym a.1 b.1
    · intro a b c hab hbc
      rw [testState_cmp0] at hab hbc ⊢
      exact ocmp_le_trans _ _ _ hab hbc
  · have hd1 : depth = 1 := by omega
    subst hd1
    constructor
    · intro a b
      rw [testState_cmp1, testState_cmp1]
      exact ocmp_asym a.2.1 b.2.1
    · intro a b c hab hbc
      rw [testState_cmp1] at hab hbc ⊢
      exact ocmp_le_trans _ _ _ hab hbc

theorem testState_nullok (kind : MkqsCompFuncType) (dup : Bool) :
    StateNullOK (testState kind dup) := by
  intro depth hdepth a b hab
  have h2 : depth < 2 := hdepth
  by_cases hd0 : depth = 0
  · subst hd0
    rw [testState_cmp0] at hab
    simp only [check_datum_null, if_pos rfl]
    show a.1.isNone = b.1.isNone
    exact ocmp_zero_isNone a.1 b.1 hab
  · have hd1 : depth = 1 := by omega
    subst hd1
    rw [testState_cmp1] at hab
    show (testState kind dup).datumNullAt 1 a = (testState kind dup).datumNullAt 1 b
    dsimp only [testState]
    rw [if_neg (by omega), if_pos rfl, if_neg (by omega), if_pos rfl]
    exact ocmp_zero_isNone a.2.1 b.2.1 hab

/-! ## The claims -/

/-- C1: for every input array and every valid state (well-behaved
comparators, at least two sort keys), a completed call
`mk_qsort_tuple(x, n, 0, state, false)` leaves the array in
non-decreasing order under the lexicographic order induced by the
configured sort keys. -/
theorem c1_mk_qsort_tuple_sorted [Inhabited α] (s : Tuplesortstate α) (x : List α)
    (n : Nat) (hok : StateCmpOK s) (hkeys : 2 ≤ s.nKeys) (hx : x.length = n) :
    AdjSorted (fun t1 t2 => mkqs_lex s t1 t2 0) (mk_qsort_tuple s x n 0 false).arr := by
  unfold mk_qsort_tuple
  exact mk_qsort_tuple_fuel_sorted s hok (mkqs_enough_fuel s n 0) x n 0 false hx
    (by omega)
    (mk_qsort_tuple_fuel_ok s (mkqs_enough_fuel s n 0) x n 0 false (by omega) hx
      (by unfold mkqs_enough_fuel; omega))

theorem c1_witness :
    StateCmpOK (testState .INT32 false) ∧ 2 ≤ (testState .INT32 false).nKeys
    ∧ ([((some 2, some 1, 0) : TestTuple), (some 1, some 2, 1),
        (some 1, some 1, 2)]).length = 3
    ∧ AdjSorted (fun t1 t2 => mkqs_lex (testState .INT32 false) t1 t2 0)
        (mk_qsort_tuple (testState .INT32 false)
          [((some 2, some 1, 0) : TestTuple), (some 1, some 2, 1), (some 1, some 1, 2)]
          3 0 false).arr :=
  ⟨testState_cmpok .INT32 false, by decide, by decide,
    c1_mk_qsort_tuple_sorted (testState .INT32 false)
      [((some 2, some 1, 0) : TestTuple), (some 1, some 2, 1), (some 1, some 1, 2)]
      3 (testState_cmpok .INT32 false) (by decide) (by decide)⟩

/-- C2: the sort only permutes: for every recursion budget (so in
particular at every point where a cancellation could unwind the run) and
for the completed entry-point call, the multiset of tuples in the array
equals the multiset of the input. -/
theorem c2_mk_qsort_tuple_perm [Inhabited α] (s : Tuplesortstate α) (x : List α)
    (n : Nat) (hx : x.length = n) :
    (∀ fuel depth seenNull,
      List.Perm (mk_qsort_tuple_fuel s fuel x n depth seenNull).arr x)
    ∧ ∀ depth seenNull, List.Perm (mk_qsort_tuple s x n depth seenNull).arr x := by
  constructor
  · intro fuel depth seenNull
    exact (mk_qsort_tuple_fuel_len_perm s fuel x n depth seenNull hx).2
  · intro depth seenNull
    exact (mk_qsort_tuple_fuel_len_perm s (mkqs_enough_fuel s n depth) x n depth
      seenNull hx).2

theorem c2_witness :
    ([((some 2, some 1, 0) : TestTuple), (some 1, some 2, 1),
      (some 1, some 1, 2)]).length = 3
    ∧ ((∀ fuel depth seenNull,
        List.Perm (mk_qsort_tuple_fuel (testState .UNSIGNED true) fuel
          [((some 2, some 1, 0) : TestTuple), (some 1, some 2, 1), (some 1, some 1, 2)]
          3 depth seenNull).arr
          [((some 2, some 1, 0) : TestTuple), (some 1, some 2, 1), (some 1, some 1, 2)])
      ∧ ∀ depth seenNull,
        List.Perm (mk_qsort_tuple (testState .UNSIGNED true)
          [((some 2, some 1, 0) : TestTuple), (some 1, some 2, 1), (some 1, some 1, 2)]
          3 depth seenNull).arr
          [((some 2, some 1, 0) : TestTuple), (some 1, some 2, 1), (some 1, some 1, 2)]) :=
  ⟨by decide, c2_mk_qsort_tuple_perm (testState .UNSIGNED true)
    [((some 2, some 1, 0) : TestTuple), (some 1, some 2, 1), (some 1, some 1, 2)]
    3 (by decide)⟩

/-- C3, counterexample: with the INT32 specialized comparator, a
duplicate handler installed and an input of two tuples equal at every
key, the completed call invokes the handler zero times, not once: the
non-generic pre-ordered short-circuit returns before the duplicate
handling is reached. -/
theorem c3_counterexample :
    (testState .INT32 true).mkqsHandleDupFunc = true
    ∧ EqAllKeys (testState .INT32 true) ((some 1, some 1, 0) : TestTuple)
        ((some 1, some 1, 1) : TestTuple)
    ∧ (mk_qsort_tuple (testState .INT32 true)
        [((some 1, some 1, 0) : TestTuple), (some 1, some 1, 1)] 2 0 false).ok = true
    ∧ (mk_qsort_tuple (testState .INT32 true)
        [((some 1, some 1, 0) : TestTuple), (some 1, some 1, 1)] 2 0 false).dups = [] :=
  ⟨by decide, by decide, by decide, by decide⟩

/-- C3 (amended): for the GENERIC comparator kind, for every input in
which at least two tuples lie in the equivalence class of a tuple `a`
(equal at every configured sort key), a completed call with a duplicate
handler installed invokes the handler exactly once on a slice touching
that class; that slice is exactly the class members of the input (as a
multiset), its reported length is the class size, and the call happens
at depth `nKeys - 1`.  For non-GENERIC kinds the pre-ordered
short-circuit can return without invoking the handler (see the
counterexample). -/
theorem c3_amended_dup_exactly_once [Inhabited α] (s : Tuplesortstate α)
    (hok : StateCmpOK s) (hgen : s.mkqsCompFuncType = .GENERIC)
    (hdup : s.mkqsHandleDupFunc = true) (hnk : 1 ≤ s.nKeys)
    (x : List α) (n : Nat) (hx : x.length = n) (a : α)
    (hcnt : 2 ≤ x.countP (mkqs_class s a)) :
    (mk_qsort_tuple s x n 0 false).dups.countP (mkqs_touches s a) = 1
    ∧ ∀ c ∈ (mk_qsort_tuple s x n 0 false).dups, mkqs_touches s a c = true →
        c.slice.Perm (x.filter (mkqs_class s a))
        ∧ c.len = x.countP (mkqs_class s a)
        ∧ c.depth = s.nKeys - 1 := by
  unfold mk_qsort_tuple
  exact mkqs_dup_master s hok hgen hdup a (mkqs_enough_fuel s n 0) x n 0 false hx
    (by omega) hnk (fun u _ d hd => absurd hd (by omega))
    (mk_qsort_tuple_fuel_ok s (mkqs_enough_fuel s n 0) x n 0 false (by omega) hx
      (by unfold mkqs_enough_fuel; omega)) hcnt

theorem c3_amended_witness :
    StateCmpOK (testState .GENERIC true)
    ∧ (testState .GENERIC true).mkqsCompFuncType = .GENERIC
    ∧ (testState .GENERIC true).mkqsHandleDupFunc = true
    ∧ 1 ≤ (testState .GENERIC true).nKeys
    ∧ ([((some 1, some 1, 0) : TestTuple), (some 2, some 1, 1),
        (some 1, some 1, 2)]).length = 3
    ∧ 2 ≤ ([((some 1, some 1, 0) : TestTuple), (some 2, some 1, 1),
        (some 1, some 1, 2)]).countP
          (mkqs_class (testState .GENERIC true) ((some 1, some 1, 5) : TestTuple))
    ∧ ((mk_qsort_tuple (testState .GENERIC true)
        [((some 1, some 1, 0) : TestTuple), (some 2, some 1, 1), (some 1, some 1, 2)]
        3 0 false).dups.countP
          (mkqs_touches (testState .GENERIC true) ((some 1, some 1, 5) : TestTuple)) = 1
      ∧ ∀ c ∈ (mk_qsort_tuple (testState .GENERIC true)
          [((some 1, some 1, 0) : TestTuple), (some 2, some 1, 1), (some 1, some 1, 2)]
          3 0 false).dups,
          mkqs_touches (testState .GENERIC true) ((some 1, some 1, 5) : TestTuple) c
            = true →
          c.slice.Perm
            (([((some 1, some 1, 0) : TestTuple), (some 2, some 1, 1),
              (some 1, some 1, 2)]).filter
              (mkqs_class (testState .GENERIC true) ((some 1, some 1, 5) : TestTuple)))
          ∧ c.len = ([((some 1, some 1, 0) : TestTuple), (some 2, some 1, 1),
              (some 1, some 1, 2)]).countP
              (mkqs_class (testState .GENERIC true) ((some 1, some 1, 5) : TestTuple))
          ∧ c.depth = (testState .GENERIC true).nKeys - 1) :=
  ⟨testState_cmpok .GENERIC true, rfl, rfl, by decide, by decide, by decide,
    c3_amended_dup_exactly_once (testState .GENERIC true)
      (testState_cmpok .GENERIC true) rfl rfl (by decide)
      [((some 1, some 1, 0) : TestTuple), (some 2, some 1, 1), (some 1, some 1, 2)]
      3 (by decide) ((some 1, some 1, 5) : TestTuple) (by decide)⟩

/-- C4, counterexample: a duplicate handler can receive
`seen_null = true` although no key above the deepest key is NULL in the
equal run: the null-ness of the deepest key itself (here depth 1 of 2)
is ORed into the flag by the recursion step that descends to the last
depth. -/
theorem c4_counterexample :
    ∃ c ∈ (mk_qsort_tuple (testState .GENERIC true)
        [((some 1, none, 0) : TestTuple), (some 1, none, 1)] 2 0 false).dups,
      c.seenNull = true
      ∧ ∀ u ∈ c.slice, check_datum_null (testState .GENERIC true) u 0 = false := by
  decide

/-- C4 (amended): for a state whose comparators are well-behaved and
whose null observation is consistent with comparison, every
`handle_duplicates` call made by a depth-0 run receives
`seen_null = true` if and only if at least one of the keys at depths
`0 .. nKeys - 1` — the deepest key included — is NULL in the tuples of
the equal run. -/
theorem c4_amended_seennull_iff [Inhabited α] (s : Tuplesortstate α)
    (hok : StateCmpOK s) (hnull : StateNullOK s) (x : List α) (n : Nat)
    (hx : x.length = n) :
    ∀ c ∈ (mk_qsort_tuple s x n 0 false).dups, ∀ u ∈ c.slice,
      (c.seenNull = true ↔ ∃ d, d < s.nKeys ∧ check_datum_null s u d = true) := by
  intro c hc
  refine (mkqs_seennull_master s hok hnull (mkqs_enough_fuel s n 0) x n 0 false hx
    (Nat.zero_le _) ?_ c hc).2.2.2
  intro u hu
  constructor
  · intro hfalse
    exact absurd hfalse (by decide)
  · rintro ⟨d, hd, -⟩
    exact absurd hd (by omega)

theorem c4_amended_witness :
    StateCmpOK (testState .GENERIC true) ∧ StateNullOK (testState .GENERIC true)
    ∧ ([((some 1, none, 0) : TestTuple), (some 1, none, 1)]).length = 2
    ∧ ∀ c ∈ (mk_qsort_tuple (testState .GENERIC true)
        [((some 1, none, 0) : TestTuple), (some 1, none, 1)] 2 0 false).dups,
        ∀ u ∈ c.slice,
        (c.seenNull = true ↔
          ∃ d, d < (testState .GENERIC true).nKeys
            ∧ check_datum_null (testState .GENERIC true) u d = true) :=
  ⟨testState_cmpok .GENERIC true, testState_nullok .GENERIC true, by decide,
    c4_amended_seennull_iff (testState .GENERIC true) (testState_cmpok .GENERIC true)
      (testState_nullok .GENERIC true)
      [((some 1, none, 0) : TestTuple), (some 1, none, 1)] 2 (by decide)⟩

/-- C5, counterexample: with the GENERIC comparator kind and a duplicate
handler installed, re-running `mk_qsort_tuple` on the output of a first
run changes the array: the strict pre-ordered check fails on the equal
pair, the partition re-runs, and the pivot swap reorders tuples that
compare equal on all keys. -/
theorem c5_counterexample :
    (mk_qsort_tuple (testState .GENERIC true)
      (mk_qsort_tuple (testState .GENERIC true)
        [((some 1, some 1, 0) : TestTuple), (some 1, some 1, 1), (some 2, some 1, 3),
          (some 2, some 1, 2), (some 3, some 1, 4)] 5 0 false).arr 5 0 false).arr
    ≠ (mk_qsort_tuple (testState .GENERIC true)
        [((some 1, some 1, 0) : TestTuple), (some 1, some 1, 1), (some 2, some 1, 3),
          (some 2, some 1, 2), (some 3, some 1, 4)] 5 0 false).arr := by
  decide

/-- C5 (amended): for every non-GENERIC comparator kind and well-behaved
comparators, sorting is idempotent: a second depth-0 run on the output
of a first run returns the identical sequence of tuples, because the
full-tuple pre-ordered check short-circuits on the sorted array.  For
the GENERIC kind this fails (see the counterexample). -/
theorem c5_amended_idempotent [Inhabited α] (s : Tuplesortstate α)
    (hok : StateCmpOK s) (hkind : s.mkqsCompFuncType ≠ .GENERIC)
    (x : List α) (n : Nat) (hx : x.length = n) :
    (mk_qsort_tuple s (mk_qsort_tuple s x n 0 false).arr n 0 false).arr
      = (mk_qsort_tuple s x n 0 false).arr := by
  set y := (mk_qsort_tuple s x n 0 false).arr with hydef
  have hylen : y.length = n := by
    rw [hydef]
    unfold mk_qsort_tuple
    exact (mk_qsort_tuple_fuel_len_perm s (mkqs_enough_fuel s n 0) x n 0 false hx).1
  show (mk_qsort_tuple s y n 0 false).arr = y
  unfold mk_qsort_tuple mkqs_enough_fuel
  simp only [mk_qsort_tuple_fuel]
  by_cases h1 : n ≤ 1
  · rw [if_pos h1]
  rw [if_neg h1]
  by_cases h2 : (0 : Nat) = s.nKeys
  · rw [if_pos h2]
  rw [if_neg h2]
  have hsorted : AdjSorted (fun t1 t2 => mkqs_lex s t1 t2 0) y := by
    rw [hydef]
    unfold mk_qsort_tuple
    exact mk_qsort_tuple_fuel_sorted s hok (mkqs_enough_fuel s n 0) x n 0 false hx
      (by omega)
      (mk_qsort_tuple_fuel_ok s (mkqs_enough_fuel s n 0) x n 0 false (by omega) hx
        (by unfold mkqs_enough_fuel; omega))
  have hcheck : mkqs_preordered_check s y n 0 = true := by
    unfold mkqs_preordered_check
    rw [if_pos hkind, if_pos rfl]
    apply mkqs_preordered_loop_conv
    intro j hj1 hj2
    rw [mkqs_compare_tuple, mkqs_compare_tuple_by_range_eq_lex s _ _ 0 (by omega)]
    exact hsorted j (by omega)
  rw [if_pos hcheck]

theorem c5_amended_witness :
    StateCmpOK (testState .INT32 true)
    ∧ (testState .INT32 true).mkqsCompFuncType ≠ .GENERIC
    ∧ ([((some 2, some 1, 0) : TestTuple), (some 1, some 1, 1),
        (some 1, some 1, 2)]).length = 3
    ∧ (mk_qsort_tuple (testState .INT32 true)
        (mk_qsort_tuple (testState .INT32 true)
          [((some 2, some 1, 0) : TestTuple), (some 1, some 1, 1), (some 1, some 1, 2)]
          3 0 false).arr 3 0 false).arr
      = (mk_qsort_tuple (testState .INT32 true)
          [((some 2, some 1, 0) : TestTuple), (some 1, some 1, 1), (some 1, some 1, 2)]
          3 0 false).arr :=
  ⟨testState_cmpok .INT32 true, by decide, by decide,
    c5_amended_idempotent (testState .INT32 true) (testState_cmpok .INT32 true)
      (by decide)
      [((some 2, some 1, 0) : TestTuple), (some 1, some 1, 1), (some 1, some 1, 2)]
      3 (by decide)⟩

/-- C6: after the three-way partition and the two folding block swaps,
the slice has layout `[less | equals | greater]` relative to the chosen
pivot at the current depth: strictly smaller tuples first, then the
tuples equal to the pivot — a region of size
`less_start + (n - greater_end - 1)` beginning at offset
`less_end - less_start` — then the strictly greater tuples. -/
theorem c6_partition_layout [Inhabited α] (s : Tuplesortstate α) (x : List α)
    (n depth : Nat) (hok : StateCmpOK s) (hd : depth < s.nKeys)
    (hx : x.length = n) (hn : 2 ≤ n)
    (y : List α) (lessStart lessEnd greaterStart greaterEnd : Nat)
    (heq : mkqs_partition_and_fold s x n depth
      = (y, lessStart, lessEnd, greaterStart, greaterEnd)) :
    y.length = n ∧ List.Perm y x ∧
    (∀ i, i < lessEnd - lessStart →
      mkqs_compare_datum s (aget y i)
        (aget x (mkqs_choose_pivot s x n depth)) depth < 0) ∧
    (∀ i, lessEnd - lessStart ≤ i →
      i < (lessEnd - lessStart) + (lessStart + (n - greaterEnd - 1)) →
      mkqs_compare_datum s (aget y i)
        (aget x (mkqs_choose_pivot s x n depth)) depth = 0) ∧
    (∀ i, (lessEnd - lessStart) + (lessStart + (n - greaterEnd - 1)) ≤ i → i < n →
      mkqs_compare_datum s (aget y i)
        (aget x (mkqs_choose_pivot s x n depth)) depth > 0) := by
  obtain ⟨hlen, hperm, B1, B2, B3, B4, B5, Flt, Feq, Fgt⟩ :=
    mkqs_partition_and_fold_spec s x n depth hx hn (hok depth hd) y _ _ _ _ heq
  refine ⟨hlen, hperm, Flt, ?_, ?_⟩
  · intro i h1 h2
    exact Feq i h1 (by omega)
  · intro i h1 h2
    exact Fgt i (by omega) h2

theorem c6_witness :
    StateCmpOK (testState .INT32 false) ∧ 0 < (testState .INT32 false).nKeys
    ∧ ([((some 3, some 1, 0) : TestTuple), (some 1, some 2, 1), (some 2, some 1, 2),
        (some 1, some 1, 3), (some 2, some 2, 4)]).length = 5
    ∧ 2 ≤ 5
    ∧ mkqs_partition_and_fold (testState .INT32 false)
        [((some 3, some 1, 0) : TestTuple), (some 1, some 2, 1), (some 2, some 1, 2),
          (some 1, some 1, 3), (some 2, some 2, 4)] 5 0
      = ([((some 1, some 1, 3) : TestTuple), (some 1, some 2, 1), (some 2, some 1, 2),
          (some 2, some 2, 4), (some 3, some 1, 0)], 1, 3, 2, 3)
    ∧ (([((some 1, some 1, 3) : TestTuple), (some 1, some 2, 1), (some 2, some 1, 2),
          (some 2, some 2, 4), (some 3, some 1, 0)]).length = 5
      ∧ List.Perm
          [((some 1, some 1, 3) : TestTuple), (some 1, some 2, 1), (some 2, some 1, 2),
            (some 2, some 2, 4), (some 3, some 1, 0)]
          [((some 3, some 1, 0) : TestTuple), (some 1, some 2, 1), (some 2, some 1, 2),
            (some 1, some 1, 3), (some 2, some 2, 4)] ∧
      (∀ i, i < 3 - 1 →
        mkqs_compare_datum (testState .INT32 false)
          (aget [((some 1, some 1, 3) : TestTuple), (some 1, some 2, 1),
            (some 2, some 1, 2), (some 2, some 2, 4), (some 3, some 1, 0)] i)
          (aget [((some 3, some 1, 0) : TestTuple), (some 1, some 2, 1),
            (some 2, some 1, 2), (some 1, some 1, 3), (some 2, some 2, 4)]
            (mkqs_choose_pivot (testState .INT32 false)
              [((some 3, some 1, 0) : TestTuple), (some 1, some 2, 1),
                (some 2, some 1, 2), (some 1, some 1, 3), (some 2, some 2, 4)] 5 0))
          0 < 0) ∧
      (∀ i, 3 - 1 ≤ i → i < (3 - 1) + (1 + (5 - 3 - 1)) →
        mkqs_compare_datum (testState .INT32 false)
          (aget [((some 1, some 1, 3) : TestTuple), (some 1, some 2, 1),
            (some 2, some 1, 2), (some 2, some 2, 4), (some 3, some 1, 0)] i)
          (aget [((some 3, some 1, 0) : TestTuple), (some 1, some 2, 1),
            (some 2, some 1, 2), (some 1, some 1, 3), (some 2, some 2, 4)]
            (mkqs_choose_pivot (testState .INT32 false)
              [((some 3, some 1, 0) : TestTuple), (some 1, some 2, 1),
                (some 2, some 1, 2), (some 1, some 1, 3), (some 2, some 2, 4)] 5 0))
          0 = 0) ∧
      (∀ i, (3 - 1) + (1 + (5 - 3 - 1)) ≤ i → i < 5 →
        mkqs_compare_datum (testState .INT32 false)
          (aget [((some 1, some 1, 3) : TestTuple), (some 1, some 2, 1),
            (some 2, some 1, 2), (some 2, some 2, 4), (some 3, some 1, 0)] i)
          (aget [((some 3, some 1, 0) : TestTuple), (some 1, some 2, 1),
            (some 2, some 1, 2), (some 1, some 1, 3), (some 2, some 2, 4)]
            (mkqs_choose_pivot (testState .INT32 false)
              [((some 3, some 1, 0) : TestTuple), (some 1, some 2, 1),
                (some 2, some 1, 2), (some 1, some 1, 3), (some 2, some 2, 4)] 5 0))
          0 > 0)) :=
  ⟨testState_cmpok .INT32 false, by decide, by decide, by decide, by decide,
    c6_partition_layout (testState .INT32 false)
      [((some 3, some 1, 0) : TestTuple), (some 1, some 2, 1), (some 2, some 1, 2),
        (some 1, some 1, 3), (some 2, some 2, 4)] 5 0
      (testState_cmpok .INT32 false) (by decide) (by decide) (by decide)
      [((some 1, some 1, 3) : TestTuple), (some 1, some 2, 1), (some 2, some 1, 2),
        (some 2, some 2, 4), (some 3, some 1, 0)] 1 3 2 3 (by decide)⟩

/-- C7: the range comparator is the lexicographic composition of the
per-depth comparator: at every depth `d < nKeys` it equals the
specification-side lexicographic comparison, returns the first non-zero
per-depth comparison over `[d, nKeys)`, and returns 0 when all of them
are zero.  (At depth 0 both sides begin with the shortcut comparison and
the abbreviated tie-break, which the per-depth comparator
`mkqs_compare_datum` performs at depth 0.) -/
theorem c7_range_eq_lex (s : Tuplesortstate α) (t1 t2 : α) (depth : Nat)
    (hd : depth < s.nKeys) :
    mkqs_compare_tuple_by_range s t1 t2 depth = mkqs_lex s t1 t2 depth
    ∧ ((∀ j, depth ≤ j → j < s.nKeys → mkqs_compare_datum s t1 t2 j = 0) →
        mkqs_compare_tuple_by_range s t1 t2 depth = 0)
    ∧ (∀ j, depth ≤ j → j < s.nKeys →
        (∀ e, depth ≤ e → e < j → mkqs_compare_datum s t1 t2 e = 0) →
        mkqs_compare_datum s t1 t2 j ≠ 0 →
        mkqs_compare_tuple_by_range s t1 t2 depth = mkqs_compare_datum s t1 t2 j) := by
  have h0 := mkqs_compare_tuple_by_range_eq_lex s t1 t2 depth hd
  refine ⟨h0, ?_, ?_⟩
  · intro hall
    rw [h0]
    exact mkqs_lex_eq_zero s t1 t2 depth hall
  · intro j h1 h2 hall hj
    rw [h0]
    exact mkqs_lex_first s t1 t2 depth j h1 h2 hall hj

theorem c7_witness :
    (0 : Nat) < (testState .SIGNED false).nKeys
    ∧ (mkqs_compare_tuple_by_range (testState .SIGNED false)
        ((some 1, some 2, 0) : TestTuple) ((some 1, some 1, 1) : TestTuple) 0
        = mkqs_lex (testState .SIGNED false)
          ((some 1, some 2, 0) : TestTuple) ((some 1, some 1, 1) : TestTuple) 0
      ∧ ((∀ j, 0 ≤ j → j < (testState .SIGNED false).nKeys →
          mkqs_compare_datum (testState .SIGNED false)
            ((some 1, some 2, 0) : TestTuple) ((some 1, some 1, 1) : TestTuple) j = 0) →
          mkqs_compare_tuple_by_range (testState .SIGNED false)
            ((some 1, some 2, 0) : TestTuple) ((some 1, some 1, 1) : TestTuple) 0 = 0)
      ∧ (∀ j, 0 ≤ j → j < (testState .SIGNED false).nKeys →
          (∀ e, 0 ≤ e → e < j →
            mkqs_compare_datum (testState .SIGNED false)
              ((some 1, some 2, 0) : TestTuple) ((some 1, some 1, 1) : TestTuple) e = 0) →
          mkqs_compare_datum (testState .SIGNED false)
            ((some 1, some 2, 0) : TestTuple) ((some 1, some 1, 1) : TestTuple) j ≠ 0 →
          mkqs_compare_tuple_by_range (testState .SIGNED false)
            ((some 1, some 2, 0) : TestTuple) ((some 1, some 1, 1) : TestTuple) 0
            = mkqs_compare_datum (testState .SIGNED false)
              ((some 1, some 2, 0) : TestTuple) ((some 1, some 1, 1) : TestTuple) j)) :=
  ⟨by decide, c7_range_eq_lex (testState .SIGNED false)
    ((some 1, some 2, 0) : TestTuple) ((some 1, some 1, 1) : TestTuple) 0 (by decide)⟩

/-- C8: `mk_qsort_tuple` terminates: the entry-point step counter
`n * (nKeys + 1 - depth) + 1` always suffices — the run completes
(`ok = true`) with it, and with any larger counter, because every
recursive call strictly decreases `n * (nKeys + 1 - depth)`: the less
and greater sub-slices exclude the pivot's equal class, and the equal
sub-slice advances `depth` by one, bounded by `nKeys`. -/
theorem c8_terminates [Inhabited α] (s : Tuplesortstate α) (x : List α)
    (n depth : Nat) (seenNull : Bool) (hd : depth ≤ s.nKeys) (hx : x.length = n) :
    (mk_qsort_tuple s x n depth seenNull).ok = true
    ∧ ∀ fuel, mkqs_enough_fuel s n depth ≤ fuel →
        (mk_qsort_tuple_fuel s fuel x n depth seenNull).ok = true := by
  constructor
  · unfold mk_qsort_tuple
    exact mk_qsort_tuple_fuel_ok s (mkqs_enough_fuel s n depth) x n depth seenNull
      hd hx (by unfold mkqs_enough_fuel; omega)
  · intro fuel hf
    unfold mkqs_enough_fuel at hf
    exact mk_qsort_tuple_fuel_ok s fuel x n depth seenNull hd hx (by omega)

theorem c8_witness :
    (0 : Nat) ≤ (testState .GENERIC true).nKeys
    ∧ ([((some 2, some 1, 0) : TestTuple), (some 1, some 1, 1),
        (some 1, some 1, 2)]).length = 3
    ∧ ((mk_qsort_tuple (testState .GENERIC true)
        [((some 2, some 1, 0) : TestTuple), (some 1, some 1, 1), (some 1, some 1, 2)]
        3 0 false).ok = true
      ∧ ∀ fuel, mkqs_enough_fuel (testState .GENERIC true) 3 0 ≤ fuel →
        (mk_qsort_tuple_fuel (testState .GENERIC true) fuel
          [((some 2, some 1, 0) : TestTuple), (some 1, some 1, 1), (some 1, some 1, 2)]
          3 0 false).ok = true) :=
  ⟨by decide, by decide,
    c8_terminates (testState .GENERIC true)
      [((some 2, some 1, 0) : TestTuple), (some 1, some 1, 1), (some 1, some 1, 2)]
      3 0 false (by decide) (by decide)⟩

/-- C9: pivot selection follows the three-regime rule at the current
depth: the middle index `n / 2` for `n ≤ 7`; the median of positions
`{0, n/2, n-1}` under the per-depth comparison for `7 < n ≤ 40`; and for
`n > 40`, with `del = n / 8`, the ninther: the median of the three
medians of the triples `{0, del, 2*del}`,
`{n/2 - del, n/2, n/2 + del}` and `{n-1-2*del, n-1-del, n-1}`. -/
theorem c9_pivot_three_regimes [Inhabited α] (s : Tuplesortstate α) (x : List α)
    (n depth : Nat) (hok : StateCmpOK s) (hd : depth < s.nKeys) :
    (n ≤ 7 → mkqs_choose_pivot s x n depth = n / 2)
    ∧ (7 < n → n ≤ 40 →
        mkqs_choose_pivot s x n depth
          = get_median_from_three s 0 (n / 2) (n - 1) x depth
        ∧ IsMedianIdx s x depth 0 (n / 2) (n - 1) (mkqs_choose_pivot s x n depth))
    ∧ (40 < n →
        mkqs_choose_pivot s x n depth
          = get_median_from_three s
              (get_median_from_three s 0 (0 + n / 8) (0 + 2 * (n / 8)) x depth)
              (get_median_from_three s (n / 2 - n / 8) (n / 2) (n / 2 + n / 8) x depth)
              (get_median_from_three s (n - 1 - 2 * (n / 8)) (n - 1 - n / 8) (n - 1)
                x depth)
              x depth
        ∧ IsMedianIdx s x depth 0 (0 + n / 8) (0 + 2 * (n / 8))
            (get_median_from_three s 0 (0 + n / 8) (0 + 2 * (n / 8)) x depth)
        ∧ IsMedianIdx s x depth (n / 2 - n / 8) (n / 2) (n / 2 + n / 8)
            (get_median_from_three s (n / 2 - n / 8) (n / 2) (n / 2 + n / 8) x depth)
        ∧ IsMedianIdx s x depth (n - 1 - 2 * (n / 8)) (n - 1 - n / 8) (n - 1)
            (get_median_from_three s (n - 1 - 2 * (n / 8)) (n - 1 - n / 8) (n - 1)
              x depth)
        ∧ IsMedianIdx s x depth
            (get_median_from_three s 0 (0 + n / 8) (0 + 2 * (n / 8)) x depth)
            (get_median_from_three s (n / 2 - n / 8) (n / 2) (n / 2 + n / 8) x depth)
            (get_median_from_three s (n - 1 - 2 * (n / 8)) (n - 1 - n / 8) (n - 1)
              x depth)
            (mkqs_choose_pivot s x n depth)) := by
  have hokd := hok depth hd
  refine ⟨?_, ?_, ?_⟩
  · intro h7
    unfold mkqs_choose_pivot
    dsimp only
    rw [if_neg (by omega)]
  · intro h7 h40
    have hch : mkqs_choose_pivot s x n depth
        = get_median_from_three s 0 (n / 2) (n - 1) x depth := by
      unfold mkqs_choose_pivot
      dsimp only
      rw [if_pos (by omega), if_neg (by omega)]
    refine ⟨hch, ?_⟩
    rw [hch]
    exact get_median_from_three_spec s x depth hokd 0 (n / 2) (n - 1)
  · intro h40
    have hch : mkqs_choose_pivot s x n depth
        = get_median_from_three s
            (get_median_from_three s 0 (0 + n / 8) (0 + 2 * (n / 8)) x depth)
            (get_median_from_three s (n / 2 - n / 8) (n / 2) (n / 2 + n / 8) x depth)
            (get_median_from_three s (n - 1 - 2 * (n / 8)) (n - 1 - n / 8) (n - 1)
              x depth)
            x depth := by
      unfold mkqs_choose_pivot
      dsimp only
      rw [if_pos (by omega), if_pos (by omega)]
    refine ⟨hch, get_median_from_three_spec s x depth hokd _ _ _,
      get_median_from_three_spec s x depth hokd _ _ _,
      get_median_from_three_spec s x depth hokd _ _ _, ?_⟩
    rw [hch]
    exact get_median_from_three_spec s x depth hokd _ _ _

theorem c9_witness :
    StateCmpOK (testState .UNSIGNED false) ∧ (0 : Nat) < (testState .UNSIGNED false).nKeys
    ∧ ((50 ≤ 7 → mkqs_choose_pivot (testState .UNSIGNED false)
          [((some 2, some 1, 0) : TestTuple), (some 1, some 1, 1)] 50 0 = 50 / 2)
      ∧ (7 < 50 → 50 ≤ 40 →
          mkqs_choose_pivot (testState .UNSIGNED false)
            [((some 2, some 1, 0) : TestTuple), (some 1, some 1, 1)] 50 0
            = get_median_from_three (testState .UNSIGNED false) 0 (50 / 2) (50 - 1)
              [((some 2, some 1, 0) : TestTuple), (some 1, some 1, 1)] 0
          ∧ IsMedianIdx (testState .UNSIGNED false)
              [((some 2, some 1, 0) : TestTuple), (some 1, some 1, 1)] 0
              0 (50 / 2) (50 - 1)
              (mkqs_choose_pivot (testState .UNSIGNED false)
                [((some 2, some 1, 0) : TestTuple), (some 1, some 1, 1)] 50 0))
      ∧ (40 < 50 →
          mkqs_choose_pivot (testState .UNSIGNED false)
            [((some 2, some 1, 0) : TestTuple), (some 1, some 1, 1)] 50 0
            = get_median_from_three (testState .UNSIGNED false)
              (get_median_from_three (testState .UNSIGNED false) 0 (0 + 50 / 8)
                (0 + 2 * (50 / 8))
                [((some 2, some 1, 0) : TestTuple), (some 1, some 1, 1)] 0)
              (get_median_from_three (testState .UNSIGNED false) (50 / 2 - 50 / 8)
                (50 / 2) (50 / 2 + 50 / 8)
                [((some 2, some 1, 0) : TestTuple), (some 1, some 1, 1)] 0)
              (get_median_from_three (testState .UNSIGNED false) (50 - 1 - 2 * (50 / 8))
                (50 - 1 - 50 / 8) (50 - 1)
                [((some 2, some 1, 0) : TestTuple), (some 1, some 1, 1)] 0)
              [((some 2, some 1, 0) : TestTuple), (some 1, some 1, 1)] 0
          ∧ IsMedianIdx (testState .UNSIGNED false)
              [((some 2, some 1, 0) : TestTuple), (some 1, some 1, 1)] 0
              0 (0 + 50 / 8) (0 + 2 * (50 / 8))
              (get_median_from_three (testState .UNSIGNED false) 0 (0 + 50 / 8)
                (0 + 2 * (50 / 8))
                [((some 2, some 1, 0) : TestTuple), (some 1, some 1, 1)] 0)
          ∧ IsMedianIdx (testState .UNSIGNED false)
              [((some 2, some 1, 0) : TestTuple), (some 1, some 1, 1)] 0
              (50 / 2 - 50 / 8) (50 / 2) (50 / 2 + 50 / 8)
              (get_median_from_three (testState .UNSIGNED false) (50 / 2 - 50 / 8)
                (50 / 2) (50 / 2 + 50 / 8)
                [((some 2, some 1, 0) : TestTuple), (some 1, some 1, 1)] 0)
          ∧ IsMedianIdx (testState .UNSIGNED false)
              [((some 2, some 1, 0) : TestTuple), (some 1, some 1, 1)] 0
              (50 - 1 - 2 * (50 / 8)) (50 - 1 - 50 / 8) (50 - 1)
              (get_median_from_three (testState .UNSIGNED false) (50 - 1 - 2 * (50 / 8))
                (50 - 1 - 50 / 8) (50 - 1)
                [((some 2, some 1, 0) : TestTuple), (some 1, some 1, 1)] 0)
          ∧ IsMedianIdx (testState .UNSIGNED false)
              [((some 2, some 1, 0) : TestTuple), (some 1, some 1, 1)] 0
              (get_median_from_three (testState .UNSIGNED false) 0 (0 + 50 / 8)
                (0 + 2 * (50 / 8))
                [((some 2, some 1, 0) : TestTuple), (some 1, some 1, 1)] 0)
              (get_median_from_three (testState .UNSIGNED false) (50 / 2 - 50 / 8)
                (50 / 2) (50 / 2 + 50 / 8)
                [((some 2, some 1, 0) : TestTuple), (some 1, some 1, 1)] 0)
              (get_median_from_three (testState .UNSIGNED false) (50 - 1 - 2 * (50 / 8))
                (50 - 1 - 50 / 8) (50 - 1)
                [((some 2, some 1, 0) : TestTuple), (some 1, some 1, 1)] 0)
              (mkqs_choose_pivot (testState .UNSIGNED false)
                [((some 2, some 1, 0) : TestTuple), (some 1, some 1, 1)] 50 0))) :=
  ⟨testState_cmpok .UNSIGNED false, by decide,
    c9_pivot_three_regimes (testState .UNSIGNED false)
      [((some 2, some 1, 0) : TestTuple), (some 1, some 1, 1)] 50 0
      (testState_cmpok .UNSIGNED false) (by decide)⟩

/-- C10: whenever the small-N insertion-sort path is taken (1 < n < 16,
no duplicate handler, pre-ordered check failed), the result is the
insertion sort of the slice, and the pass is stable: it swaps adjacent
tuples only on a strictly-greater range comparison, so for every
reference tuple `t` the subsequence of tuples comparing equal to `t`
from the current depth onward is unchanged. -/
theorem c10_small_n_stable [Inhabited α] (s : Tuplesortstate α) (x : List α)
    (n depth : Nat) (seenNull : Bool) (hok : StateCmpOK s) (hd : depth < s.nKeys)
    (hx : x.length = n) (hn1 : 1 < n) (hn16 : n < 16)
    (hdup : s.mkqsHandleDupFunc = false)
    (hpre : mkqs_preordered_check s x n depth = false) :
    (mk_qsort_tuple s x n depth seenNull).arr = mkqs_bubble s depth x 0 n
    ∧ ∀ t : α,
      ((mk_qsort_tuple s x n depth seenNull).arr).filter
          (fun u => mkqs_compare_tuple_by_range s u t depth == 0)
        = x.filter (fun u => mkqs_compare_tuple_by_range s u t depth == 0) := by
  have harr : (mk_qsort_tuple s x n depth seenNull).arr = mkqs_bubble s depth x 0 n := by
    unfold mk_qsort_tuple mkqs_enough_fuel
    simp only [mk_qsort_tuple_fuel]
    rw [if_neg (by omega), if_neg (by omega), if_neg (by simp [hpre]),
      if_pos ⟨hn16, by simp [hdup]⟩]
  refine ⟨harr, ?_⟩
  intro t
  rw [harr]
  have hRL : (fun u v => mkqs_compare_tuple_by_range s u v depth)
      = (fun u v => mkqs_lex s u v depth) :=
    funext fun u => funext fun v => mkqs_compare_tuple_by_range_eq_lex s u v depth hd
  have hokR : CmpOK (fun u v => mkqs_compare_tuple_by_range s u v depth) := by
    rw [hRL]
    exact mkqs_lex_cmpok s depth hok
  obtain ⟨-, Out2⟩ := mkqs_bubble_spec s depth hokR n x 0 (by omega)
    (fun i hia _ _ => absurd hia (by omega))
  apply Out2
  intro u v hgt hand
  obtain ⟨hu, hv⟩ := hand
  have hu2 : mkqs_compare_tuple_by_range s u t depth = 0 := by simpa using hu
  have hv2 : mkqs_compare_tuple_by_range s v t depth = 0 := by simpa using hv
  have huv : mkqs_compare_tuple_by_range s u v depth = 0 :=
    cmpok_eq_trans hokR hu2 (cmpok_eq_symm hokR hv2)
  omega

theorem c10_witness :
    StateCmpOK (testState .INT32 false) ∧ (0 : Nat) < (testState .INT32 false).nKeys
    ∧ ([((some 2, some 1, 0) : TestTuple), (some 1, some 1, 1),
        (some 1, some 1, 2)]).length = 3
    ∧ (1 : Nat) < 3 ∧ (3 : Nat) < 16
    ∧ (testState .INT32 false).mkqsHandleDupFunc = false
    ∧ mkqs_preordered_check (testState .INT32 false)
        [((some 2, some 1, 0) : TestTuple), (some 1, some 1, 1), (some 1, some 1, 2)]
        3 0 = false
    ∧ ((mk_qsort_tuple (testState .INT32 false)
        [((some 2, some 1, 0) : TestTuple), (some 1, some 1, 1), (some 1, some 1, 2)]
        3 0 false).arr
        = mkqs_bubble (testState .INT32 false) 0
            [((some 2, some 1, 0) : TestTuple), (some 1, some 1, 1), (some 1, some 1, 2)]
            0 3
      ∧ ∀ t : TestTuple,
        ((mk_qsort_tuple (testState .INT32 false)
          [((some 2, some 1, 0) : TestTuple), (some 1, some 1, 1), (some 1, some 1, 2)]
          3 0 false).arr).filter
            (fun u => mkqs_compare_tuple_by_range (testState .INT32 false) u t 0 == 0)
          = ([((some 2, some 1, 0) : TestTuple), (some 1, some 1, 1),
              (some 1, some 1, 2)]).filter
            (fun u => mkqs_compare_tuple_by_range (testState .INT32 false) u t 0 == 0)) :=
  ⟨testState_cmpok .INT32 false, by decide, by decide, by decide, by decide, rfl,
    by decide,
    c10_small_n_stable (testState .INT32 false)
      [((some 2, some 1, 0) : TestTuple), (some 1, some 1, 1), (some 1, some 1, 2)]
      3 0 false (testState_cmpok .INT32 false) (by decide) (by decide) (by decide)
      (by decide) rfl (by decide)⟩

end MkQsort
